import Mathlib

/-!
Verification of the `ont` outline-manipulation tool.

This file shallowly embeds the core of the repository:

* the outline tree model and its context-propagating iterator
  (`src/outline.rs`),
* directory projection: `read_directory`, `write_directory`, `build_files`
  (`src/collection.rs`, with the older revision in `src/lib.rs` where a
  claim refers to it), `tidy_delete` and `IoPipe::write`
  (`src/lib.rs`, `src/io_pipe.rs`),
* the weave cache: script discovery, hashing, the execution decision and
  output splicing (`src/weave.rs`).

Modelling conventions, used throughout:

* Rust `String` is Lean `String`; all string algorithms are re-implemented
  over `String.data` so that every definition is executable by the kernel.
* The IDM parser/printer (`idm` crate) is external to the repository; the
  spec treats it as an external printer/parser service whose printing is
  the canonical form of section 4.1 and whose parsing inverts printing.
  `printLines`/`parseLines` below are modelled from the spec on that basis.
* The filesystem is modelled as a finite tree of named entries (for the
  reading claims) and as an explicit record of file paths and directory
  paths (for the writing/deletion claims); `fs::read_dir` yields entries in
  an unspecified order, modelled here as lexicographic order by file name.
* `slice::sort_by` is called by the code with a comparator that is not a
  total order, so the result depends on the concrete algorithm; for slices
  below its threshold Rust's stable sort is an insertion sort whose
  `insert_tail` shifts each new element left only while it compares
  `Less` against its left neighbour, and `rustSortBy` below models
  exactly that.
* SHA-256 and base64 come from external crates; they are implemented here
  from their standards (FIPS 180-4, RFC 4648 URL-safe alphabet).
-/

namespace Ont

/-- A section of an outline: the head line plus the body outline, which is
flattened here into the body's attribute list and child list
(`src/outline.rs`: `Section { head, body }`, `Outline { attrs, children }`). -/
inductive Section : Type where
  | mk (head : String) (attrs : List (String × String))
      (children : List Section)

/-- An outline block: named attributes plus child sections
(`src/outline.rs`: `Outline`). Attribute insertion order is significant,
hence a list of pairs rather than a finite map. -/
structure Outline : Type where
  attrs : List (String × String)
  children : List Section

mutual

/-- Structural equality test for sections. -/
def beqSec : Section → Section → Bool
  | .mk h1 a1 c1, .mk h2 a2 c2 => h1 == h2 && a1 == a2 && beqSecs c1 c2

/-- Structural equality test for section lists. -/
def beqSecs : List Section → List Section → Bool
  | [], [] => true
  | s :: ss, t :: ts => beqSec s t && beqSecs ss ts
  | _, _ => false

end

mutual

theorem beqSec_iff : ∀ a b : Section, beqSec a b = true ↔ a = b
  | .mk h1 a1 c1, .mk h2 a2 c2 => by
      simp only [beqSec, Bool.and_eq_true, beq_iff_eq, beqSecs_iff,
        Section.mk.injEq]
      tauto

theorem beqSecs_iff : ∀ as bs : List Section, beqSecs as bs = true ↔ as = bs
  | [], [] => by simp [beqSecs]
  | [], _ :: _ => by simp [beqSecs]
  | _ :: _, [] => by simp [beqSecs]
  | s :: ss, t :: ts => by
      simp only [beqSecs, Bool.and_eq_true, beqSec_iff, beqSecs_iff,
        List.cons.injEq]

end

instance : DecidableEq Section := fun a b =>
  decidable_of_iff (beqSec a b = true) (beqSec_iff a b)

instance : DecidableEq Outline := fun a b =>
  match a, b with
  | ⟨aa, ac⟩, ⟨ba, bc⟩ =>
    decidable_of_iff (aa = ba ∧ ac = bc)
      (by constructor
          · rintro ⟨h1, h2⟩; cases h1; cases h2; rfl
          · intro h; cases h; exact ⟨rfl, rfl⟩)

def Section.head : Section → String
  | .mk h _ _ => h

def Section.attrs : Section → List (String × String)
  | .mk _ a _ => a

def Section.children : Section → List Section
  | .mk _ _ c => c

/-- The body outline of a section. -/
def Section.body (s : Section) : Outline :=
  ⟨s.attrs, s.children⟩

def Outline.toSection (head : String) (o : Outline) : Section :=
  .mk head o.attrs o.children

/-- Number of sections in a subtree, counting the section itself. -/
def Section.size : Section → Nat
  | .mk _ _ cs => 1 + sizeList cs
where sizeList : List Section → Nat
  | [] => 0
  | s :: rest => s.size + sizeList rest

/-- Total number of sections of a section list. -/
def sizeL (ss : List Section) : Nat := Section.size.sizeList ss

theorem sizeL_nil : sizeL [] = 0 := rfl

theorem sizeL_cons (s : Section) (rest : List Section) :
    sizeL (s :: rest) = s.size + sizeL rest := rfl

theorem Section.size_def (h : String) (a : List (String × String))
    (cs : List Section) : (Section.mk h a cs).size = 1 + sizeL cs := rfl

theorem Section.size_pos (s : Section) : 0 < s.size := by
  cases s with
  | mk h a cs => rw [Section.size_def]; omega

theorem sizeL_children_lt (s : Section) (rest : List Section) :
    sizeL s.children < sizeL (s :: rest) := by
  cases s with
  | mk h a cs =>
      rw [sizeL_cons, Section.size_def]
      simp only [Section.children]
      omega

theorem sizeL_rest_lt (s : Section) (rest : List Section) :
    sizeL rest < sizeL (s :: rest) := by
  rw [sizeL_cons]
  have := s.size_pos
  omega

/-! ## The context-propagating iterator (`src/outline.rs`, `ContextIterMut`)

The Rust iterator keeps a stack of `(context, outline pointer, index)`
triples.  On each `next` it pops exhausted levels, clones the top context,
yields the current child together with a mutable reference to the clone it
just pushed for that child's subtree, and advances the index.  The caller's
mutation of the yielded context reference happens between yields and is
modelled by a mutation function `m : C → Section → C` applied to the pushed
clone. -/

/-- One stack entry of the iterator: the context for this level and the
children not yet yielded (the Rust pair of outline pointer plus index is
represented by the remaining suffix of the child list). -/
abbrev CtxStack (C : Type*) := List (C × List Section)

/-- Nodes remaining on the iterator stack, the termination measure. -/
def stackNodes {C : Type*} (st : CtxStack C) : Nat :=
  (st.map fun e => sizeL e.2).sum

/-- The run of `ContextIterMut::next` until exhaustion, from a given stack:
the list of `(context value observed, section)` pairs in yield order.
Mirrors `ContextIterMut::next` in `src/outline.rs` lines 218-259: pop
completed ranges, stop when empty, otherwise clone the top context, yield
the current item, push the (caller-mutated) clone with the item's children.
-/
def machineRun {C : Type*} (m : C → Section → C) :
    CtxStack C → List (C × Section)
  | [] => []
  | (_, []) :: rest => machineRun m rest
  | (c, s :: ss) :: rest =>
      (c, s) :: machineRun m ((m c s, s.children) :: (c, ss) :: rest)
termination_by st => 2 * stackNodes st + st.length
decreasing_by
  · simp only [stackNodes, List.map_cons, List.sum_cons, sizeL_nil,
      List.length_cons]
    omega
  · simp only [stackNodes, List.map_cons, List.sum_cons, sizeL_cons,
      List.length_cons]
    cases s with
    | mk h a cs =>
      simp only [Section.size_def, Section.children]
      omega

/-- The specification of the context walk, written as the obvious pre-order
recursion: a node is yielded with its parent's context value `c`; its
children are walked with the caller-mutated clone `m c s`; its later
siblings are walked with `c` unchanged. -/
def specWalk {C : Type*} (m : C → Section → C) (c : C) :
    List Section → List (C × Section)
  | [] => []
  | s :: rest => (c, s) :: (specWalk m (m c s) s.children ++ specWalk m c rest)
termination_by ss => sizeL ss
decreasing_by
  · exact sizeL_children_lt s rest
  · exact sizeL_rest_lt s rest

/-- Pre-order listing of sections: each section before its descendants,
descendants before later siblings. -/
def preorder : List Section → List Section
  | [] => []
  | s :: rest => s :: (preorder s.children ++ preorder rest)
termination_by ss => sizeL ss
decreasing_by
  · exact sizeL_children_lt s rest
  · exact sizeL_rest_lt s rest

/-- `Outline::context_iter_mut(init)` starts with the singleton stack
holding the initial context and the outline's children
(`ContextIterMut::new`). -/
def contextIterMutRun {C : Type*} (m : C → Section → C) (init : C)
    (o : Outline) : List (C × Section) :=
  machineRun m [(init, o.children)]

theorem machineRun_nil {C : Type*} (m : C → Section → C) :
    machineRun m ([] : CtxStack C) = [] := by
  rw [machineRun]

theorem machineRun_exhausted {C : Type*} (m : C → Section → C) (c : C)
    (rest : CtxStack C) :
    machineRun m ((c, []) :: rest) = machineRun m rest := by
  rw [machineRun]

theorem machineRun_step {C : Type*} (m : C → Section → C) (c : C)
    (s : Section) (ss : List Section) (rest : CtxStack C) :
    machineRun m ((c, s :: ss) :: rest) =
      (c, s) :: machineRun m ((m c s, s.children) :: (c, ss) :: rest) := by
  rw [machineRun]

/-- The stack invariant: running the machine from any stack walks the
remaining children of each level in turn, each under its own context. -/
theorem machineRun_eq_specWalk_stack {C : Type*} (m : C → Section → C) :
    ∀ st : CtxStack C,
      machineRun m st = (st.map fun e => specWalk m e.1 e.2).flatten := by
  intro st
  induction st using machineRun.induct m with
  | case1 => simp [machineRun_nil]
  | case2 c rest ih =>
      simp [machineRun_exhausted, specWalk, ih]
  | case3 c s ss rest ih =>
      rw [machineRun_step, ih]
      simp [specWalk]

theorem specWalk_map_snd {C : Type*} (m : C → Section → C) :
    ∀ (c : C) (ss : List Section),
      (specWalk m c ss).map Prod.snd = preorder ss := by
  intro c ss
  induction c, ss using specWalk.induct m with
  | case1 c => simp [specWalk, preorder]
  | case2 c s rest ih1 ih2 =>
      rw [specWalk, preorder]
      simp only [List.map_cons, List.map_append, ih1, ih2]

/-- **C4.** Context-propagating traversal: the pointer-stack iterator
`ContextIterMut` (modelled by `machineRun`, with the caller's context
mutation given by `m`) yields exactly the pre-order walk `specWalk`, in
which every node is yielded with its parent's context value as it stood
when the parent was visited, the node's subtree is walked with the
caller-mutated clone `m c s` (so mutations reach all descendants), and the
node's later siblings and its ancestors are walked with the untouched
parent context `c`; the yielded sections are in document order
(`preorder`). -/
theorem contextIterMut_run_eq_specWalk {C : Type*} (m : C → Section → C)
    (init : C) (o : Outline) :
    contextIterMutRun m init o = specWalk m init o.children ∧
    (contextIterMutRun m init o).map Prod.snd = preorder o.children := by
  have h := machineRun_eq_specWalk_stack m [(init, o.children)]
  simp only [List.map_cons, List.map_nil, List.flatten_cons, List.flatten_nil,
    List.append_nil] at h
  exact ⟨h, by rw [contextIterMutRun] at *; rw [h, specWalk_map_snd]⟩

/-! ## String utilities

All algorithms below work on `String.data` (a `List Char`) so that every
definition reduces in the kernel. -/

/-- ASCII whitespace, the subset of `char::is_whitespace` relevant here. -/
def isWsChar (c : Char) : Bool :=
  c = ' ' || c = '\t' || c = '\n' || c = '\r'

theorem length_dropWhile_le {α : Type*} (p : α → Bool) (xs : List α) :
    (xs.dropWhile p).length ≤ xs.length := by
  induction xs with
  | nil => simp [List.dropWhile]
  | cons x xs ih =>
      rw [List.dropWhile]
      cases p x <;> simp <;> omega

/-- Split a string's characters into lines, like Rust's `str::lines`
(without `\r\n` handling): a trailing newline does not produce a final
empty line. -/
def splitLinesCh : List Char → List (List Char)
  | [] => []
  | '\n' :: rest => [] :: splitLinesCh rest
  | c :: rest =>
      match splitLinesCh rest with
      | [] => [[c]]
      | l :: ls => (c :: l) :: ls

/-- Line split of a string. -/
def splitLines (s : String) : List String :=
  (splitLinesCh s.data).map (fun l => ⟨l⟩)

/-- Join lines, terminating every line with a newline (the shape produced
by repeated `writeln!`). -/
def joinNl (ls : List String) : String :=
  match ls with
  | [] => ""
  | l :: rest => l ++ "\n" ++ joinNl rest

/-- Join lines with newline separators and no trailing newline (the value
of a multi-line attribute reassembled from its block lines). -/
def joinSep (ls : List String) : String :=
  match ls with
  | [] => ""
  | [l] => l
  | l :: rest => l ++ "\n" ++ joinSep rest

/-- Number of leading space characters of a line. -/
def indentOfCh : List Char → Nat
  | ' ' :: rest => indentOfCh rest + 1
  | _ => 0

def indentOf (l : String) : Nat := indentOfCh l.data

/-- Drop the first `n` characters. -/
def dropStr (n : Nat) (s : String) : String := ⟨s.data.drop n⟩

/-- Take the first `n` characters. -/
def takeStr (n : Nat) (s : String) : String := ⟨s.data.take n⟩

/-- Whether the character occurs in the string. -/
def strHas (s : String) (c : Char) : Bool := s.data.contains c

/-- Whether `p` is a prefix of `s` (Rust `str::starts_with`). -/
def strStarts (s p : String) : Bool := p.data.isPrefixOf s.data

/-- Whether `p` is a suffix of `s` (Rust `str::ends_with`). -/
def strEnds (s p : String) : Bool := p.data.isSuffixOf s.data

/-- Rust `str::trim` restricted to ASCII whitespace. -/
def trimStr (s : String) : String :=
  ⟨((s.data.dropWhile isWsChar).reverse.dropWhile isWsChar).reverse⟩

/-- First character, if any. -/
def firstChar (s : String) : Option Char := s.data.head?

/-- Last character, if any. -/
def lastChar (s : String) : Option Char := s.data.getLast?

/-- `2*d` spaces, the indentation prefix of depth `d` at two-space
indentation. -/
def indentStr : Nat → String
  | 0 => ""
  | d + 1 => "  " ++ indentStr d

/-! ## The canonical printer

Modelled from the spec, section 4.1 ("each attribute is emitted as
`:name value` inline, or `:name` followed by the value's lines indented one
level deeper when the value contains embedded newlines; each child Section
is emitted as its head line followed by its body printed one indent level
deeper"); this is also exactly `impl fmt::Display for Outline` in
`src/outline.rs` lines 325-365.  The `idm` crate's `to_string_styled` with
the default two-space indentation is modelled by the same printer; other
indentation units are covered by the `unit` parameter. -/

/-- The indentation prefix of depth `d` built from indentation unit
`unit`. -/
def indentU (unit : String) : Nat → String
  | 0 => ""
  | d + 1 => unit ++ indentU unit d

/-- The printed lines of a multi-line attribute value at depth `d`. -/
def printValU (unit : String) (d : Nat) (v : String) : List String :=
  (splitLines v).map (fun l => indentU unit d ++ l)

/-- The printed lines of an attribute block at depth `d`. -/
def printAttrsU (unit : String) (d : Nat) :
    List (String × String) → List String
  | [] => []
  | (k, v) :: rest =>
      (if strHas v '\n' then
        (indentU unit d ++ ":" ++ k) :: printValU unit (d + 1) v
      else
        [indentU unit d ++ ":" ++ k ++ " " ++ v]) ++ printAttrsU unit d rest

mutual

/-- The printed lines of one section at depth `d`: head line, then the
body one level deeper. -/
def printSecU (unit : String) (d : Nat) : Section → List String
  | .mk h a cs =>
      (indentU unit d ++ h) ::
        (printAttrsU unit (d + 1) a ++ printSecsU unit (d + 1) cs)

/-- The printed lines of a section list at depth `d`. -/
def printSecsU (unit : String) (d : Nat) : List Section → List String
  | [] => []
  | s :: rest => printSecU unit d s ++ printSecsU unit d rest

end

/-- The printed lines of an outline block at depth `d`. -/
def printBlockU (unit : String) (d : Nat) (o : Outline) : List String :=
  printAttrsU unit d o.attrs ++ printSecsU unit d o.children

/-- The canonical two-space printed lines. -/
def printBlock (d : Nat) (o : Outline) : List String :=
  printBlockU "  " d o

/-- The canonical printed text of an outline: every line is terminated by a
newline.  Models `Outline`'s `Display` and `idm::to_string` at the default
style. -/
def printOutline (o : Outline) : String := joinNl (printBlock 0 o)

/-- `idm::to_string_styled style outline`: spaces of the given width or
tabs as the indentation unit.  (`Indentation` is the `idm` crate's style
enum; its `Default` is two spaces.) -/
inductive Indentation : Type where
  | tabs : Indentation
  | spaces (width : Nat) : Indentation
deriving DecidableEq, Repr

def Indentation.default : Indentation := .spaces 2

def Indentation.unit : Indentation → String
  | .tabs => "\t"
  | .spaces w => ⟨List.replicate w ' '⟩

def toStringStyled (style : Indentation) (o : Outline) : String :=
  joinNl (printBlockU style.unit 0 o)

/-! ## The parser

Modelled from the spec, sections 4.1 and 8: parsing inverts the canonical
printing for any document representable in the model.  The parser is total
(the `idm` crate's reader is lenient); it reads two-space indentation,
which is the only style the directory reader produces (it re-indents
everything it assembles with two spaces and converts tabs). -/

/-- Parse the leading attribute block at depth `d`: consume lines of
indentation exactly `2*d` whose content starts with a colon.  An inline
value is everything after the first space following the name; otherwise the
value is the following deeper block, reassembled by stripping one extra
indentation level and joining with newlines.  The first argument is fuel,
at least the number of lines, so that the recursion is structural and the
kernel can evaluate it. -/
def parseAttrsF : Nat → Nat → List String →
    List (String × String) × List String
  | 0, _, ls => ([], ls)
  | _ + 1, _, [] => ([], [])
  | fuel + 1, d, l :: ls' =>
      let content := dropStr (indentOf l) l
      if indentOf l = 2 * d ∧ strStarts content ":" then
        let nv := (dropStr 1 content).data
        let name : String := ⟨nv.takeWhile (fun c => c ≠ ' ')⟩
        match nv.dropWhile (fun c => c ≠ ' ') with
        | ' ' :: val =>
            let res := parseAttrsF fuel d ls'
            ((name, ⟨val⟩) :: res.1, res.2)
        | _ =>
            let res := parseAttrsF fuel d
              (ls'.dropWhile (fun l2 => 2 * (d + 1) ≤ indentOf l2))
            ((name,
              joinSep
                ((ls'.takeWhile (fun l2 => 2 * (d + 1) ≤ indentOf l2)).map
                  (dropStr (2 * (d + 1))))) :: res.1, res.2)
      else ([], l :: ls')

/-- Parse the child sections of a block at depth `d`: a line of indentation
at least `2*d` starts a section whose head is the line minus `2*d`
characters; its body is parsed one level deeper; a line with smaller
indentation ends the block.  Fuel-structured like `parseAttrsF`. -/
def parseChildrenF : Nat → Nat → List String → List Section × List String
  | 0, _, ls => ([], ls)
  | _ + 1, _, [] => ([], [])
  | fuel + 1, d, l :: ls' =>
      if indentOf l < 2 * d then ([], l :: ls')
      else
        let resA := parseAttrsF fuel (d + 1) ls'
        let resC := parseChildrenF fuel (d + 1) resA.2
        let resS := parseChildrenF fuel d resC.2
        (Section.mk (dropStr (2 * d) l) resA.1 resC.1 :: resS.1, resS.2)

theorem parseAttrsF_rest_le (fuel d : Nat) :
    ∀ ls : List String, (parseAttrsF fuel d ls).2.length ≤ ls.length := by
  induction fuel with
  | zero => intro ls; rw [parseAttrsF]
  | succ fuel ih =>
      intro ls
      cases ls with
      | nil => rw [parseAttrsF]
      | cons l ls' =>
          rw [parseAttrsF]
          dsimp only
          split
          · split
            · have := ih ls'
              simp only [List.length_cons]
              omega
            · have h1 := ih (ls'.dropWhile
                (fun l2 => decide (2 * (d + 1) ≤ indentOf l2)))
              have h2 := length_dropWhile_le
                (fun l2 => decide (2 * (d + 1) ≤ indentOf l2)) ls'
              simp only [List.length_cons]
              omega
          · exact Nat.le_refl _

theorem parseChildrenF_rest_le (fuel : Nat) :
    ∀ (d : Nat) (ls : List String),
      (parseChildrenF fuel d ls).2.length ≤ ls.length := by
  induction fuel with
  | zero => intro d ls; rw [parseChildrenF]
  | succ fuel ih =>
      intro d ls
      cases ls with
      | nil => rw [parseChildrenF]
      | cons l ls' =>
          rw [parseChildrenF]
          dsimp only
          split
          · exact Nat.le_refl _
          · have h1 := parseAttrsF_rest_le fuel (d + 1) ls'
            have h2 := ih (d + 1) (parseAttrsF fuel (d + 1) ls').2
            have h3 := ih d
              (parseChildrenF fuel (d + 1) (parseAttrsF fuel (d + 1) ls').2).2
            simp only [List.length_cons]
            omega

/-- Parse an outline block at depth `d`: attribute block first, then child
sections. -/
def parseBlockF (fuel d : Nat) (ls : List String) : Outline × List String :=
  let resA := parseAttrsF fuel d ls
  let resC := parseChildrenF fuel d resA.2
  (⟨resA.1, resC.1⟩, resC.2)

/-- `idm::from_str::<Outline>`: parse a whole document. -/
def parseOutline (s : String) : Outline :=
  (parseBlockF (splitLines s).length 0 (splitLines s)).1

/-! ## Round trip of the printer and the parser

The spec's round-trip law (section 8): `parse(print(T)) == T` for any
outline with no malformed content.  Well-formedness captures exactly what
the printed form can represent: head lines carry no newline and do not
begin with a colon, a space or a tab; attribute keys carry no space and no
newline; attribute values do not end in a newline. -/

def wfKey (k : String) : Bool := !strHas k ' ' && !strHas k '\n'

def wfVal (v : String) : Bool :=
  match lastChar v with
  | some c => c ≠ '\n'
  | none => true

def wfHead (h : String) : Bool :=
  !strHas h '\n' &&
    (match firstChar h with
     | some c => c ≠ ':' && c ≠ ' ' && c ≠ '\t'
     | none => true)

def wfAttrsL (as : List (String × String)) : Bool :=
  as.all (fun kv => wfKey kv.1 && wfVal kv.2)

mutual

def wfSec : Section → Bool
  | .mk h a cs => wfHead h && wfAttrsL a && wfSecs cs

def wfSecs : List Section → Bool
  | [] => true
  | s :: rest => wfSec s && wfSecs rest

end

def wfOutline (o : Outline) : Bool := wfAttrsL o.attrs && wfSecs o.children

theorem indentU_two_data (d : Nat) :
    (indentU "  " d).data = List.replicate (2 * d) ' ' := by
  induction d with
  | zero => rfl
  | succ d ih =>
      show ("  " ++ indentU "  " d).data = _
      rw [String.data_append, ih]
      have h2 : 2 * (d + 1) = 2 * d + 1 + 1 := by omega
      rw [h2, List.replicate_succ, List.replicate_succ]
      rfl

theorem indentOfCh_replicate (n : Nat) (rest : List Char) :
    indentOfCh (List.replicate n ' ' ++ rest) = n + indentOfCh rest := by
  induction n with
  | zero => simp
  | succ n ih =>
      rw [List.replicate_succ, List.cons_append, indentOfCh, ih]
      omega

theorem indentOf_indentU (d : Nat) (s : String) :
    indentOf (indentU "  " d ++ s) = 2 * d + indentOf s := by
  show indentOfCh (indentU "  " d ++ s).data = _
  rw [String.data_append, indentU_two_data, indentOfCh_replicate]
  rfl

theorem dropStr_indentU (d : Nat) (s : String) :
    dropStr (2 * d) (indentU "  " d ++ s) = s := by
  apply String.ext
  show ((indentU "  " d ++ s).data).drop (2 * d) = s.data
  rw [String.data_append, indentU_two_data, List.drop_left' (by simp)]

theorem takeWhile_append_of_all {α : Type*} (p : α → Bool) (xs ys : List α)
    (h : ∀ x ∈ xs, p x = true) :
    (xs ++ ys).takeWhile p = xs ++ ys.takeWhile p := by
  induction xs with
  | nil => simp
  | cons x xs ih =>
      rw [List.cons_append, List.takeWhile_cons, h x (by simp),
        ih (fun x hx => h x (by simp [hx]))]
      simp

theorem dropWhile_append_of_all {α : Type*} (p : α → Bool) (xs ys : List α)
    (h : ∀ x ∈ xs, p x = true) :
    (xs ++ ys).dropWhile p = ys.dropWhile p := by
  induction xs with
  | nil => simp
  | cons x xs ih =>
      simp only [List.cons_append, List.dropWhile_cons, h x (by simp),
        if_true]
      exact ih (fun x hx => h x (by simp [hx]))

theorem takeWhile_of_all {α : Type*} (p : α → Bool) (xs : List α)
    (h : ∀ x ∈ xs, p x = true) : xs.takeWhile p = xs := by
  have := takeWhile_append_of_all p xs [] h
  simpa using this

theorem dropWhile_of_all {α : Type*} (p : α → Bool) (xs : List α)
    (h : ∀ x ∈ xs, p x = true) : xs.dropWhile p = [] := by
  have := dropWhile_append_of_all p xs [] h
  simpa using this

theorem strHas_false_all (s : String) (c : Char) (h : strHas s c = false) :
    ∀ x ∈ s.data, x ≠ c := by
  intro x hx hxc
  rw [strHas] at h
  subst hxc
  rw [List.contains_eq_any_beq] at h
  simp [List.any_eq_true] at h
  exact h x hx rfl

/-- Character-level version of `joinNl`. -/
def joinNlCh : List (List Char) → List Char
  | [] => []
  | l :: rest => l ++ '\n' :: joinNlCh rest

/-- Character-level version of `joinSep`. -/
def joinSepCh : List (List Char) → List Char
  | [] => []
  | [l] => l
  | l :: rest => l ++ '\n' :: joinSepCh rest

theorem joinNl_data (ls : List String) :
    (joinNl ls).data = joinNlCh (ls.map String.data) := by
  induction ls with
  | nil => rfl
  | cons l rest ih =>
      rw [joinNl, List.map_cons, joinNlCh, String.data_append,
        String.data_append, ih, List.append_assoc]
      rfl

theorem joinSep_map_mk_data :
    ∀ ls : List (List Char),
      (joinSep (ls.map (fun l => String.mk l))).data = joinSepCh ls
  | [] => rfl
  | [l] => rfl
  | l :: m :: ms => by
      have ih := joinSep_map_mk_data (m :: ms)
      simp only [List.map_cons] at ih ⊢
      rw [joinSep, joinSepCh, String.data_append, String.data_append, ih,
        List.append_assoc]
      · rfl
      all_goals simp

theorem splitLinesCh_newline (rest : List Char) :
    splitLinesCh ('\n' :: rest) = [] :: splitLinesCh rest := rfl

theorem splitLinesCh_other (c : Char) (rest : List Char) (h : c ≠ '\n') :
    splitLinesCh (c :: rest) =
      match splitLinesCh rest with
      | [] => [[c]]
      | l :: ls => (c :: l) :: ls := by
  rw [splitLinesCh.eq_def]
  split
  · simp_all
  · simp_all
  · rename_i heq
    rw [List.cons.injEq] at heq
    rw [heq.1, heq.2]

theorem splitLinesCh_ne_nil (cs : List Char) (h : cs ≠ []) :
    splitLinesCh cs ≠ [] := by
  cases cs with
  | nil => exact absurd rfl h
  | cons c rest =>
      by_cases hc : c = '\n'
      · subst hc; rw [splitLinesCh_newline]; simp
      · rw [splitLinesCh_other c rest hc]
        cases splitLinesCh rest <;> simp

/-- Splitting the newline-joined lines recovers the lines, provided no
line contains a newline itself. -/
theorem splitLinesCh_joinNlCh (lls : List (List Char))
    (h : ∀ l ∈ lls, '\n' ∉ l) :
    splitLinesCh (joinNlCh lls) = lls := by
  induction lls with
  | nil => rfl
  | cons l rest ih =>
      rw [joinNlCh]
      have hrest := ih (fun x hx => h x (by simp [hx]))
      have hl : '\n' ∉ l := h l (by simp)
      clear ih h
      induction l with
      | nil => rw [List.nil_append, splitLinesCh_newline, hrest]
      | cons c cs ihl =>
          have hc : c ≠ '\n' := by
            intro hc; exact hl (by simp [hc])
          rw [List.cons_append, splitLinesCh_other c _ hc]
          rw [ihl (by intro hx; exact hl (by simp [hx]))]

theorem splitLines_joinNl (ls : List String)
    (h : ∀ l ∈ ls, strHas l '\n' = false) :
    splitLines (joinNl ls) = ls := by
  rw [splitLines, joinNl_data, splitLinesCh_joinNlCh]
  · rw [List.map_map]
    exact List.map_id'' (fun x => rfl) ls
  · intro l hl
    rw [List.mem_map] at hl
    obtain ⟨s, hs, rfl⟩ := hl
    intro hmem
    exact strHas_false_all s '\n' (h s hs) '\n' hmem rfl

/-- Joining the split lines with newline separators recovers the string,
provided it does not end in a newline. -/
theorem joinSepCh_splitLinesCh (cs : List Char)
    (h : cs.getLast? ≠ some '\n') :
    joinSepCh (splitLinesCh cs) = cs := by
  induction cs with
  | nil => rfl
  | cons c rest ih =>
      have hrest : rest ≠ [] → rest.getLast? ≠ some '\n' := by
        intro hne
        cases rest with
        | nil => exact absurd rfl hne
        | cons r rs => rwa [List.getLast?_cons_cons] at h
      by_cases hc : c = '\n'
      · subst hc
        cases hrest2 : rest with
        | nil =>
            subst hrest2
            simp at h
        | cons r rs =>
            rw [← hrest2, splitLinesCh_newline]
            have hne : splitLinesCh rest ≠ [] :=
              splitLinesCh_ne_nil rest (by simp [hrest2])
            cases hsp : splitLinesCh rest with
            | nil => exact absurd hsp hne
            | cons m ms =>
                rw [joinSepCh]
                · rw [← hsp, ih (hrest (by simp [hrest2]))]
                  rfl
                all_goals simp
      · cases hrest2 : rest with
        | nil =>
            subst hrest2
            rw [splitLinesCh_other c [] hc]
            rfl
        | cons r rs =>
            subst hrest2
            rw [splitLinesCh_other c (r :: rs) hc]
            have hne : splitLinesCh (r :: rs) ≠ [] :=
              splitLinesCh_ne_nil _ (by simp)
            cases hsp : splitLinesCh (r :: rs) with
            | nil => exact absurd hsp hne
            | cons m ms =>
                have ih2 := ih (hrest (by simp))
                rw [hsp] at ih2
                cases ms with
                | nil =>
                    show joinSepCh [c :: m] = c :: r :: rs
                    have hm : m = r :: rs := ih2
                    rw [show joinSepCh [c :: m] = c :: m from rfl, hm]
                | cons m2 ms2 =>
                    show joinSepCh ((c :: m) :: m2 :: ms2) = c :: r :: rs
                    rw [show joinSepCh ((c :: m) :: m2 :: ms2) =
                      (c :: m) ++ '\n' :: joinSepCh (m2 :: ms2) from rfl]
                    rw [joinSepCh] at ih2
                    · rw [List.cons_append, ih2]
                    all_goals simp

theorem indentOfCh_cons_ne (c : Char) (rest : List Char) (h : c ≠ ' ') :
    indentOfCh (c :: rest) = 0 := by
  rw [indentOfCh.eq_def]
  split
  · simp_all
  · rfl

theorem wfHead_indentOf (h : String) (hwf : wfHead h = true) :
    indentOf h = 0 := by
  rw [wfHead] at hwf
  rw [indentOf]
  cases hd : h.data with
  | nil => rfl
  | cons c cs =>
      apply indentOfCh_cons_ne
      simp only [firstChar, hd, List.head?_cons, Bool.and_eq_true,
        decide_eq_true_eq] at hwf
      exact hwf.2.1.2

theorem strStarts_colon_false (s : String) (h : firstChar s ≠ some ':') :
    strStarts s ":" = false := by
  rw [strStarts]
  cases hd : s.data with
  | nil => rfl
  | cons c cs =>
      simp only [firstChar, hd, List.head?_cons, ne_eq,
        Option.some.injEq] at h
      show (':' :: []).isPrefixOf (c :: cs) = false
      rw [List.isPrefixOf]
      simp
      exact fun hh => h hh.symm

theorem strStarts_colon_true (t : String) : strStarts (":" ++ t) ":" = true := by
  rw [strStarts, String.data_append]
  show (':' :: []).isPrefixOf (':' :: t.data) = true
  rw [List.isPrefixOf]
  simp [List.isPrefixOf]

/-- The attribute line `indentU d ++ ":" ++ t` has indentation exactly
`2*d`. -/
theorem indentOf_attrLine (d : Nat) (t : String) :
    indentOf (indentU "  " d ++ ":" ++ t) = 2 * d := by
  rw [indentOf, String.data_append, String.data_append, indentU_two_data,
    List.append_assoc, indentOfCh_replicate]
  rw [show (":".data ++ t.data) = ':' :: t.data from rfl]
  rw [indentOfCh_cons_ne ':' t.data (by decide)]
  omega

theorem dropStr_attrLine (d : Nat) (t : String) :
    dropStr (2 * d) (indentU "  " d ++ ":" ++ t) = ":" ++ t := by
  apply String.ext
  show ((indentU "  " d ++ ":" ++ t).data).drop (2 * d) = (":" ++ t).data
  rw [String.data_append, String.data_append, indentU_two_data,
    List.append_assoc, List.drop_left' (by simp), String.data_append]

theorem dropStr_one_colon (t : String) : dropStr 1 (":" ++ t) = t := by
  apply String.ext
  show ((":" ++ t).data).drop 1 = t.data
  rw [String.data_append]
  rfl

/-- The `rest` after a printed attribute block neither continues it: its
first line is either shallower than the block or is a section head
(content not beginning with a colon). -/
def noAttrStart (d : Nat) : List String → Prop
  | [] => True
  | l :: _ => indentOf l ≤ 2 * d ∧
      ¬(indentOf l = 2 * d ∧ strStarts (dropStr (indentOf l) l) ":" = true)

/-- The first line of `rest`, if any, is shallower than depth `d`. -/
def belowDepth (d : Nat) : List String → Prop
  | [] => True
  | l :: _ => indentOf l < 2 * d

theorem belowDepth_noAttrStart {d : Nat} {ls : List String}
    (h : belowDepth d ls) : noAttrStart d ls := by
  cases ls with
  | nil => trivial
  | cons l ls =>
      rw [belowDepth] at h
      exact ⟨by omega, by intro hc; omega⟩

theorem wfKey_no_space {k : String} (h : wfKey k = true) :
    strHas k ' ' = false := by
  rw [wfKey] at h
  simp only [Bool.and_eq_true, Bool.not_eq_true'] at h
  exact h.1

theorem joinSep_splitLines (v : String) (hwf : wfVal v = true) :
    joinSep (splitLines v) = v := by
  have hv : v.data.getLast? ≠ some '\n' := by
    rw [wfVal, lastChar] at hwf
    cases hl : v.data.getLast? with
    | none => simp
    | some c =>
        rw [hl] at hwf
        simp only [decide_eq_true_eq] at hwf
        simp [hwf]
  apply String.ext
  rw [splitLines, joinSep_map_mk_data, joinSepCh_splitLinesCh v.data hv]

/-- Evaluating one inline-attribute line of the printed form. -/
theorem parseAttrsF_cons_inline (f d : Nat) (k v : String)
    (tail : List String) (hk : strHas k ' ' = false) :
    parseAttrsF (f + 1) d
        ((indentU "  " d ++ ":" ++ k ++ " " ++ v) :: tail) =
      ((k, v) :: (parseAttrsF f d tail).1, (parseAttrsF f d tail).2) := by
  have hassoc : indentU "  " d ++ ":" ++ k ++ " " ++ v =
      indentU "  " d ++ ":" ++ (k ++ (" " ++ v)) := by
    rw [String.append_assoc (indentU "  " d ++ ":" ++ k),
      String.append_assoc (indentU "  " d ++ ":")]
  rw [hassoc, parseAttrsF]
  dsimp only
  rw [indentOf_attrLine, dropStr_attrLine, dropStr_one_colon]
  rw [if_pos ⟨rfl, strStarts_colon_true _⟩]
  have hks : ∀ x ∈ k.data, (fun c => decide (c ≠ ' ')) x = true := by
    intro x hx
    simpa using strHas_false_all k ' ' hk x hx
  have hdata : (k ++ (" " ++ v)).data = k.data ++ ' ' :: v.data := by
    rw [String.data_append]
    rfl
  rw [hdata, takeWhile_append_of_all _ _ _ hks,
    dropWhile_append_of_all _ _ _ hks]
  rw [List.takeWhile_cons, List.dropWhile_cons]
  simp only [decide_eq_true_eq, if_neg (by simp : ¬(' ' ≠ ' '))]
  rw [List.append_nil]

/-- Evaluating one block-attribute group (key line plus indented value
lines) of the printed form. -/
theorem parseAttrsF_cons_block (f d : Nat) (k v : String)
    (tail : List String) (hk : strHas k ' ' = false) (hv : wfVal v = true)
    (htail : belowDepth (d + 1) tail) :
    parseAttrsF (f + 1) d
        ((indentU "  " d ++ ":" ++ k) :: (printValU "  " (d + 1) v ++ tail)) =
      ((k, v) :: (parseAttrsF f d tail).1, (parseAttrsF f d tail).2) := by
  rw [parseAttrsF]
  dsimp only
  rw [indentOf_attrLine, dropStr_attrLine, dropStr_one_colon]
  rw [if_pos ⟨rfl, strStarts_colon_true _⟩]
  have hks : ∀ x ∈ k.data, (fun c => decide (c ≠ ' ')) x = true := by
    intro x hx
    simpa using strHas_false_all k ' ' hk x hx
  rw [dropWhile_of_all _ _ hks, takeWhile_of_all _ _ hks]
  dsimp only
  have hval : ∀ x ∈ printValU "  " (d + 1) v,
      (fun l2 => decide (2 * (d + 1) ≤ indentOf l2)) x = true := by
    intro x hx
    rw [printValU, List.mem_map] at hx
    obtain ⟨l, _, rfl⟩ := hx
    simp only [decide_eq_true_eq]
    rw [indentOf_indentU]
    omega
  rw [takeWhile_append_of_all _ _ _ hval,
    dropWhile_append_of_all _ _ _ hval]
  have htk : tail.takeWhile
      (fun l2 => decide (2 * (d + 1) ≤ indentOf l2)) = [] := by
    cases tail with
    | nil => rfl
    | cons t ts =>
        rw [belowDepth] at htail
        rw [List.takeWhile_cons, if_neg (by simp; omega)]
  have hdw : tail.dropWhile
      (fun l2 => decide (2 * (d + 1) ≤ indentOf l2)) = tail := by
    cases tail with
    | nil => rfl
    | cons t ts =>
        rw [belowDepth] at htail
        rw [List.dropWhile_cons, if_neg (by simp; omega)]
  rw [htk, hdw, List.append_nil]
  have hmap : (printValU "  " (d + 1) v).map (dropStr (2 * (d + 1))) =
      splitLines v := by
    rw [printValU, List.map_map]
    exact List.map_id'' (fun l => dropStr_indentU (d + 1) l) _
  rw [hmap, joinSep_splitLines v hv]


theorem strHas_eq_false (s : String) (c : Char)
    (h : ∀ x ∈ s.data, x ≠ c) : strHas s c = false := by
  rw [strHas, List.contains_eq_any_beq, List.any_eq_false]
  intro x hx
  simp only [beq_iff_eq]
  exact fun hh => h x hx hh.symm

theorem strHas_append_false (a b : String) (c : Char)
    (ha : strHas a c = false) (hb : strHas b c = false) :
    strHas (a ++ b) c = false := by
  apply strHas_eq_false
  intro x hx
  rw [String.data_append, List.mem_append] at hx
  cases hx with
  | inl h => exact strHas_false_all a c ha x h
  | inr h => exact strHas_false_all b c hb x h

theorem indentU_no_newline (d : Nat) : strHas (indentU "  " d) '\n' = false := by
  apply strHas_eq_false
  intro x hx
  rw [indentU_two_data, List.mem_replicate] at hx
  rw [hx.2]
  decide

theorem indentOf_attrInline (d : Nat) (k v : String) :
    indentOf (indentU "  " d ++ ":" ++ k ++ " " ++ v) = 2 * d := by
  rw [String.append_assoc (indentU "  " d ++ ":" ++ k),
    String.append_assoc (indentU "  " d ++ ":")]
  exact indentOf_attrLine d _

/-- After a printed attribute block followed by an admissible rest, every
line is strictly shallower than depth `d+1`. -/
theorem printAttrsU_belowDepth (d : Nat) (as : List (String × String))
    (rest : List String) (h : noAttrStart d rest) :
    belowDepth (d + 1) (printAttrsU "  " d as ++ rest) := by
  cases as with
  | nil =>
      rw [printAttrsU, List.nil_append]
      cases rest with
      | nil => trivial
      | cons l ls =>
          rw [belowDepth]
          rw [noAttrStart] at h
          omega
  | cons kv as' =>
      obtain ⟨k, v⟩ := kv
      rw [printAttrsU]
      by_cases hnl : strHas v '\n' = true
      · rw [if_pos hnl]
        simp only [List.cons_append, List.append_assoc]
        rw [belowDepth, indentOf_attrLine]
        omega
      · rw [if_neg hnl]
        simp only [List.cons_append, List.nil_append, List.append_assoc]
        rw [belowDepth, indentOf_attrInline]
        omega

theorem wfSec_parts {h : String} {a : List (String × String)}
    {c : List Section} (hwf : wfSec (Section.mk h a c) = true) :
    wfHead h = true ∧ wfAttrsL a = true ∧ wfSecs c = true := by
  rw [wfSec] at hwf
  simp only [Bool.and_eq_true] at hwf
  exact ⟨hwf.1.1, hwf.1.2, hwf.2⟩

theorem wfSecs_parts {s : Section} {cs : List Section}
    (hwf : wfSecs (s :: cs) = true) :
    wfSec s = true ∧ wfSecs cs = true := by
  rw [wfSecs] at hwf
  simp only [Bool.and_eq_true] at hwf
  exact hwf

theorem wfHead_not_colon {h : String} (hwf : wfHead h = true) :
    firstChar h ≠ some ':' := by
  rw [wfHead] at hwf
  cases hd : firstChar h with
  | none => simp
  | some c =>
      rw [hd] at hwf
      dsimp only at hwf
      simp only [Bool.and_eq_true, decide_eq_true_eq] at hwf
      intro hc
      rw [Option.some.injEq] at hc
      exact hwf.2.1.1 hc

/-- A printed section list followed by a shallower rest does not begin
like an attribute line of depth `d`. -/
theorem printSecsU_noAttrStart (d : Nat) (cs : List Section)
    (rest : List String) (hwf : wfSecs cs = true)
    (h : belowDepth d rest) :
    noAttrStart d (printSecsU "  " d cs ++ rest) := by
  cases cs with
  | nil =>
      rw [printSecsU, List.nil_append]
      exact belowDepth_noAttrStart h
  | cons s cs' =>
      cases s with
      | mk hd a c =>
          have hwfh := (wfSec_parts (wfSecs_parts hwf).1).1
          rw [printSecsU, printSecU]
          simp only [List.cons_append, List.append_assoc]
          rw [noAttrStart, indentOf_indentU, wfHead_indentOf hd hwfh]
          constructor
          · omega
          · intro hcontra
            have hc := hcontra.2
            rw [show 2 * d + 0 = 2 * d from rfl, dropStr_indentU] at hc
            rw [strStarts_colon_false hd (wfHead_not_colon hwfh)] at hc
            exact Bool.false_ne_true hc

theorem printSecsU_belowDepth_succ (d : Nat) (cs : List Section)
    (rest : List String) (hwf : wfSecs cs = true) (h : belowDepth d rest) :
    belowDepth (d + 1) (printSecsU "  " d cs ++ rest) := by
  cases cs with
  | nil =>
      rw [printSecsU, List.nil_append]
      cases rest with
      | nil => trivial
      | cons l ls =>
          rw [belowDepth] at *
          omega
  | cons s cs' =>
      cases s with
      | mk hd a c =>
          have hwfh := (wfSec_parts (wfSecs_parts hwf).1).1
          rw [printSecsU, printSecU]
          simp only [List.cons_append, List.append_assoc]
          rw [belowDepth, indentOf_indentU, wfHead_indentOf hd hwfh]
          omega

/-- The attribute phase of the parser inverts the attribute printer. -/
theorem parseAttrsF_print :
    ∀ (as : List (String × String)) (d fuel : Nat) (rest : List String),
      wfAttrsL as = true → noAttrStart d rest →
      (printAttrsU "  " d as ++ rest).length ≤ fuel →
      parseAttrsF fuel d (printAttrsU "  " d as ++ rest) = (as, rest) := by
  intro as
  induction as with
  | nil =>
      intro d fuel rest _ hrest hfuel
      rw [printAttrsU, List.nil_append] at *
      cases rest with
      | nil =>
          cases fuel with
          | zero => rw [parseAttrsF]
          | succ f => rw [parseAttrsF]
      | cons l ls' =>
          cases fuel with
          | zero => simp at hfuel
          | succ f =>
              rw [parseAttrsF]
              dsimp only
              rw [noAttrStart] at hrest
              rw [if_neg hrest.2]
  | cons kv as' ih =>
      obtain ⟨k, v⟩ := kv
      intro d fuel rest hwf hrest hfuel
      have hparts : (wfKey k = true ∧ wfVal v = true) ∧ wfAttrsL as' = true := by
        rw [wfAttrsL, List.all_cons] at hwf
        simp only [Bool.and_eq_true] at hwf
        exact hwf
      rw [printAttrsU] at *
      by_cases hnl : strHas v '\n' = true
      · rw [if_pos hnl] at *
        simp only [List.cons_append, List.append_assoc] at *
        cases fuel with
        | zero => simp at hfuel
        | succ f =>
            rw [parseAttrsF_cons_block f d k v _
              (wfKey_no_space hparts.1.1) hparts.1.2
              (printAttrsU_belowDepth d as' rest hrest)]
            rw [ih d f rest hparts.2 hrest
              (by simp only [List.length_cons, List.length_append] at hfuel ⊢
                  omega)]
      · rw [if_neg hnl] at *
        simp only [List.cons_append, List.nil_append, List.append_assoc] at *
        cases fuel with
        | zero => simp at hfuel
        | succ f =>
            rw [parseAttrsF_cons_inline f d k v _
              (wfKey_no_space hparts.1.1)]
            rw [ih d f rest hparts.2 hrest
              (by simp only [List.length_cons, List.length_append] at hfuel ⊢
                  omega)]

/-- The section phase of the parser inverts the section printer. -/
theorem parseChildrenF_print :
    ∀ (cs : List Section) (d fuel : Nat) (rest : List String),
      wfSecs cs = true → belowDepth d rest →
      (printSecsU "  " d cs ++ rest).length ≤ fuel →
      parseChildrenF fuel d (printSecsU "  " d cs ++ rest) = (cs, rest)
  | [], d, fuel, rest => by
      intro _ hrest hfuel
      rw [printSecsU, List.nil_append] at *
      cases rest with
      | nil =>
          cases fuel with
          | zero => rw [parseChildrenF]
          | succ f => rw [parseChildrenF]
      | cons l ls' =>
          cases fuel with
          | zero => simp at hfuel
          | succ f =>
              rw [parseChildrenF]
              dsimp only
              rw [belowDepth] at hrest
              rw [if_pos hrest]
  | (Section.mk hd a c) :: cs', d, fuel, rest => by
      intro hwf hrest hfuel
      have hsec := wfSecs_parts hwf
      have hps := wfSec_parts hsec.1
      rw [printSecsU, printSecU] at *
      simp only [List.cons_append, List.append_assoc] at *
      cases fuel with
      | zero => simp at hfuel
      | succ f =>
          rw [parseChildrenF]
          dsimp only
          rw [indentOf_indentU, wfHead_indentOf hd hps.1]
          rw [if_neg (by omega)]
          rw [dropStr_indentU]
          have hA := parseAttrsF_print a (d + 1) f
            (printSecsU "  " (d + 1) c ++ (printSecsU "  " d cs' ++ rest))
            hps.2.1
            (printSecsU_noAttrStart (d + 1) c _ hps.2.2
              (printSecsU_belowDepth_succ d cs' rest hsec.2 hrest))
            (by simp only [List.length_cons, List.length_append] at hfuel ⊢
                omega)
          rw [hA]
          dsimp only
          have hC := parseChildrenF_print c (d + 1) f
            (printSecsU "  " d cs' ++ rest) hps.2.2
            (printSecsU_belowDepth_succ d cs' rest hsec.2 hrest)
            (by simp only [List.length_cons, List.length_append] at hfuel ⊢
                omega)
          rw [hC]
          dsimp only
          have hS := parseChildrenF_print cs' d f rest hsec.2 hrest
            (by simp only [List.length_cons, List.length_append] at hfuel ⊢
                omega)
          rw [hS]
termination_by cs => sizeL cs
decreasing_by
  · exact sizeL_children_lt (Section.mk hd a c) cs'
  · exact sizeL_rest_lt (Section.mk hd a c) cs'

/-- The block parser inverts the block printer. -/
theorem parseBlockF_print (o : Outline) (d fuel : Nat) (rest : List String)
    (hwf : wfOutline o = true) (hrest : belowDepth d rest)
    (hfuel : (printBlockU "  " d o ++ rest).length ≤ fuel) :
    parseBlockF fuel d (printBlockU "  " d o ++ rest) = (o, rest) := by
  obtain ⟨as, cs⟩ := o
  have hparts : wfAttrsL as = true ∧ wfSecs cs = true := by
    rw [wfOutline] at hwf
    simp only [Bool.and_eq_true] at hwf
    exact hwf
  rw [printBlockU] at *
  simp only [List.append_assoc] at *
  rw [parseBlockF]
  rw [parseAttrsF_print as d fuel (printSecsU "  " d cs ++ rest) hparts.1
    (printSecsU_noAttrStart d cs rest hparts.2 hrest)
    (by simp only [List.length_append] at hfuel ⊢
        omega)]
  dsimp only
  rw [parseChildrenF_print cs d fuel rest hparts.2 hrest
    (by simp only [List.length_append] at hfuel ⊢
        omega)]

theorem splitLinesCh_no_newline :
    ∀ (cs : List Char), ∀ l ∈ splitLinesCh cs, '\n' ∉ l := by
  intro cs
  induction cs with
  | nil => intro l hl; simp [splitLinesCh] at hl
  | cons c rest ih =>
      intro l hl
      by_cases hc : c = '\n'
      · subst hc
        rw [splitLinesCh_newline] at hl
        cases hl with
        | head => simp
        | tail _ h => exact ih l h
      · rw [splitLinesCh_other c rest hc] at hl
        cases hsp : splitLinesCh rest with
        | nil =>
            rw [hsp] at hl
            simp only [List.mem_singleton] at hl
            subst hl
            intro hmem
            simp only [List.mem_singleton] at hmem
            exact hc hmem.symm
        | cons m ms =>
            rw [hsp] at hl
            cases hl with
            | head =>
                intro hmem
                cases hmem with
                | head => exact hc rfl
                | tail _ h => exact ih m (by rw [hsp]; exact List.mem_cons_self m ms) h
            | tail _ h => exact ih l (by rw [hsp]; exact List.mem_cons_of_mem m h)

theorem splitLines_no_newline (v : String) :
    ∀ l ∈ splitLines v, strHas l '\n' = false := by
  intro l hl
  rw [splitLines, List.mem_map] at hl
  obtain ⟨cs, hcs, rfl⟩ := hl
  exact strHas_eq_false _ _
    (fun x hx hxe => splitLinesCh_no_newline v.data cs hcs (hxe ▸ hx))

theorem printValU_no_newline (d : Nat) (v : String) :
    ∀ l ∈ printValU "  " d v, strHas l '\n' = false := by
  intro l hl
  rw [printValU, List.mem_map] at hl
  obtain ⟨m, hm, rfl⟩ := hl
  exact strHas_append_false _ _ _ (indentU_no_newline d)
    (splitLines_no_newline v m hm)

theorem wfKey_no_newline {k : String} (h : wfKey k = true) :
    strHas k '\n' = false := by
  rw [wfKey] at h
  simp only [Bool.and_eq_true, Bool.not_eq_true'] at h
  exact h.2

theorem printAttrsU_no_newline (d : Nat) (as : List (String × String))
    (hwf : wfAttrsL as = true) :
    ∀ l ∈ printAttrsU "  " d as, strHas l '\n' = false := by
  induction as with
  | nil => intro l hl; simp [printAttrsU] at hl
  | cons kv as' ih =>
      obtain ⟨k, v⟩ := kv
      have hparts : (wfKey k = true ∧ wfVal v = true) ∧ wfAttrsL as' = true := by
        rw [wfAttrsL, List.all_cons] at hwf
        simp only [Bool.and_eq_true] at hwf
        exact hwf
      intro l hl
      rw [printAttrsU] at hl
      rw [List.mem_append] at hl
      cases hl with
      | inr h => exact ih hparts.2 l h
      | inl h =>
          by_cases hnl : strHas v '\n' = true
          · rw [if_pos hnl] at h
            cases h with
            | head =>
                exact strHas_append_false _ _ _
                  (strHas_append_false _ _ _ (indentU_no_newline d) rfl)
                  (wfKey_no_newline hparts.1.1)
            | tail _ h2 => exact printValU_no_newline (d + 1) v l h2
          · rw [if_neg hnl] at h
            simp only [List.mem_singleton] at h
            subst h
            refine strHas_append_false _ _ _ ?_ ?_
            · refine strHas_append_false _ _ _ ?_ rfl
              refine strHas_append_false _ _ _ ?_ (wfKey_no_newline hparts.1.1)
              exact strHas_append_false _ _ _ (indentU_no_newline d) rfl
            · simp only [Bool.not_eq_true] at hnl
              exact hnl

theorem wfHead_no_newline {h : String} (hwf : wfHead h = true) :
    strHas h '\n' = false := by
  rw [wfHead] at hwf
  simp only [Bool.and_eq_true, Bool.not_eq_true'] at hwf
  exact hwf.1

mutual

theorem printSecU_no_newline :
    ∀ (s : Section) (d : Nat), wfSec s = true →
      ∀ l ∈ printSecU "  " d s, strHas l '\n' = false
  | Section.mk hd a c => by
      intro d hwf l hl
      have hps := wfSec_parts hwf
      rw [printSecU] at hl
      cases hl with
      | head =>
          exact strHas_append_false _ _ _ (indentU_no_newline d)
            (wfHead_no_newline hps.1)
      | tail _ h =>
          rcases List.mem_append.mp h with h2 | h2
          · exact printAttrsU_no_newline (d + 1) a hps.2.1 l h2
          · exact printSecsU_no_newline c (d + 1) hps.2.2 l h2

theorem printSecsU_no_newline :
    ∀ (cs : List Section) (d : Nat), wfSecs cs = true →
      ∀ l ∈ printSecsU "  " d cs, strHas l '\n' = false
  | [] => by intro d _ l hl; simp [printSecsU] at hl
  | s :: cs' => by
      intro d hwf l hl
      have hsec := wfSecs_parts hwf
      rw [printSecsU, List.mem_append] at hl
      cases hl with
      | inl h => exact printSecU_no_newline s d hsec.1 l h
      | inr h => exact printSecsU_no_newline cs' d hsec.2 l h

end

theorem printBlockU_no_newline (d : Nat) (o : Outline)
    (hwf : wfOutline o = true) :
    ∀ l ∈ printBlockU "  " d o, strHas l '\n' = false := by
  obtain ⟨as, cs⟩ := o
  have hparts : wfAttrsL as = true ∧ wfSecs cs = true := by
    rw [wfOutline] at hwf
    simp only [Bool.and_eq_true] at hwf
    exact hwf
  intro l hl
  rw [printBlockU, List.mem_append] at hl
  cases hl with
  | inl h => exact printAttrsU_no_newline d as hparts.1 l h
  | inr h => exact printSecsU_no_newline cs d hparts.2 l h

/-- **Round trip** (spec section 8): parsing the canonical printed text of
a well-formed outline recovers the outline exactly. -/
theorem parseOutline_printOutline (o : Outline) (hwf : wfOutline o = true) :
    parseOutline (printOutline o) = o := by
  rw [parseOutline, printOutline, printBlock]
  rw [splitLines_joinNl _ (printBlockU_no_newline 0 o hwf)]
  have h := parseBlockF_print o 0 (printBlockU "  " 0 o).length [] hwf
    (by trivial) (by simp)
  rw [List.append_nil] at h
  rw [h]

/-! ## SHA-256, base64 and UTF-8

The `sha2` and `base64` crates are external to the repository.  SHA-256 is
implemented here from FIPS 180-4 and the URL-safe unpadded base64 encoding
from RFC 4648 section 5, over byte lists (`Nat` values below 256), so the
kernel can evaluate the weave hash of concrete scripts. -/

def w32 : Nat := 4294967296

/-- Right rotation of a 32-bit word. -/
def rotr (n x : Nat) : Nat := (x / 2 ^ n + x * 2 ^ (32 - n)) % w32

/-- The SHA-256 round constants. -/
def shaK : List Nat :=
  [1116352408, 1899447441, 3049323471, 3921009573,
   961987163, 1508970993, 2453635748, 2870763221,
   3624381080, 310598401, 607225278, 1426881987,
   1925078388, 2162078206, 2614888103, 3248222580,
   3835390401, 4022224774, 264347078, 604807628,
   770255983, 1249150122, 1555081692, 1996064986,
   2554220882, 2821834349, 2952996808, 3210313671,
   3336571891, 3584528711, 113926993, 338241895,
   666307205, 773529912, 1294757372, 1396182291,
   1695183700, 1986661051, 2177026350, 2456956037,
   2730485921, 2820302411, 3259730800, 3345764771,
   3516065817, 3600352804, 4094571909, 275423344,
   430227734, 506948616, 659060556, 883997877,
   958139571, 1322822218, 1537002063, 1747873779,
   1955562222, 2024104815, 2227730452, 2361852424,
   2428436474, 2756734187, 3204031479, 3329325298]

structure Hash8 : Type where
  ha : Nat
  hb : Nat
  hc : Nat
  hd : Nat
  he : Nat
  hf : Nat
  hg : Nat
  hh : Nat
deriving DecidableEq

def shaInit : Hash8 :=
  ⟨1779033703, 3144134277, 1013904242, 2773480762,
   1359893119, 2600822924, 528734635, 1541459225⟩

/-- One compression round. -/
def shaRound (st : Hash8) (kw : Nat) : Hash8 :=
  let s1 := (rotr 6 st.he) ^^^ (rotr 11 st.he) ^^^ (rotr 25 st.he)
  let ch := (st.he &&& st.hf) ^^^ ((w32 - 1 - st.he) &&& st.hg)
  let t1 := (st.hh + s1 + ch + kw) % w32
  let s0 := (rotr 2 st.ha) ^^^ (rotr 13 st.ha) ^^^ (rotr 22 st.ha)
  let mj := (st.ha &&& st.hb) ^^^ (st.ha &&& st.hc) ^^^ (st.hb &&& st.hc)
  let t2 := (s0 + mj) % w32
  ⟨(t1 + t2) % w32, st.ha, st.hb, st.hc, (st.hd + t1) % w32,
   st.he, st.hf, st.hg⟩

/-- Extend the (reversed) message schedule by `n` more words. -/
def shaExtend (rws : List Nat) : Nat → List Nat
  | 0 => rws
  | n + 1 =>
      let w15 := rws.getD 14 0
      let w2 := rws.getD 1 0
      let s0 := (rotr 7 w15) ^^^ (rotr 18 w15) ^^^ (w15 / 2 ^ 3)
      let s1 := (rotr 17 w2) ^^^ (rotr 19 w2) ^^^ (w2 / 2 ^ 10)
      shaExtend (((rws.getD 15 0 + s0 + rws.getD 6 0 + s1) % w32) :: rws) n

/-- Big-endian 32-bit words from bytes. -/
def bytesToWords : List Nat → List Nat
  | b1 :: b2 :: b3 :: b4 :: rest =>
      (b1 * 16777216 + b2 * 65536 + b3 * 256 + b4) :: bytesToWords rest
  | _ => []

/-- Compress one 64-byte block. -/
def shaBlock (h : Hash8) (block : List Nat) : Hash8 :=
  let ws := (shaExtend (bytesToWords block).reverse 48).reverse
  let st := (ws.zip shaK).foldl
    (fun st p => shaRound st ((p.1 + p.2) % w32)) h
  ⟨(h.ha + st.ha) % w32, (h.hb + st.hb) % w32, (h.hc + st.hc) % w32,
   (h.hd + st.hd) % w32, (h.he + st.he) % w32, (h.hf + st.hf) % w32,
   (h.hg + st.hg) % w32, (h.hh + st.hh) % w32⟩

/-- Process the padded message 64 bytes at a time (fuel-structured). -/
def shaBlocks : Nat → Hash8 → List Nat → Hash8
  | 0, h, _ => h
  | _ + 1, h, [] => h
  | fuel + 1, h, bs => shaBlocks fuel (shaBlock h (bs.take 64)) (bs.drop 64)

/-- FIPS 180-4 padding: `0x80`, zeros, 64-bit big-endian bit length. -/
def shaPad (msg : List Nat) : List Nat :=
  let len := msg.length
  let zeros := (64 - (len + 9) % 64) % 64
  let bits := len * 8
  msg ++ 128 :: List.replicate zeros 0 ++
    [bits / 2 ^ 56 % 256, bits / 2 ^ 48 % 256, bits / 2 ^ 40 % 256,
     bits / 2 ^ 32 % 256, bits / 2 ^ 24 % 256, bits / 2 ^ 16 % 256,
     bits / 2 ^ 8 % 256, bits % 256]

def word_bytes (wv : Nat) : List Nat :=
  [wv / 16777216 % 256, wv / 65536 % 256, wv / 256 % 256, wv % 256]

/-- SHA-256 of a byte list, as 32 digest bytes. -/
def sha256 (msg : List Nat) : List Nat :=
  let padded := shaPad msg
  let h := shaBlocks padded.length shaInit padded
  word_bytes h.ha ++ word_bytes h.hb ++ word_bytes h.hc ++ word_bytes h.hd ++
    word_bytes h.he ++ word_bytes h.hf ++ word_bytes h.hg ++ word_bytes h.hh

/-- The RFC 4648 URL-safe base64 alphabet. -/
def b64Alphabet : List Char :=
  "ABCDEFGHIJKLMNOPQRSTUVWXYZabcdefghijklmnopqrstuvwxyz0123456789-_".data

def b64Char (i : Nat) : Char := b64Alphabet.getD i 'A'

/-- URL-safe base64 without padding (RFC 4648 section 5,
`BASE64_URL_SAFE_NO_PAD`). -/
def base64UrlNoPad : List Nat → List Char
  | [] => []
  | [b1] => [b64Char (b1 / 4), b64Char (b1 % 4 * 16)]
  | [b1, b2] =>
      [b64Char (b1 / 4), b64Char (b1 % 4 * 16 + b2 / 16),
       b64Char (b2 % 16 * 4)]
  | b1 :: b2 :: b3 :: rest =>
      b64Char (b1 / 4) :: b64Char (b1 % 4 * 16 + b2 / 16) ::
        b64Char (b2 % 16 * 4 + b3 / 64) :: b64Char (b3 % 64) ::
          base64UrlNoPad rest

/-- UTF-8 encoding of one scalar value. -/
def utf8Char (c : Char) : List Nat :=
  let n := c.toNat
  if n < 128 then [n]
  else if n < 2048 then [192 + n / 64, 128 + n % 64]
  else if n < 65536 then
    [224 + n / 4096, 128 + n / 64 % 64, 128 + n % 64]
  else
    [240 + n / 262144, 128 + n / 4096 % 64, 128 + n / 64 % 64, 128 + n % 64]

/-- UTF-8 bytes of a string (Rust `str::as_bytes`). -/
def utf8Bytes (s : String) : List Nat :=
  (s.data.map utf8Char).flatten

/-! ## Weave (`src/weave.rs`)

Script discovery, hashing, the execution decision and output splicing.
`idm::transmute` serializes a value and re-parses it as the target type;
it is modelled literally as print-then-parse with the printer and parser
above.  Running a script is modelled by a caller-supplied `exec` function
from the script to its captured standard output; a failing process aborts
the whole weave and is outside the claims below. -/

def OUTPUT_MARKER : String := "=="

/-- `[A-Za-z0-9_-]`, the first-character class of both filename grammars. -/
def fnChar1 (c : Char) : Bool :=
  ('A' ≤ c && c ≤ 'Z') || ('a' ≤ c && c ≤ 'z') ||
    ('0' ≤ c && c ≤ '9') || c = '_' || c = '-'

/-- The later-character class of the weave marker grammar: the first
class plus dot and slash. -/
def weaveChar2 (c : Char) : Bool := fnChar1 c || c = '.' || c = '/'

/-- The anchored marker regex of `weave_filename`: one first-class
character, then later-class characters. -/
def weaveRegexOk (t : String) : Bool :=
  match t.data with
  | [] => false
  | c :: rest => fnChar1 c && rest.all weaveChar2

/-- Whether `".."` occurs in the characters. -/
def hasDotDot : List Char → Bool
  | '.' :: '.' :: _ => true
  | _ :: rest => hasDotDot rest
  | [] => false

/-- `weave_filename` (`src/weave.rs` lines 218-236): trim the head, strip
the `>` prefix, reject whitespace, `..`, a leading `/`, and anything
failing the marker grammar. -/
def weaveFilename (head : String) : Option String :=
  match (trimStr head).data with
  | '>' :: rest =>
      let t : String := ⟨rest⟩
      if t.data.any isWsChar then none
      else if hasDotDot t.data then none
      else if strStarts t "/" then none
      else if weaveRegexOk t then some t
      else none
  | _ => none

structure Script : Type where
  is_changed : Bool
  can_run : Bool
  self_hash : String
  outline_path : String
  text : String
  file_path : String
deriving DecidableEq

def attrsLookup (k : String) : List (String × String) → Option String
  | [] => none
  | (k2, v) :: rest => if k2 = k then some v else attrsLookup k rest

/-- The `Metadata.input` hash list carried by a script section, recovered
through the `idm::transmute` round trip of the section body. -/
def scriptMetadataInput (s : Section) : List String :=
  match attrsLookup "input" (parseOutline (printOutline s.body)).attrs with
  | none => []
  | some v => splitLines v

/-- The raw script text carried by a script section: the lines of its body
after the attribute block, as captured by `idm::transmute` into the
`String` half of `ScriptInput`. -/
def scriptText (s : Section) : String :=
  printOutline ⟨[], (parseOutline (printOutline s.body)).children⟩

/-- `TryFrom<&Section> for Script` (`src/weave.rs` lines 166-216). -/
def scriptTryFrom (s : Section) : Option Script :=
  let input := scriptMetadataInput s
  let text := scriptText s
  if text = "" then none
  else
    match weaveFilename s.head with
    | none => none
    | some op =>
        let self_hash : String :=
          ⟨base64UrlNoPad
            (sha256 (utf8Bytes op ++ utf8Bytes "\n" ++ utf8Bytes text))⟩
        let can_run := strStarts text "#!"
        let is_changed :=
          match input with
          | [] => true
          | h :: _ => decide (self_hash ≠ h)
        let file_path := if op = "-" then self_hash else op
        some ⟨is_changed, can_run, self_hash, op, text, file_path⟩

/-- `From<&Script> for Section` (`src/weave.rs` lines 151-164): the script
section rewritten with `input` holding exactly its own fresh hash, body
assembled by `idm::transmute` (modelled as print-then-parse). -/
def scriptToSection (scr : Script) : Section :=
  let body := parseOutline
    (printOutline ⟨[("input", scr.self_hash)], []⟩ ++ scr.text)
  Section.mk (">" ++ scr.outline_path) body.attrs body.children

abbrev ScriptMap := List ((Nat × Nat) × Script)

def mapLookup (k : Nat × Nat) : ScriptMap → Option Script
  | [] => none
  | (k2, v) :: rest => if k2 = k then some v else mapLookup k rest

/-- The inner discovery loop of pass one: try every child as a script and
key hits at `(i, j + 1)` (`src/weave.rs` lines 43-51). -/
def collectGo (i j : Nat) : List Section → ScriptMap
  | [] => []
  | c :: rest =>
      (match scriptTryFrom c with
       | some scr => [((i, j + 1), scr)]
       | none => []) ++ collectGo i (j + 1) rest

mutual

/-- Pass one, one section: skip the discovery loop inside script regions,
then walk the children with the region flag propagated
(`src/weave.rs` lines 36-52). -/
def pass1Visit (i : Nat) (c : Bool) : Section → Nat × ScriptMap
  | Section.mk h _ cs =>
      let enter := c || (weaveFilename h).isSome
      let m0 := if enter then [] else collectGo i 0 cs
      let r := pass1List (i + 1) enter cs
      (r.1, m0 ++ r.2)

/-- Pass one over a sibling list, threading the enumeration counter. -/
def pass1List (i : Nat) (c : Bool) : List Section → Nat × ScriptMap
  | [] => (i, [])
  | s :: rest =>
      let r1 := pass1Visit i c s
      let r2 := pass1List r1.1 c rest
      (r2.1, r1.2 ++ r2.2)

end

/-- The splice loop of pass two, `for j in 1..children.len()`
(`src/weave.rs` lines 78-116): at an output marker with a discovered
script at `(i, j)` that can run and is changed (or forced), replace the
marker body with the parsed output and rewrite the script section. -/
def jLoopFrom (m : ScriptMap) (force : Bool) (exec : Script → String)
    (i : Nat) : Nat → Nat → List Section → List Script →
      List Section × List Script
  | _, 0, children, execs => (children, execs)
  | j, n + 1, children, execs =>
      let cj := children.getD j (Section.mk "" [] [])
      if cj.head = OUTPUT_MARKER then
        match mapLookup (i, j) m with
        | some scr =>
            if scr.can_run && (scr.is_changed || force) then
              let out := parseOutline (exec scr)
              let children2 :=
                (children.set j (Section.mk cj.head out.attrs out.children)).set
                  (j - 1) (scriptToSection scr)
              jLoopFrom m force exec i (j + 1) n children2 (execs ++ [scr])
            else jLoopFrom m force exec i (j + 1) n children execs
        | none => jLoopFrom m force exec i (j + 1) n children execs
      else jLoopFrom m force exec i (j + 1) n children execs

/-- Pass two over a sibling list (fuel-structured because spliced output
subtrees are traversed too): visit a section at index `i`, run its splice
loop unless inside a script region, then descend into the (possibly
mutated) children and continue with the siblings
(`src/weave.rs` lines 71-117). -/
def pass2List : Nat → ScriptMap → Bool → (Script → String) → Nat → Bool →
    List Section → Option (List Section × Nat × List Script)
  | _, _, _, _, i, _, [] => some ([], i, [])
  | 0, _, _, _, _, _, _ :: _ => none
  | fuel + 1, m, force, exec, i, c, s :: rest =>
      let enter := c || (weaveFilename s.head).isSome
      let step :=
        if enter then (s.children, ([] : List Script))
        else jLoopFrom m force exec i 1 (s.children.length - 1) s.children []
      match pass2List fuel m force exec (i + 1) enter step.1 with
      | none => none
      | some (children2, i2, execs2) =>
          match pass2List fuel m force exec i2 c rest with
          | none => none
          | some (rest2, i3, execs3) =>
              some (Section.mk s.head s.attrs children2 :: rest2, i3,
                step.2 ++ execs2 ++ execs3)

/-- `weave::run` (`src/weave.rs` lines 21-121) without the temp-directory
and process plumbing: wrap the document in a synthetic top-level section,
discover scripts in pass one, splice outputs in pass two, unwrap.  Returns
the rewritten document and the list of executed scripts in execution
order, or `none` if the fuel is exhausted. -/
def weaveRun (fuel : Nat) (force : Bool) (exec : Script → String)
    (doc : Outline) : Option (Outline × List Script) :=
  let root : List Section := [Section.mk "" doc.attrs doc.children]
  let m := (pass1List 0 false root).2
  match pass2List fuel m force exec 0 false root with
  | none => none
  | some (root2, _, execs) =>
      match root2 with
      | [s] => some (s.body, execs)
      | _ => none

/-- The executed scripts of a weave run, empty when the run does not
complete within the fuel. -/
def weaveExecs (fuel : Nat) (force : Bool) (exec : Script → String)
    (doc : Outline) : List Script :=
  match weaveRun fuel force exec doc with
  | none => []
  | some (_, execs) => execs

/-- Characterization of a successful `Script::try_from`: the path comes
from `weave_filename`, the text is the body text, the hash is SHA-256 of
path, newline, text in URL-safe unpadded base64, runnability is the
shebang test, and change detection compares the first recorded hash. -/
theorem scriptTryFrom_inv (sec : Section) (scr : Script)
    (h : scriptTryFrom sec = some scr) :
    weaveFilename sec.head = some scr.outline_path ∧
    scr.text = scriptText sec ∧
    scr.text ≠ "" ∧
    scr.self_hash = String.mk (base64UrlNoPad (sha256
      (utf8Bytes scr.outline_path ++ 10 :: utf8Bytes scr.text))) ∧
    scr.can_run = strStarts scr.text "#!" ∧
    (scr.is_changed = true ↔
      (scriptMetadataInput sec = [] ∨
        (scriptMetadataInput sec).head? ≠ some scr.self_hash)) := by
  rw [scriptTryFrom] at h
  dsimp only at h
  by_cases ht : scriptText sec = ""
  · rw [if_pos ht] at h
    exact absurd h (by simp)
  · rw [if_neg ht] at h
    cases hw : weaveFilename sec.head with
    | none => rw [hw] at h; exact absurd h (by simp)
    | some op =>
        rw [hw] at h
        simp only [Option.some.injEq] at h
        subst h
        refine ⟨rfl, rfl, ht, ?_, rfl, ?_⟩
        · have : utf8Bytes op ++ utf8Bytes "\n" ++ utf8Bytes (scriptText sec)
              = utf8Bytes op ++ 10 :: utf8Bytes (scriptText sec) := by
            rw [List.append_assoc]
            rfl
          rw [this]
        · cases hm : scriptMetadataInput sec with
          | nil => simp
          | cons hh tt =>
              simp only [List.head?_cons, ne_eq, Option.some.injEq]
              constructor
              · intro hdec
                right
                simp only [decide_eq_true_eq] at hdec
                exact fun he => hdec he.symm
              · intro hor
                rcases hor with hor | hor
                · exact absurd hor (by simp)
                · simp only [decide_eq_true_eq]
                  exact fun he => hor he.symm

/-- **C5.** Weave hashing and change detection: for a script section
recognized by `Script::try_from` with relative path `p = outline_path` and
text `t`, the computed self-hash is the URL-safe unpadded base64 rendering
of SHA-256 over the bytes of `p`, one newline byte (10), then the bytes of
`t`; and the script is classified changed iff its recorded hash list
(`Metadata.input`) is empty or its first entry differs from the fresh
hash. -/
theorem weave_hash_and_change_detection (sec : Section) (scr : Script)
    (h : scriptTryFrom sec = some scr) :
    scr.self_hash = String.mk (base64UrlNoPad (sha256
      (utf8Bytes scr.outline_path ++ 10 :: utf8Bytes scr.text))) ∧
    (scr.is_changed = true ↔
      (scriptMetadataInput sec = [] ∨
        (scriptMetadataInput sec).head? ≠ some scr.self_hash)) := by
  have i := scriptTryFrom_inv sec scr h
  exact ⟨i.2.2.2.1, i.2.2.2.2.2⟩

def witSec : Section :=
  Section.mk ">run.sh" []
    [Section.mk "#!/bin/sh" [] [], Section.mk "echo hi" [] []]

def witScr : Script :=
  ⟨true, true, "D00CrUHZlvfK6OgbSX2wpGG3GVgUG15c7c9_2D8pnVE", "run.sh",
   "#!/bin/sh\necho hi\n", "run.sh"⟩

theorem weave_hash_and_change_detection_witness :
    scriptTryFrom witSec = some witScr ∧
    (witScr.self_hash = String.mk (base64UrlNoPad (sha256
      (utf8Bytes witScr.outline_path ++ 10 :: utf8Bytes witScr.text))) ∧
    (witScr.is_changed = true ↔
      (scriptMetadataInput witSec = [] ∨
        (scriptMetadataInput witSec).head? ≠ some witScr.self_hash))) :=
  ⟨by decide, weave_hash_and_change_detection witSec witScr (by decide)⟩

theorem mapLookup_mem {k : Nat × Nat} {m : ScriptMap} {scr : Script}
    (h : mapLookup k m = some scr) : (k, scr) ∈ m := by
  induction m with
  | nil => simp [mapLookup] at h
  | cons e rest ih =>
      obtain ⟨k2, v⟩ := e
      rw [mapLookup] at h
      by_cases hk : k2 = k
      · rw [if_pos hk] at h
        simp only [Option.some.injEq] at h
        subst h
        subst hk
        exact List.mem_cons_self _ _
      · rw [if_neg hk] at h
        exact List.mem_cons_of_mem _ (ih h)

theorem collectGo_from_tryFrom :
    ∀ (cs : List Section) (i j0 : Nat) (e : (Nat × Nat) × Script),
      e ∈ collectGo i j0 cs → ∃ sec, scriptTryFrom sec = some e.2 := by
  intro cs
  induction cs with
  | nil => intro i j0 e he; simp [collectGo] at he
  | cons c rest ih =>
      intro i j0 e he
      rw [collectGo] at he
      rcases List.mem_append.mp he with h2 | h2
      · cases htf : scriptTryFrom c with
        | none => rw [htf] at h2; simp at h2
        | some scr =>
            rw [htf] at h2
            simp only [List.mem_singleton] at h2
            subst h2
            exact ⟨c, htf⟩
      · exact ih i (j0 + 1) e h2

mutual

theorem pass1Visit_from_tryFrom :
    ∀ (s : Section) (i : Nat) (c : Bool) (e : (Nat × Nat) × Script),
      e ∈ (pass1Visit i c s).2 → ∃ sec, scriptTryFrom sec = some e.2
  | Section.mk hd a cs => by
      intro i c e he
      rw [pass1Visit] at he
      dsimp only at he
      rcases List.mem_append.mp he with h2 | h2
      · by_cases henter : (c || (weaveFilename hd).isSome) = true
        · rw [if_pos henter] at h2
          simp at h2
        · rw [if_neg henter] at h2
          exact collectGo_from_tryFrom cs i 0 e h2
      · exact pass1List_from_tryFrom cs (i + 1) _ e h2

theorem pass1List_from_tryFrom :
    ∀ (ss : List Section) (i : Nat) (c : Bool) (e : (Nat × Nat) × Script),
      e ∈ (pass1List i c ss).2 → ∃ sec, scriptTryFrom sec = some e.2
  | [] => by intro i c e he; simp [pass1List] at he
  | s :: rest => by
      intro i c e he
      rw [pass1List] at he
      dsimp only at he
      rcases List.mem_append.mp he with h2 | h2
      · exact pass1Visit_from_tryFrom s i c e h2
      · exact pass1List_from_tryFrom rest _ c e h2

end

/-- Every script in the discovery map has `can_run` equal to the shebang
test on its own text. -/
theorem pass1Map_can_run (doc : Outline) :
    ∀ (k : Nat × Nat) (scr : Script),
      mapLookup k
        ((pass1List 0 false [Section.mk "" doc.attrs doc.children]).2) =
          some scr →
      scr.can_run = strStarts scr.text "#!" := by
  intro k scr h
  obtain ⟨sec, hsec⟩ :=
    pass1List_from_tryFrom _ 0 false (k, scr) (mapLookup_mem h)
  exact (scriptTryFrom_inv sec scr hsec).2.2.2.2.1

/-- Every script appended by the splice loop passed the execution guard
and, via the map invariant, begins with a shebang. -/
theorem jLoopFrom_execs (m : ScriptMap) (force : Bool)
    (exec : Script → String) (i : Nat)
    (hm : ∀ (k : Nat × Nat) (scr : Script), mapLookup k m = some scr →
      scr.can_run = strStarts scr.text "#!") :
    ∀ (n j : Nat) (children : List Section) (execs : List Script),
      (∀ scr ∈ execs,
        (strStarts scr.text "#!" && (scr.is_changed || force)) = true) →
      ∀ scr ∈ (jLoopFrom m force exec i j n children execs).2,
        (strStarts scr.text "#!" && (scr.is_changed || force)) = true := by
  intro n
  induction n with
  | zero => intro j children execs hex scr hs; exact hex scr hs
  | succ n ih =>
      intro j children execs hex scr hs
      rw [jLoopFrom] at hs
      dsimp only at hs
      by_cases hmark :
          (children.getD j (Section.mk "" [] [])).head = OUTPUT_MARKER
      · rw [if_pos hmark] at hs
        cases hlk : mapLookup (i, j) m with
        | none =>
            rw [hlk] at hs
            exact ih _ _ _ hex scr hs
        | some scr2 =>
            rw [hlk] at hs
            dsimp only at hs
            by_cases hguard : (scr2.can_run && (scr2.is_changed || force)) = true
            · rw [if_pos hguard] at hs
              refine ih _ _ _ ?_ scr hs
              intro s3 hs3
              rcases List.mem_append.mp hs3 with h4 | h4
              · exact hex s3 h4
              · simp only [List.mem_singleton] at h4
                have hcr := hm (i, j) scr2 hlk
                rw [h4, ← hcr]
                exact hguard
            · rw [if_neg hguard] at hs
              exact ih _ _ _ hex scr hs
      · rw [if_neg hmark] at hs
        exact ih _ _ _ hex scr hs

theorem pass2List_execs (m : ScriptMap) (force : Bool)
    (exec : Script → String)
    (hm : ∀ (k : Nat × Nat) (scr : Script), mapLookup k m = some scr →
      scr.can_run = strStarts scr.text "#!") :
    ∀ (fuel : Nat) (i : Nat) (c : Bool) (ss : List Section)
      (res : List Section × Nat × List Script),
      pass2List fuel m force exec i c ss = some res →
      ∀ scr ∈ res.2.2,
        (strStarts scr.text "#!" && (scr.is_changed || force)) = true := by
  intro fuel
  induction fuel with
  | zero =>
      intro i c ss res hres scr hs
      cases ss with
      | nil =>
          rw [pass2List] at hres
          simp only [Option.some.injEq] at hres
          subst hres
          simp at hs
      | cons s rest => rw [pass2List] at hres; exact absurd hres (by simp)
  | succ fuel ih =>
      intro i c ss res hres scr hs
      cases ss with
      | nil =>
          rw [pass2List] at hres
          simp only [Option.some.injEq] at hres
          subst hres
          simp at hs
      | cons s rest =>
          rw [pass2List] at hres
          cases h1 : pass2List fuel m force exec (i + 1)
              (c || (weaveFilename s.head).isSome)
              (if (c || (weaveFilename s.head).isSome) = true
               then (s.children, ([] : List Script))
               else jLoopFrom m force exec i 1 (s.children.length - 1)
                 s.children []).1 with
          | none => rw [h1] at hres; exact absurd hres (by simp)
          | some r2 =>
              obtain ⟨children2, i2, execs2⟩ := r2
              rw [h1] at hres
              dsimp only at hres
              cases h2 : pass2List fuel m force exec i2 c rest with
              | none => rw [h2] at hres; exact absurd hres (by simp)
              | some r3 =>
                  obtain ⟨rest2, i3, execs3⟩ := r3
                  rw [h2] at hres
                  dsimp only at hres
                  simp only [Option.some.injEq] at hres
                  subst hres
                  simp only at hs
                  rcases List.mem_append.mp hs with h4 | h4
                  · rcases List.mem_append.mp h4 with h5 | h5
                    · by_cases henter :
                          (c || (weaveFilename s.head).isSome) = true
                      · rw [if_pos henter] at h5
                        simp at h5
                      · rw [if_neg henter] at h5
                        exact jLoopFrom_execs m force exec i hm _ _ _ []
                          (by intro x hx; simp at hx) scr h5
                    · exact ih _ _ _ _ h1 scr h5
                  · exact ih i2 c rest _ h2 scr h4
  termination_by fuel => fuel

/-- **C6.** Weave execution decision: every script a weave run executes
has text beginning with the two characters `#!` and is either classified
changed or run under the force flag; a script without the shebang is never
executed. -/
theorem weave_execution_decision (fuel : Nat) (force : Bool)
    (exec : Script → String) (doc : Outline) :
    (weaveExecs fuel force exec doc).all
      (fun scr => strStarts scr.text "#!" && (scr.is_changed || force)) =
      true := by
  rw [weaveExecs]
  cases hr : weaveRun fuel force exec doc with
  | none => rfl
  | some res =>
      obtain ⟨doc2, execs⟩ := res
      rw [List.all_eq_true]
      intro scr hs
      rw [weaveRun] at hr
      cases hp : pass2List fuel
          (pass1List 0 false [Section.mk "" doc.attrs doc.children]).2
          force exec 0 false [Section.mk "" doc.attrs doc.children] with
      | none => rw [hp] at hr; exact absurd hr (by simp)
      | some r =>
          obtain ⟨root2, i2, execs2⟩ := r
          rw [hp] at hr
          dsimp only at hr
          have hexecs : execs = execs2 ∧ scr ∈ execs2 := by
            cases root2 with
            | nil => exact absurd hr (by simp)
            | cons s tail =>
                cases tail with
                | nil =>
                    simp only [Option.some.injEq, Prod.mk.injEq] at hr
                    exact ⟨hr.2.symm, hr.2 ▸ hs⟩
                | cons t tail2 => exact absurd hr (by simp)
          exact pass2List_execs _ force exec (pass1Map_can_run doc)
            fuel 0 false _ (root2, i2, execs2) hp scr hexecs.2

def idemDoc : Outline := parseOutline
  "A\n  >one.sh\n    #!/bin/sh\n    echo hi\n  ==\nB\n  >two.sh\n    #!/bin/sh\n    echo bye\n  ==\n"

def idemExec : Script → String :=
  fun s => if s.outline_path = "one.sh" then "hi\n" else "bye\n"

def idemDoc2 : Outline :=
  ((weaveRun 100 false idemExec idemDoc).getD (idemDoc, [])).1

set_option maxRecDepth 100000 in
/-- **C7** [failing-input evidence].  On a document with two script/output
pairs, the first run executes only `one.sh`: splicing its output grows the
section count, so the second pair's enumeration index in the splice pass
no longer matches its discovery key and `two.sh` is skipped.  Between the
runs nothing changes in the section holding `two.sh` (second conjunct),
yet the second `force = false` run performs one execution (`two.sh`), not
zero, contradicting the claimed idempotence. -/
theorem weave_second_run_executes :
    (weaveExecs 100 false idemExec idemDoc).map
      (fun s => s.outline_path) = ["one.sh"] ∧
    idemDoc2.children.getD 1 (Section.mk "" [] []) =
      idemDoc.children.getD 1 (Section.mk "" [] []) ∧
    (weaveExecs 100 false idemExec idemDoc2).map
      (fun s => s.outline_path) = ["two.sh"] := by
  decide

def markerDoc : Outline := parseOutline
  "P\n  >w.sh\n    #!/bin/sh\n    echo 3 lines\n  ==\nZ\n  z0\n  ==\nQ\n  >x.sh\n    #!/bin/sh\n    echo bye\n  m\n"

def markerExec : Script → String :=
  fun s => if s.outline_path = "w.sh" then "a\nb\nc\n" else "bye\n"

set_option maxRecDepth 100000 in
/-- **C10** [counterexample].  `x.sh` is a recognized script whose
immediately following sibling is headed `m`, not `==` (second and third
conjuncts), yet the weave run executes it: the splice of `w.sh`'s
three-section output shifts the enumeration, and at the shifted index the
section `Z` happens to carry an `==` child at the recorded position. -/
theorem weave_marker_counterexample :
    (weaveExecs 100 false markerExec markerDoc).map
      (fun s => s.outline_path) = ["w.sh", "x.sh"] ∧
    (markerDoc.children.getD 2 (Section.mk "" [] [])).children.map
      Section.head = [">x.sh", "m"] ∧
    (scriptTryFrom ((markerDoc.children.getD 2
      (Section.mk "" [] [])).children.getD 0
        (Section.mk "" [] []))).isSome = true := by
  decide

/-! ### The output-marker condition (pass-1/pass-2 key correspondence) -/

/-- Pre-order position `k` in a sibling forest: each section precedes its
descendants, which precede its later siblings — the order in which
`context_iter_mut(..).enumerate()` numbers sections in `weave::run`. -/
def secAtL : List Section → Nat → Option Section
  | [], _ => none
  | s :: _, 0 => some s
  | Section.mk _ _ cs :: rest, k + 1 =>
      if k < sizeL cs then secAtL cs k else secAtL rest (k - sizeL cs)
termination_by ss _ => sizeL ss
decreasing_by
  all_goals simp only [sizeL_cons, Section.size_def]; omega

theorem secAtL_zero (s : Section) (rest : List Section) :
    secAtL (s :: rest) 0 = some s := by
  cases s with
  | mk h a cs => simp [secAtL]

theorem secAtL_left (h : String) (a : List (String × String))
    (cs rest : List Section) (k : Nat) (hk : k < sizeL cs) :
    secAtL (Section.mk h a cs :: rest) (k + 1) = secAtL cs k := by
  simp [secAtL, hk]

theorem secAtL_right (h : String) (a : List (String × String))
    (cs rest : List Section) (k : Nat) :
    secAtL (Section.mk h a cs :: rest) (sizeL cs + k + 1) = secAtL rest k := by
  have hn : ¬ sizeL cs + k < sizeL cs := by omega
  have hs : sizeL cs + k - sizeL cs = k := by omega
  simp [secAtL, hn, hs]

theorem secAtL_singleton (s : Section) (rest : List Section) (k : Nat)
    (hk : k < s.size) : secAtL (s :: rest) k = secAtL [s] k := by
  cases s with
  | mk h a cs =>
      cases k with
      | zero => rw [secAtL_zero, secAtL_zero]
      | succ k =>
          have hk2 : k < sizeL cs := by rw [Section.size_def] at hk; omega
          rw [secAtL_left h a cs rest k hk2, secAtL_left h a cs [] k hk2]

mutual

/-- No child pair (script, output marker) anywhere under the section. -/
def noPairS : Section → Bool
  | Section.mk _ _ cs => noPairL cs

/-- No two consecutive siblings form a (script section, `==` section) pair,
here or in any subtree. -/
def noPairL : List Section → Bool
  | [] => true
  | [s] => noPairS s
  | s :: s2 :: rest =>
      !((scriptTryFrom s).isSome && s2.head == "==") &&
        noPairS s && noPairL (s2 :: rest)

end

theorem noPairL_tail :
    ∀ (s : Section) (rest : List Section), noPairL (s :: rest) = true →
      noPairS s = true ∧ noPairL rest = true
  | s, [] => by
      intro h
      rw [noPairL] at h
      exact ⟨h, by rw [noPairL]⟩
  | s, s2 :: rest => by
      intro h
      rw [noPairL] at h
      simp only [Bool.and_eq_true] at h
      exact ⟨h.1.2, h.2⟩

theorem noPairL_pair (s s2 : Section) (rest : List Section)
    (h : noPairL (s :: s2 :: rest) = true)
    (hscr : (scriptTryFrom s).isSome = true) : ¬ s2.head = "==" := by
  rw [noPairL] at h
  simp only [Bool.and_eq_true] at h
  intro heq
  have h2 := h.1.1
  rw [hscr, heq] at h2
  simp at h2

theorem scriptTryFrom_dflt : scriptTryFrom (Section.mk "" [] []) = none := by
  decide

theorem noPairL_consec :
    ∀ (cs : List Section), noPairL cs = true →
      ∀ j, (scriptTryFrom (cs.getD j (Section.mk "" [] []))).isSome = true →
        (cs.getD (j + 1) (Section.mk "" [] [])).head ≠ "==" := by
  intro cs
  induction cs with
  | nil =>
      intro _ j hj
      rw [List.getD_nil, scriptTryFrom_dflt] at hj
      simp at hj
  | cons s rest ih =>
      intro h j hj
      cases j with
      | zero =>
          rw [List.getD_cons_zero] at hj
          cases rest with
          | nil =>
              rw [List.getD_cons_succ, List.getD_nil]
              intro heq
              simp [Section.head] at heq
          | cons s2 r2 =>
              rw [List.getD_cons_succ, List.getD_cons_zero]
              exact noPairL_pair s s2 r2 h hj
      | succ j =>
          rw [List.getD_cons_succ] at hj
          rw [List.getD_cons_succ]
          exact ih (noPairL_tail s rest h).2 j hj

mutual

theorem pass1Visit_fst :
    ∀ (s : Section) (i : Nat) (c : Bool), (pass1Visit i c s).1 = i + s.size
  | Section.mk hd a cs => by
      intro i c
      rw [pass1Visit]
      dsimp only
      rw [pass1List_fst cs (i + 1) _, Section.size_def]
      omega

theorem pass1List_fst :
    ∀ (ss : List Section) (i : Nat) (c : Bool),
      (pass1List i c ss).1 = i + sizeL ss
  | [] => by
      intro i c
      rw [pass1List, sizeL_nil, Nat.add_zero]
  | s :: rest => by
      intro i c
      rw [pass1List]
      dsimp only
      rw [pass1List_fst rest _ _, pass1Visit_fst s i c, sizeL_cons]
      omega

end

theorem collectGo_mem :
    ∀ (cs : List Section) (i j a b : Nat) (scr : Script),
      ((a, b), scr) ∈ collectGo i j cs →
      a = i ∧ j + 1 ≤ b ∧
        scriptTryFrom (cs.getD (b - (j + 1)) (Section.mk "" [] [])) =
          some scr := by
  intro cs
  induction cs with
  | nil => intro i j a b scr h; simp [collectGo] at h
  | cons c rest ih =>
      intro i j a b scr h
      rw [collectGo] at h
      rcases List.mem_append.mp h with h2 | h2
      · cases htf : scriptTryFrom c with
        | none => rw [htf] at h2; simp at h2
        | some scr2 =>
            rw [htf] at h2
            simp only [List.mem_singleton, Prod.mk.injEq] at h2
            obtain ⟨⟨ha, hb⟩, hscr⟩ := h2
            subst ha; subst hb
            refine ⟨rfl, le_refl _, ?_⟩
            have : j + 1 - (j + 1) = 0 := by omega
            rw [this, List.getD_cons_zero, htf, hscr]
      · obtain ⟨h3, h4, h5⟩ := ih i (j + 1) a b scr h2
        refine ⟨h3, by omega, ?_⟩
        have hbb : b - (j + 1) = (b - (j + 1 + 1)) + 1 := by omega
        rw [hbb, List.getD_cons_succ]
        exact h5

mutual

theorem pass1Visit_mem :
    ∀ (s : Section) (i : Nat) (c : Bool) (a b : Nat) (scr : Script),
      ((a, b), scr) ∈ (pass1Visit i c s).2 →
      i ≤ a ∧ a < i + s.size ∧ 1 ≤ b ∧
        ∃ sec, secAtL [s] (a - i) = some sec ∧
          scriptTryFrom (sec.children.getD (b - 1) (Section.mk "" [] [])) =
            some scr
  | Section.mk hd sa cs => by
      intro i c a b scr h
      rw [pass1Visit] at h
      dsimp only at h
      rcases List.mem_append.mp h with h2 | h2
      · by_cases henter : (c || (weaveFilename hd).isSome) = true
        · rw [if_pos henter] at h2
          simp at h2
        · rw [if_neg henter] at h2
          obtain ⟨ha, hb, hsc⟩ := collectGo_mem cs i 0 a b scr h2
          subst ha
          refine ⟨le_refl a, ?_, hb, Section.mk hd sa cs, ?_, ?_⟩
          · have := Section.size_pos (Section.mk hd sa cs); omega
          · rw [Nat.sub_self]
            exact secAtL_zero _ _
          · simpa using hsc
      · obtain ⟨h1, h2', h3, sec, h4, h5⟩ :=
          pass1List_mem cs (i + 1) _ a b scr h2
        refine ⟨by omega, by rw [Section.size_def]; omega, h3, sec, ?_, h5⟩
        have hk : a - i = (a - (i + 1)) + 1 := by omega
        rw [hk, secAtL_left hd sa cs [] _ (by omega)]
        exact h4

theorem pass1List_mem :
    ∀ (ss : List Section) (i : Nat) (c : Bool) (a b : Nat) (scr : Script),
      ((a, b), scr) ∈ (pass1List i c ss).2 →
      i ≤ a ∧ a < i + sizeL ss ∧ 1 ≤ b ∧
        ∃ sec, secAtL ss (a - i) = some sec ∧
          scriptTryFrom (sec.children.getD (b - 1) (Section.mk "" [] [])) =
            some scr
  | [] => by
      intro i c a b scr h
      rw [pass1List] at h
      simp at h
  | s :: rest => by
      intro i c a b scr h
      rw [pass1List] at h
      dsimp only at h
      rcases List.mem_append.mp h with h2 | h2
      · obtain ⟨h1, h2', h3, sec, h4, h5⟩ := pass1Visit_mem s i c a b scr h2
        refine ⟨h1, by rw [sizeL_cons]; omega, h3, sec, ?_, h5⟩
        rw [secAtL_singleton s rest (a - i) (by omega)]
        exact h4
      · rw [pass1Visit_fst s i c] at h2
        obtain ⟨h1, h2', h3, sec, h4, h5⟩ :=
          pass1List_mem rest (i + s.size) c a b scr h2
        refine ⟨by have := Section.size_pos s; omega,
          by rw [sizeL_cons]; omega, h3, sec, ?_, h5⟩
        cases s with
        | mk hd sa cs =>
            have hk : a - i =
                sizeL cs + (a - (i + (Section.mk hd sa cs).size)) + 1 := by
              rw [Section.size_def] at h1 ⊢
              omega
            rw [hk, secAtL_right]
            exact h4

end

theorem jLoopFrom_id (m : ScriptMap) (force : Bool) (exec : Script → String)
    (i : Nat) (children : List Section)
    (h : ∀ j, 1 ≤ j →
      (children.getD j (Section.mk "" [] [])).head = OUTPUT_MARKER →
      mapLookup (i, j) m = none) :
    ∀ (n j : Nat) (execs : List Script), 1 ≤ j →
      jLoopFrom m force exec i j n children execs = (children, execs) := by
  intro n
  induction n with
  | zero => intro j execs hj; rw [jLoopFrom]
  | succ n ih =>
      intro j execs hj
      rw [jLoopFrom]
      dsimp only
      by_cases hmark :
          (children.getD j (Section.mk "" [] [])).head = OUTPUT_MARKER
      · rw [if_pos hmark, h j hj hmark]
        exact ih (j + 1) execs (by omega)
      · rw [if_neg hmark]
        exact ih (j + 1) execs (by omega)

theorem pass2List_id (m : ScriptMap) (force : Bool) (exec : Script → String) :
    ∀ (fuel : Nat) (ss : List Section) (i : Nat) (c : Bool),
      sizeL ss ≤ fuel →
      noPairL ss = true →
      (∀ (k b : Nat) (scr : Script), ((i + k, b), scr) ∈ m →
        k < sizeL ss →
        1 ≤ b ∧ ∃ sec, secAtL ss k = some sec ∧
          scriptTryFrom (sec.children.getD (b - 1) (Section.mk "" [] [])) =
            some scr) →
      pass2List fuel m force exec i c ss = some (ss, i + sizeL ss, []) := by
  intro fuel
  induction fuel with
  | zero =>
      intro ss i c hf hnp hm
      cases ss with
      | nil => rw [pass2List, sizeL_nil, Nat.add_zero]
      | cons s rest =>
          exfalso
          rw [sizeL_cons] at hf
          have := Section.size_pos s
          omega
  | succ fuel ih =>
      intro ss i c hf hnp hm
      cases ss with
      | nil => rw [pass2List, sizeL_nil, Nat.add_zero]
      | cons s rest =>
          cases s with
          | mk hd sa cs =>
          rw [pass2List]
          have hstep :
              (if (c || (weaveFilename (Section.mk hd sa cs).head).isSome) =
                    true
               then ((Section.mk hd sa cs).children, ([] : List Script))
               else jLoopFrom m force exec i 1
                 ((Section.mk hd sa cs).children.length - 1)
                 (Section.mk hd sa cs).children []) =
              ((Section.mk hd sa cs).children, ([] : List Script)) := by
            by_cases henter :
                (c || (weaveFilename (Section.mk hd sa cs).head).isSome) =
                  true
            · rw [if_pos henter]
            · rw [if_neg henter]
              apply jLoopFrom_id
              · intro j hj hmark
                cases hlk : mapLookup (i, j) m with
                | none => rfl
                | some scr =>
                    exfalso
                    have hmem := mapLookup_mem hlk
                    have hmem2 : ((i + 0, j), scr) ∈ m := by
                      simpa using hmem
                    obtain ⟨hb, sec, hsec, hscr⟩ := hm 0 j scr hmem2
                      (by rw [sizeL_cons]
                          have := Section.size_pos (Section.mk hd sa cs)
                          omega)
                    rw [secAtL_zero] at hsec
                    rw [Option.some.injEq] at hsec
                    subst hsec
                    have hcons := noPairL_consec
                      (Section.mk hd sa cs).children
                      (by have := (noPairL_tail _ rest hnp).1
                          rw [noPairS] at this
                          exact this)
                      (j - 1)
                      (by rw [hscr]; rfl)
                    have hj1 : j - 1 + 1 = j := by omega
                    rw [hj1] at hcons
                    exact hcons hmark
              · exact le_refl 1
          rw [hstep]
          dsimp only
          have hrec1 := ih (Section.mk hd sa cs).children (i + 1)
            (c || (weaveFilename (Section.mk hd sa cs).head).isSome)
            (by simp only [Section.children]
                rw [sizeL_cons, Section.size_def] at hf
                omega)
            (by have := (noPairL_tail _ rest hnp).1
                rw [noPairS] at this
                exact this)
            (by intro k b scr hmem hk
                simp only [Section.children] at hk
                have hmem2 : ((i + (k + 1), b), scr) ∈ m := by
                  have : i + 1 + k = i + (k + 1) := by omega
                  rw [← this]
                  exact hmem
                obtain ⟨hb, sec, hsec, hscr⟩ := hm (k + 1) b scr hmem2
                  (by rw [sizeL_cons, Section.size_def]; omega)
                rw [secAtL_left hd sa cs rest k hk] at hsec
                exact ⟨hb, sec, hsec, hscr⟩)
          rw [hrec1]
          dsimp only
          have hrec2 := ih rest
            (i + 1 + sizeL (Section.mk hd sa cs).children) c
            (by rw [sizeL_cons] at hf
                have := Section.size_pos (Section.mk hd sa cs)
                omega)
            ((noPairL_tail _ rest hnp).2)
            (by intro k b scr hmem hk
                have hmem2 : ((i + (1 + sizeL cs + k), b), scr) ∈ m := by
                  have : i + 1 + sizeL (Section.mk hd sa cs).children + k =
                      i + (1 + sizeL cs + k) := by
                    simp only [Section.children]
                    omega
                  rw [← this]
                  exact hmem
                obtain ⟨hb, sec, hsec, hscr⟩ := hm (1 + sizeL cs + k) b scr
                  hmem2
                  (by rw [sizeL_cons, Section.size_def]; omega)
                have hidx : 1 + sizeL cs + k = sizeL cs + k + 1 := by omega
                rw [hidx, secAtL_right hd sa cs rest k] at hsec
                exact ⟨hb, sec, hsec, hscr⟩)
          rw [hrec2]
          dsimp only
          rw [Option.some.injEq, Prod.mk.injEq, Prod.mk.injEq]
          refine ⟨rfl, ?_, rfl⟩
          simp only [Section.children]
          rw [sizeL_cons, Section.size_def]
          omega

/-- **C10** (amended): the guarded form of the output-marker condition that
the two-pass implementation actually guarantees is global, not per-script —
the splice pass consults markers at pass-two enumeration positions against
keys recorded at pass-one positions, which can drift apart.  What holds: on
a document in which no script section is immediately followed by a sibling
headed `==`, a weave run with sufficient fuel executes nothing and returns
the document unchanged, every script's metadata included. -/
theorem weave_no_marker_pair_amended (fuel : Nat) (force : Bool)
    (exec : Script → String) (doc : Outline)
    (hnp : noPairL doc.children = true)
    (hf : 1 + sizeL doc.children ≤ fuel) :
    weaveRun fuel force exec doc = some (doc, []) := by
  obtain ⟨da, dc⟩ := doc
  rw [weaveRun]
  have hroot := pass2List_id
    ((pass1List 0 false [Section.mk "" da dc]).2) force exec fuel
    [Section.mk "" da dc] 0 false
    (by exact hf)
    (by rw [noPairL, noPairS]
        exact hnp)
    (by intro k b scr hmem hk
        have hmem2 : ((k, b), scr) ∈
            (pass1List 0 false [Section.mk "" da dc]).2 := by
          simpa using hmem
        obtain ⟨h1, h2, h3, sec, h4, h5⟩ :=
          pass1List_mem [Section.mk "" da dc] 0 false k b scr hmem2
        rw [Nat.sub_zero] at h4
        exact ⟨h3, sec, h4, h5⟩)
  rw [hroot]
  rfl

theorem weave_no_marker_pair_amended_witness :
    noPairL (Outline.mk [] [Section.mk "hello" [] []]).children = true ∧
    weaveRun 5 false (fun _ => "")
        (Outline.mk [] [Section.mk "hello" [] []]) =
      some (Outline.mk [] [Section.mk "hello" [] []], []) :=
  ⟨by decide, weave_no_marker_pair_amended 5 false (fun _ => "")
    (Outline.mk [] [Section.mk "hello" [] []]) (by decide) (by decide)⟩

/-! ## The collection directory model (`src/collection.rs`, `src/lib.rs`)

A directory is a list of `(name, node)` entries; `fs::read_dir` is
modelled as yielding entries in lexicographic filename order, and
`slice::sort_by` as the stable insertion sort described in the header.
File contents are strings; non-UTF-8 files and symlinks are outside the
model.  `idm::from_str::<Outline>` is the total lenient parser
`parseOutline`, so the parseability pre-check in `read_directory` never
skips a file. -/

/-- A filesystem node: a regular file with text content, or a directory
with named entries. -/
inductive FNode : Type where
  | file (content : String) : FNode
  | dir (entries : List (String × FNode)) : FNode

/-- `Ord for bool`: `false < true`. -/
def cmpBool : Bool → Bool → Ordering
  | false, false => .eq
  | false, true => .lt
  | true, false => .gt
  | true, true => .eq

/-- Byte-lexicographic comparison of character lists (Rust `Ord for str`;
codepoint order coincides with UTF-8 byte order). -/
def cmpChars : List Char → List Char → Ordering
  | [], [] => .eq
  | [], _ :: _ => .lt
  | _ :: _, [] => .gt
  | a :: as, b :: bs =>
      if a.toNat < b.toNat then .lt
      else if b.toNat < a.toNat then .gt
      else cmpChars as bs

/-- Rust `Ord for String`. -/
def cmpStr (a b : String) : Ordering := cmpChars a.data b.data

/-- One `insert_tail` step of Rust's stable insertion sort, on the
sorted prefix stored in reverse: the new element `x` shifts left past a
neighbour `y` exactly while `cmp x y = .lt`, and stops at the first
neighbour it does not compare `Less` against. -/
def insRev (cmp : α → α → Ordering) (x : α) : List α → List α
  | [] => [x]
  | y :: rest =>
      if cmp x y = .lt then y :: insRev cmp x rest
      else x :: y :: rest

/-- `slice::sort_by`, modelled as Rust's small-slice stable insertion
sort (see the header note: the comparator the code passes is not a total
order, so the algorithm matters): elements are taken left to right and
each is shifted left only while it compares `Less` against its left
neighbour. -/
def rustSortBy (cmp : α → α → Ordering) (l : List α) : List α :=
  (l.foldl (fun rev x => insRev cmp x rev) []).reverse

/-- The entry sort comparator of `read_directory` (`src/collection.rs`
lines 69-71 and `src/lib.rs` lines 227-229), written exactly as in the
source: `(!a.0.starts_with(':'), &a.0).cmp(&(b.0.starts_with(':'),
&b.0))` — note the negation present on the left side only. -/
def entryCmp (a b : String) : Ordering :=
  (cmpBool (!strStarts a ":") (strStarts b ":")).then (cmpStr a b)

/-- The later-character class of the filename grammar: the first class
plus dot. -/
def fnameChar2 (c : Char) : Bool := fnChar1 c || c = '.'

/-- `is_valid_filename` (`src/collection.rs` lines 248-250): the anchored
regex `:?`, one `[A-Za-z0-9_-]` character, then `[.A-Za-z0-9_-]`
characters. -/
def is_valid_filename (s : String) : Bool :=
  match s.data with
  | [] => false
  | c :: rest =>
      if c = ':' then
        match rest with
        | [] => false
        | c2 :: rest2 => fnChar1 c2 && rest2.all fnameChar2
      else fnChar1 c && rest.all fnameChar2

/-- `Path::extension` for a file name that does not start with a dot: the
part after the last `.`, or `none` when the name has no dot. -/
def extOf (s : String) : Option String :=
  if s.data.contains '.' then
    some ⟨(s.data.reverse.takeWhile (fun c => !(c = '.'))).reverse⟩
  else none

/-- `PathBuf::join` on string paths: no separator is doubled when the
base already ends with one. -/
def pathJoin (a b : String) : String :=
  if strEnds a "/" then a ++ b else a ++ "/" ++ b

/-- The entry-listing stage of `collection.rs::read_directory` (lines
26-65): skip dotfiles, reject invalid filenames, append `/` to directory
names, strip `.idm` from `.idm` file names, append `:` to every other
file name.  Yields `(headword, name, node)` triples. -/
def mkElts : List (String × FNode) →
    Except String (List (String × String × FNode))
  | [] => .ok []
  | (name, node) :: rest =>
      if strStarts name "." then mkElts rest
      else if !is_valid_filename name then
        .error ("read_directory: invalid filename " ++ name)
      else
        match mkElts rest with
        | .error e => .error e
        | .ok elts =>
            match node with
            | FNode.dir sub => .ok ((name ++ "/", name, FNode.dir sub) :: elts)
            | FNode.file text =>
                match extOf name with
                | some e2 =>
                    if e2 = "idm" then
                      .ok ((takeStr (name.data.length - 4) name, name,
                        FNode.file text) :: elts)
                    else .ok ((name ++ ":", name, FNode.file text) :: elts)
                | none => .ok ((name ++ ":", name, FNode.file text) :: elts)

/-- The entry-listing stage of the older `lib.rs::read_directory` (lines
178-223): directories keep their name (plus `/` in outline mode), `.idm`
files are stripped, other extensions pass as-is, and an extensionless
file is a hard error. -/
def mkEltsLib (mode : Bool) : List (String × FNode) →
    Except String (List (String × String × FNode))
  | [] => .ok []
  | (name, node) :: rest =>
      if strStarts name "." then mkEltsLib mode rest
      else if !is_valid_filename name then
        .error ("read_directory: invalid filename " ++ name)
      else
        match node with
        | FNode.dir sub =>
            (match mkEltsLib mode rest with
             | .error e => .error e
             | .ok elts =>
                 .ok (((if mode then name ++ "/" else name), name,
                   FNode.dir sub) :: elts))
        | FNode.file text =>
            match extOf name with
            | some e2 =>
                (match mkEltsLib mode rest with
                 | .error e => .error e
                 | .ok elts =>
                     .ok (((if e2 = "idm" then
                         takeStr (name.data.length - 4) name
                       else name), name, FNode.file text) :: elts))
            | none =>
                .error ("read_directory: file " ++ name ++
                  " must have an extension")

/-- Leading tabs doubled into two spaces each (`collection.rs` lines
135-140). -/
def expandTabsCh : List Char → List Char
  | '\t' :: rest => ' ' :: ' ' :: expandTabsCh rest
  | l => l

def expandTabs (s : String) : String := ⟨expandTabsCh s.data⟩

/-- The space-indent style check of the line loop (`collection.rs`
lines 116-124). -/
def styleSpaceCheck (line : String) (style : Option Indentation) :
    Except String (Option Indentation) :=
  if strStarts line " " then
    match style with
    | none => .ok (some (Indentation.spaces 2))
    | some Indentation.tabs =>
        .error "read_directory: inconsistent indentation"
    | some s => .ok (some s)
  else .ok style

/-- The tab-indent style check of the line loop (`collection.rs`
lines 125-133). -/
def styleTabCheck (line : String) (style : Option Indentation) :
    Except String (Option Indentation) :=
  if strStarts line "\t" then
    match style with
    | none => .ok (some Indentation.tabs)
    | some (Indentation.spaces w) =>
        .error "read_directory: inconsistent indentation"
    | some s => .ok (some s)
  else .ok style

/-- The per-line loop of the multi-line file branch (`collection.rs`
lines 106-142): blank lines stay blank, other lines gain the directory
nesting indent plus one level, indentation style is inferred and checked,
and leading tabs are rewritten as two spaces. -/
def procLines (pre : String) : Option Indentation → List String →
    Except String (String × Option Indentation)
  | style, [] => .ok ("", style)
  | style, line :: rest =>
      if trimStr line = "" then
        match procLines pre style rest with
        | .error e => .error e
        | .ok (out, st) => .ok ("\n" ++ out, st)
      else
        match styleSpaceCheck line style with
        | .error e => .error e
        | .ok style1 =>
            match styleTabCheck line style1 with
            | .error e => .error e
            | .ok style2 =>
                match procLines pre style2 rest with
                | .error e => .error e
                | .ok (out, st) =>
                    .ok (pre ++ "  " ++ expandTabs line ++ "\n" ++ out, st)

/-- One file entry's contribution to the assembled text (`collection.rs`
lines 97-142): a single-line file is written inline after the headword,
a multi-line file as the headword line plus its re-indented lines. -/
def procFile (pre head : String) (style : Option Indentation)
    (text : String) : Except String (String × Option Indentation) :=
  if !strHas text '\n' then
    .ok (pre ++ head ++ " " ++ trimStr text ++ "\n", style)
  else
    match procLines pre style (splitLines text) with
    | .error e => .error e
    | .ok (out, st) => .ok (pre ++ head ++ "\n" ++ out, st)

/-- Sort raw directory entries by filename: the modelled `fs::read_dir`
order. -/
def sortByName (entries : List (String × FNode)) :
    List (String × FNode) :=
  rustSortBy (fun a b => cmpStr a.1 b.1) entries

/-- Sort listing triples with the entry comparator on headwords
(`elts.sort_by` in both `read_directory` copies). -/
def sortElts (elts : List (String × String × FNode)) :
    List (String × String × FNode) :=
  rustSortBy (fun a b => entryCmp a.1 b.1) elts

/-- The output-assembly loop of `collection.rs::read_directory` (lines
73-147), fuel-structured because recursion descends into sorted listings:
walks the sorted `(headword, name, node)` triples, appending each file's
text (and collecting its path) or recursing into each subdirectory one
indent level deeper.  Returns the assembled text, the collected file
paths in traversal order, and the inferred style. -/
def readEltsF : Nat → String → String → Option Indentation →
    List (String × String × FNode) →
    Except String (String × List String × Option Indentation)
  | 0, _, _, _, _ => .error "readEltsF: out of fuel"
  | _ + 1, _, _, style, [] => .ok ("", [], style)
  | fuel + 1, rt, pre, style, (head, name, FNode.file text) :: rest =>
      (match procFile pre head style text with
       | .error e => .error e
       | .ok (chunk, style1) =>
           match readEltsF fuel rt pre style1 rest with
           | .error e => .error e
           | .ok (out, paths, style2) =>
               .ok (chunk ++ out, pathJoin rt name :: paths, style2))
  | fuel + 1, rt, pre, style, (head, name, FNode.dir sub) :: rest =>
      match mkElts (sortByName sub) with
      | .error e => .error e
      | .ok elts =>
          match readEltsF fuel (pathJoin rt name) (pre ++ "  ") style
              (sortElts elts) with
          | .error e => .error e
          | .ok (subout, subpaths, style1) =>
              match readEltsF fuel rt pre style1 rest with
              | .error e => .error e
              | .ok (out, paths, style2) =>
                  .ok (pre ++ head ++ "\n" ++ subout ++ out,
                    subpaths ++ paths, style2)

/-- `collection.rs::read_directory` (lines 14-159): list, sort and walk
the tree rooted at the directory `rt` with entry listing `entries`, parse
the assembled text, and default the style to two spaces when no indented
line was seen. -/
def read_directory (fuel : Nat) (rt : String)
    (entries : List (String × FNode)) :
    Except String (Outline × Indentation × List String) :=
  match mkElts (sortByName entries) with
  | .error e => .error e
  | .ok elts =>
      match readEltsF fuel rt "" none (sortElts elts) with
      | .error e => .error e
      | .ok (out, paths, style) =>
          .ok (parseOutline out, style.getD (Indentation.spaces 2), paths)

/-- The listing stage of `lib.rs::read_directory` applied to one
directory: the modelled `fs::read_dir` order followed by the lib entry
classification. -/
def readDirLibEntries (mode : Bool) (entries : List (String × FNode)) :
    Except String (List (String × String × FNode)) :=
  mkEltsLib mode (sortByName entries)

instance {ε α : Type*} [DecidableEq ε] [DecidableEq α] :
    DecidableEq (Except ε α)
  | .error e1, .error e2 => decidable_of_iff (e1 = e2) (by simp)
  | .error _, .ok _ => isFalse (by simp)
  | .ok _, .error _ => isFalse (by simp)
  | .ok a1, .ok a2 => decidable_of_iff (a1 = a2) (by simp)

theorem self_mem_insRev {α : Type*} (cmp : α → α → Ordering) (x : α) :
    ∀ (rev : List α), x ∈ insRev cmp x rev
  | [] => List.mem_singleton.mpr rfl
  | z :: rest => by
      rw [insRev]
      by_cases hc : cmp x z = .lt
      · rw [if_pos hc]
        exact List.mem_cons_of_mem _ (self_mem_insRev cmp x rest)
      · rw [if_neg hc]
        exact List.mem_cons_self _ _

theorem mem_insRev {α : Type*} (cmp : α → α → Ordering) (y : α) :
    ∀ (rev : List α) (x : α), x ∈ rev → x ∈ insRev cmp y rev
  | [], x => by intro h; exact absurd h (List.not_mem_nil x)
  | z :: rest, x => by
      intro h
      rw [insRev]
      by_cases hc : cmp y z = .lt
      · rw [if_pos hc]
        rcases List.mem_cons.mp h with h2 | h2
        · exact h2 ▸ List.mem_cons_self _ _
        · exact List.mem_cons_of_mem _ (mem_insRev cmp y rest x h2)
      · rw [if_neg hc]
        exact List.mem_cons_of_mem _ h

theorem mem_rustSortBy {α : Type*} (cmp : α → α → Ordering) :
    ∀ (l : List α) (x : α), x ∈ l → x ∈ rustSortBy cmp l := by
  have haux : ∀ (l acc : List α) (x : α), x ∈ acc ∨ x ∈ l →
      x ∈ l.foldl (fun rev y => insRev cmp y rev) acc := by
    intro l
    induction l with
    | nil =>
        intro acc x h
        rcases h with h | h
        · exact h
        · exact absurd h (List.not_mem_nil x)
    | cons z rest ih =>
        intro acc x h
        rw [List.foldl_cons]
        refine ih _ x ?_
        rcases h with h | h
        · exact Or.inl (mem_insRev cmp z acc x h)
        · rcases List.mem_cons.mp h with h2 | h2
          · exact Or.inl (h2 ▸ self_mem_insRev cmp z acc)
          · exact Or.inr h2
  intro l x h
  rw [rustSortBy, List.mem_reverse]
  exact haux l [] x (Or.inr h)

theorem mkEltsLib_error (mode : Bool) :
    ∀ (l : List (String × FNode)) (name text : String),
      (name, FNode.file text) ∈ l →
      strStarts name "." = false →
      extOf name = none →
      ∃ e, mkEltsLib mode l = .error e := by
  intro l
  induction l with
  | nil => intro name text hmem _ _; simp at hmem
  | cons ent rest ih =>
      intro name text hmem hdot hext
      obtain ⟨n, nd⟩ := ent
      rw [mkEltsLib.eq_def]
      dsimp only
      rcases List.mem_cons.mp hmem with h | h
      · rw [Prod.mk.injEq] at h
        obtain ⟨hn, hnd⟩ := h
        subst hn
        rw [hdot]
        by_cases hv : is_valid_filename name = true
        · rw [hv]
          rw [← hnd, hext]
          exact ⟨_, rfl⟩
        · rw [Bool.not_eq_true] at hv
          rw [hv]
          exact ⟨_, rfl⟩
      · obtain ⟨e, he⟩ := ih name text h hdot hext
        by_cases hd : strStarts n "." = true
        · rw [hd]
          exact ⟨e, he⟩
        · rw [Bool.not_eq_true] at hd
          rw [hd]
          by_cases hv : is_valid_filename n = true
          · rw [hv]
            cases nd with
            | dir sub => rw [he]; exact ⟨e, rfl⟩
            | file t2 =>
                cases hx : extOf n with
                | none => exact ⟨_, rfl⟩
                | some e2 => rw [he]; exact ⟨e, rfl⟩
          · rw [Bool.not_eq_true] at hv
            rw [hv]
            exact ⟨_, rfl⟩

/-- **C9** (amended).  The two `read_directory` revisions disagree on
extensionless files: the `lib.rs` revision makes any non-dotfile regular
file without an extension a fatal error at the entry-listing stage — as
proved here — while the `collection.rs` revision silently accepts such a
file as a colon-suffixed `name:` entry (see the counterexample
evaluation). -/
theorem lib_extensionless_fatal (mode : Bool)
    (entries : List (String × FNode)) (name text : String)
    (hmem : (name, FNode.file text) ∈ entries)
    (hdot : strStarts name "." = false)
    (hext : extOf name = none) :
    ∃ e, readDirLibEntries mode entries = .error e := by
  rw [readDirLibEntries]
  exact mkEltsLib_error mode (sortByName entries) name text
    (mem_rustSortBy _ entries _ hmem) hdot hext

theorem lib_extensionless_fatal_witness :
    ("data", FNode.file "x") ∈ [("data", FNode.file "x")] ∧
    strStarts "data" "." = false ∧
    extOf "data" = none ∧
    ∃ e, readDirLibEntries true [("data", FNode.file "x")] = .error e :=
  ⟨List.Mem.head _, by decide, by decide,
    lib_extensionless_fatal true [("data", FNode.file "x")] "data" "x"
      (List.Mem.head _) (by decide) (by decide)⟩

set_option maxRecDepth 100000 in
/-- **C9** [counterexample].  `collection.rs::read_directory` does not
error on the extensionless file `data`: it reads the directory
successfully and turns the file into the colon-suffixed outline entry
`data: x`. -/
theorem collection_extensionless_reads :
    read_directory 3 "r" [("data", FNode.file "x")] =
      .ok (Outline.mk [] [Section.mk "data: x" [] []],
        Indentation.spaces 2, ["r/data"]) := by
  decide

set_option maxRecDepth 400000 in
/-- **C8**.  The entry sort comparator
`(!a.0.starts_with(':'), &a.0).cmp(&(b.0.starts_with(':'), &b.0))`
negates the boolean only on the left, so it is not a total order: two
letter-led headwords compare `Greater` both ways (first two conjuncts)
and two colon-led headwords compare `Less` both ways (next two).  Under
the stable insertion sort this reverses every colon block — reading the
attribute files `:a.idm`, `:b.idm` yields the attributes in the order
`b, a`, not lexicographic — and a digit-led name compares with a colon
name by plain string order, so `9.idm` sorts before `:a.idm`: the
colon-prefixed entry is not first, and its line is no longer parsed as
an attribute at all. -/
theorem read_directory_sort_bug :
    entryCmp "a" "b" = Ordering.gt ∧
    entryCmp "b" "a" = Ordering.gt ∧
    entryCmp ":a" ":b" = Ordering.lt ∧
    entryCmp ":b" ":a" = Ordering.lt ∧
    read_directory 3 "r"
        [(":a.idm", FNode.file "1"), (":b.idm", FNode.file "2")] =
      .ok (Outline.mk [("b", "2"), ("a", "1")] [],
        Indentation.spaces 2, ["r/:b.idm", "r/:a.idm"]) ∧
    read_directory 3 "r"
        [("9.idm", FNode.file "1"), (":a.idm", FNode.file "2")] =
      .ok (Outline.mk []
          [Section.mk "9 1" [] [], Section.mk ":a 2" [] []],
        Indentation.spaces 2, ["r/9.idm", "r/:a.idm"]) := by
  decide

/-! ## Writing a collection (`src/collection.rs`: `write_directory`,
`build_files`)

`BTreeMap<PathBuf, String>` is modelled as the insertion-ordered
association list produced by `build_files` applied with last-insert-wins
semantics; `idm::transmute::<_, SimpleOutline>` followed by
`to_string_styled` on a multi-line attribute value is modelled for
two-space-indented values (the only kind the program constructs): each
line's two-space depth is re-emitted in the target indentation unit. -/

/-- A multi-line attribute value restyled for writing (`collection.rs`
lines 197-206). -/
def styledValue (style : Indentation) (v : String) : String :=
  joinNl ((splitLines v).map (fun l =>
    indentU style.unit (indentOf l / 2) ++ dropStr (2 * (indentOf l / 2)) l))

/-- The attribute loop of `build_files` (`collection.rs` lines 190-209):
each attribute becomes the file `:key.idm`, with multi-line values
restyled. -/
def buildAttrs (rt : String) (style : Indentation) :
    List (String × String) → Except String (List (String × String))
  | [] => .ok []
  | (k, v) :: rest =>
      if !is_valid_filename k then
        .error ("build_files: bad attribute name " ++ k)
      else
        match buildAttrs rt style rest with
        | .error e => .error e
        | .ok fs =>
            .ok ((pathJoin rt (":" ++ k ++ ".idm"),
              if strHas v '\n' then styledValue style v else v) :: fs)

/-- The derived file name of a section head: `name/` marks a directory,
`name:` a verbatim file, anything else gets `.idm` appended
(`collection.rs` lines 221-230). -/
def headFileName (h : String) : Bool × String :=
  if strEnds h "/" then (true, takeStr (h.data.length - 1) h)
  else if strEnds h ":" then (false, takeStr (h.data.length - 1) h)
  else (false, h ++ ".idm")

mutual

/-- One section of the child loop of `build_files` (`collection.rs`
lines 212-244): a blank head is skipped, a directory section recurses
into its body (attributes first, then children), any other section
serializes its body into one file. -/
def buildSec (rt : String) (style : Indentation) :
    Section → Except String (List (String × String))
  | Section.mk h a cs =>
      if trimStr h = "" then .ok []
      else if !is_valid_filename (headFileName h).2 then
        .error ("build_files: bad headline " ++ h)
      else if (headFileName h).1 then
        match buildAttrs (pathJoin rt h) style a with
        | .error e => .error e
        | .ok fs1 =>
            match buildSecs (pathJoin rt h) style cs with
            | .error e => .error e
            | .ok fs2 => .ok (fs1 ++ fs2)
      else
        .ok [(pathJoin rt (headFileName h).2,
          toStringStyled style (Outline.mk a cs))]

/-- The child loop over a section list. -/
def buildSecs (rt : String) (style : Indentation) :
    List Section → Except String (List (String × String))
  | [] => .ok []
  | s :: rest =>
      match buildSec rt style s with
      | .error e => .error e
      | .ok fs1 =>
          match buildSecs rt style rest with
          | .error e => .error e
          | .ok fs2 => .ok (fs1 ++ fs2)

end

/-- `build_files` on a whole outline (`collection.rs` lines 183-246). -/
def build_files (rt : String) (style : Indentation) (data : Outline) :
    Except String (List (String × String)) :=
  match buildAttrs rt style data.attrs with
  | .error e => .error e
  | .ok fs1 =>
      match buildSecs rt style data.children with
      | .error e => .error e
      | .ok fs2 => .ok (fs1 ++ fs2)

/-- Store one file in the modelled filesystem, replacing existing
content. -/
def fsSet : List (String × String) → String → String →
    List (String × String)
  | [], p, c => [(p, c)]
  | (q, d) :: rest, p, c =>
      if q = p then (p, c) :: rest else (q, d) :: fsSet rest p c

/-- Apply the built file map to the filesystem in order. -/
def applyWrites (fs : List (String × String)) :
    List (String × String) → List (String × String)
  | [] => fs
  | (p, c) :: rest => applyWrites (fsSet fs p c) rest

/-- `write_directory` (`collection.rs` lines 161-181): build every file
first; only when the whole build succeeds are the files committed to
disk.  Returns the resulting filesystem and the written paths (or the
build error). -/
def write_directory (fs : List (String × String)) (rt : String)
    (style : Indentation) (data : Outline) :
    List (String × String) × Except String (List String) :=
  match build_files rt style data with
  | .error e => (fs, .error e)
  | .ok files =>
      (applyWrites fs files, .ok (files.map (fun f => f.1)))

/-- An attribute list with a key failing the filename grammar. -/
def badAttrs : List (String × String) → Bool
  | [] => false
  | (k, _) :: rest => !is_valid_filename k || badAttrs rest

mutual

/-- A section with a structural error: a non-blank head whose derived
file name fails the grammar, or such an error inside a directory
section's body. -/
def secBad : Section → Bool
  | Section.mk h a cs =>
      if trimStr h = "" then false
      else
        (!is_valid_filename (headFileName h).2 ||
          (if (headFileName h).1 then badAttrs a || secsBad cs
           else false))

/-- A section list with a structural error. -/
def secsBad : List Section → Bool
  | [] => false
  | s :: rest => secBad s || secsBad rest

end

/-- Structural-error test for a directory body. -/
def subBad (a : List (String × String)) (cs : List Section) : Bool :=
  badAttrs a || secsBad cs

theorem buildAttrs_error (rt : String) (style : Indentation) :
    ∀ l, (∃ e, buildAttrs rt style l = .error e) ↔ badAttrs l = true := by
  intro l
  induction l with
  | nil =>
      constructor
      · intro ⟨e, he⟩; exact absurd he (by rw [buildAttrs]; simp)
      · intro h; rw [badAttrs] at h; simp at h
  | cons kv rest ih =>
      obtain ⟨k, v⟩ := kv
      have hstep : buildAttrs rt style ((k, v) :: rest) =
          (if !is_valid_filename k then
            .error ("build_files: bad attribute name " ++ k)
          else
            match buildAttrs rt style rest with
            | .error e => .error e
            | .ok fs =>
                .ok ((pathJoin rt (":" ++ k ++ ".idm"),
                  if strHas v '\n' then styledValue style v else v) ::
                    fs)) := rfl
      have hbstep : badAttrs ((k, v) :: rest) =
          (!is_valid_filename k || badAttrs rest) := rfl
      rw [hstep, hbstep]
      by_cases hv : is_valid_filename k = true
      · rw [hv]
        simp only [Bool.not_true, Bool.false_or, Bool.false_eq_true,
          if_false]
        cases hrec : buildAttrs rt style rest with
        | error e2 =>
            simp only []
            constructor
            · intro _; exact ih.mp ⟨e2, hrec⟩
            · intro _; exact ⟨e2, rfl⟩
        | ok fs =>
            simp only []
            constructor
            · intro ⟨e, he⟩; simp at he
            · intro h
              obtain ⟨e, he⟩ := ih.mpr h
              rw [hrec] at he
              simp at he
      · rw [Bool.not_eq_true] at hv
        rw [hv]
        simp only [Bool.not_false, Bool.true_or, if_true]
        exact ⟨fun _ => by trivial, fun _ => ⟨_, rfl⟩⟩

mutual

theorem buildSec_error (style : Indentation) :
    ∀ (s : Section) (rt : String),
      (∃ e, buildSec rt style s = .error e) ↔ secBad s = true
  | Section.mk h a cs => by
      intro rt
      rw [buildSec, secBad]
      by_cases hblank : trimStr h = ""
      · rw [if_pos hblank, if_pos hblank]
        constructor
        · intro ⟨e, he⟩; simp at he
        · intro hc; exact absurd hc (by simp)
      · rw [if_neg hblank, if_neg hblank]
        by_cases hv : is_valid_filename (headFileName h).2 = true
        · rw [hv]
          simp only [Bool.not_true, Bool.false_eq_true, if_false,
            Bool.false_or]
          by_cases hdir : (headFileName h).1 = true
          · rw [hdir]
            simp only [if_true]
            cases hA : buildAttrs (pathJoin rt h) style a with
            | error e1 =>
                constructor
                · intro _
                  rw [(buildAttrs_error (pathJoin rt h) style a).mp
                    ⟨e1, hA⟩]
                  simp
                · intro _; exact ⟨e1, rfl⟩
            | ok fs1 =>
                have hnA : badAttrs a = false := by
                  by_contra hcon
                  rw [Bool.not_eq_false] at hcon
                  obtain ⟨e, he⟩ :=
                    (buildAttrs_error (pathJoin rt h) style a).mpr hcon
                  rw [hA] at he
                  simp at he
                rw [hnA, Bool.false_or]
                cases hC : buildSecs (pathJoin rt h) style cs with
                | error e2 =>
                    constructor
                    · intro _
                      exact (buildSecs_error style cs
                        (pathJoin rt h)).mp ⟨e2, hC⟩
                    · intro _; exact ⟨e2, rfl⟩
                | ok fs2 =>
                    constructor
                    · intro ⟨e, he⟩; simp at he
                    · intro hc
                      obtain ⟨e, he⟩ :=
                        (buildSecs_error style cs (pathJoin rt h)).mpr hc
                      rw [hC] at he
                      simp at he
          · rw [Bool.not_eq_true] at hdir
            rw [hdir]
            simp only [Bool.false_eq_true, if_false]
            constructor
            · intro ⟨e, he⟩; simp at he
            · intro hc; exact absurd hc (by simp)
        · rw [Bool.not_eq_true] at hv
          rw [hv]
          simp only [Bool.not_false, Bool.true_or, if_true]
          exact ⟨fun _ => by trivial, fun _ => ⟨_, rfl⟩⟩

theorem buildSecs_error (style : Indentation) :
    ∀ (cs : List Section) (rt : String),
      (∃ e, buildSecs rt style cs = .error e) ↔ secsBad cs = true
  | [] => by
      intro rt
      rw [buildSecs, secsBad]
      constructor
      · intro ⟨e, he⟩; simp at he
      · intro hc; exact absurd hc (by simp)
  | s :: rest => by
      intro rt
      rw [buildSecs, secsBad]
      cases hS : buildSec rt style s with
      | error e1 =>
          constructor
          · intro _
            rw [(buildSec_error style s rt).mp ⟨e1, hS⟩]
            simp
          · intro _; exact ⟨e1, rfl⟩
      | ok fs1 =>
          have hnS : secBad s = false := by
            by_contra hcon
            rw [Bool.not_eq_false] at hcon
            obtain ⟨e, he⟩ := (buildSec_error style s rt).mpr hcon
            rw [hS] at he
            simp at he
          rw [hnS, Bool.false_or]
          cases hR : buildSecs rt style rest with
          | error e2 =>
              constructor
              · intro _
                exact (buildSecs_error style rest rt).mp ⟨e2, hR⟩
              · intro _; exact ⟨e2, rfl⟩
          | ok fs2 =>
              constructor
              · intro ⟨e, he⟩; simp at he
              · intro hc
                obtain ⟨e, he⟩ := (buildSecs_error style rest rt).mpr hc
                rw [hR] at he
                simp at he

end

theorem build_files_error (rt : String) (style : Indentation)
    (data : Outline) :
    (∃ e, build_files rt style data = .error e) ↔
      subBad data.attrs data.children = true := by
  have hstep : build_files rt style data =
      (match buildAttrs rt style data.attrs with
      | .error e => .error e
      | .ok fs1 =>
          match buildSecs rt style data.children with
          | .error e => .error e
          | .ok fs2 => .ok (fs1 ++ fs2)) := rfl
  have hbstep : subBad data.attrs data.children =
      (badAttrs data.attrs || secsBad data.children) := rfl
  rw [hstep, hbstep]
  cases hA : buildAttrs rt style data.attrs with
  | error e1 =>
      constructor
      · intro _
        rw [(buildAttrs_error rt style data.attrs).mp ⟨e1, hA⟩]
        simp
      · intro _; exact ⟨e1, rfl⟩
  | ok fs1 =>
      have hnA : badAttrs data.attrs = false := by
        by_contra hcon
        rw [Bool.not_eq_false] at hcon
        obtain ⟨e, he⟩ := (buildAttrs_error rt style data.attrs).mpr hcon
        rw [hA] at he
        simp at he
      rw [hnA, Bool.false_or]
      cases hC : buildSecs rt style data.children with
      | error e2 =>
          constructor
          · intro _
            exact (buildSecs_error style data.children rt).mp ⟨e2, hC⟩
          · intro _; exact ⟨e2, rfl⟩
      | ok fs2 =>
          constructor
          · intro ⟨e, he⟩; simp at he
          · intro hc
            obtain ⟨e, he⟩ :=
              (buildSecs_error style data.children rt).mpr hc
            rw [hC] at he
            simp at he

/-- **C2.**  Build-then-commit atomicity of `write_directory`: the write
errors exactly when the outline has a structural error (an invalid
attribute key, or a non-blank headline whose derived file name fails the
filename grammar, recursively through directory sections), and when it
errors the filesystem is returned unchanged — every file is built before
the first write is committed. -/
theorem write_directory_build_then_commit (fs : List (String × String))
    (rt : String) (style : Indentation) (data : Outline) :
    ((∃ e, (write_directory fs rt style data).2 = Except.error e) ↔
      subBad data.attrs data.children = true) ∧
    ((∃ e, (write_directory fs rt style data).2 = Except.error e) →
      (write_directory fs rt style data).1 = fs) := by
  have hstep : write_directory fs rt style data =
      (match build_files rt style data with
      | .error e => (fs, .error e)
      | .ok files =>
          (applyWrites fs files, .ok (files.map (fun f => f.1)))) := rfl
  rw [hstep]
  cases hb : build_files rt style data with
  | error e =>
      refine ⟨⟨fun _ => (build_files_error rt style data).mp ⟨e, hb⟩,
        fun _ => ⟨e, rfl⟩⟩, fun _ => rfl⟩
  | ok files =>
      simp only []
      constructor
      · constructor
        · intro ⟨e, he⟩; simp at he
        · intro hc
          obtain ⟨e, he⟩ := (build_files_error rt style data).mpr hc
          rw [hb] at he
          simp at he
      · intro ⟨e, he⟩; simp at he

/-! ## Orphan cleanup (`src/lib.rs`: `tidy_delete`, `write_directory`;
`src/io_pipe.rs`: `IoPipe::write`)

Paths are segment lists; the filesystem is the set (list) of existing
file paths and directory paths.  `Path::parent` drops the last segment,
`Path::starts_with` is segment-list `isPrefixOf`, and `components count`
is the segment count.  `fs::remove_dir` succeeds exactly on an existing
empty directory.  Standard output is outside the filesystem. -/

structure PathFS : Type where
  files : List (List String)
  dirs : List (List String)
deriving DecidableEq

def parentPath : List String → Option (List String)
  | [] => none
  | l => some l.dropLast

/-- `fs::remove_dir` succeeds: the directory exists and nothing (file or
directory) lies strictly under it. -/
def isEmptyDir (fs : PathFS) (q : List String) : Bool :=
  fs.dirs.contains q &&
    fs.files.all (fun f => !(q.isPrefixOf f)) &&
    fs.dirs.all (fun d => !(q.isPrefixOf d && decide (d ≠ q)))

def removeDir (fs : PathFS) (q : List String) : PathFS :=
  ⟨fs.files, fs.dirs.erase q⟩

/-- The parent-pruning loop of `tidy_delete` (`src/lib.rs` lines
429-448): step to the parent, stop when it leaves the root or reaches
it, remove it while `remove_dir` succeeds.  The fuel is the path length,
an upper bound on the number of parent steps. -/
def tidyUp (root : List String) : Nat → PathFS → List String → PathFS
  | 0, fs, _ => fs
  | n + 1, fs, p =>
      match parentPath p with
      | none => fs
      | some q =>
          if root.isPrefixOf q && decide (root.length < q.length) then
            if isEmptyDir fs q then tidyUp root n (removeDir fs q) q
            else fs
          else fs

/-- `tidy_delete` (`src/lib.rs` lines 425-451): remove the file (an
error if it does not exist), then prune newly empty parent directories
up to, but never including, the root. -/
def tidy_delete (root : List String) (fs : PathFS) (p : List String) :
    Except String PathFS :=
  if fs.files.contains p then
    .ok (tidyUp root p.length ⟨fs.files.erase p, fs.dirs⟩ p)
  else .error "tidy_delete: remove_file failed"

/-- The cleanup loop of `IoPipe::write` (`src/io_pipe.rs` lines
99-101): tidy-delete each orphaned file in turn. -/
def tidyAll (root : List String) (fs : PathFS) :
    List (List String) → Except String PathFS
  | [] => .ok fs
  | p :: rest =>
      match tidy_delete root fs p with
      | .error e => .error e
      | .ok fs1 => tidyAll root fs1 rest

mutual

/-- One section of the child loop of the `lib.rs` revision of
`build_files` (lines 350-380): it differs from the `collection.rs` one
in deriving file names — no `:` suffix handling, and a headline
containing a dot keeps its name as-is instead of gaining `.idm`. -/
def buildSecL (rt : String) (style : Indentation) :
    Section → Except String (List (String × String))
  | Section.mk h a cs =>
      if trimStr h = "" then .ok []
      else if !is_valid_filename
          (if strEnds h "/" then takeStr (h.data.length - 1) h else h) then
        .error ("build_files: bad headline " ++ h)
      else if strEnds h "/" then
        match buildAttrs (pathJoin rt h) style a with
        | .error e => .error e
        | .ok fs1 =>
            match buildSecsL (pathJoin rt h) style cs with
            | .error e => .error e
            | .ok fs2 => .ok (fs1 ++ fs2)
      else
        .ok [(pathJoin rt (if strHas h '.' then h else h ++ ".idm"),
          toStringStyled style (Outline.mk a cs))]

/-- The `lib.rs` child loop over a section list. -/
def buildSecsL (rt : String) (style : Indentation) :
    List Section → Except String (List (String × String))
  | [] => .ok []
  | s :: rest =>
      match buildSecL rt style s with
      | .error e => .error e
      | .ok fs1 =>
          match buildSecsL rt style rest with
          | .error e => .error e
          | .ok fs2 => .ok (fs1 ++ fs2)

end

/-- Split a path string at `/` into segments. -/
def splitSlashCh : List Char → List (List Char)
  | [] => []
  | '/' :: rest => [] :: splitSlashCh rest
  | c :: rest =>
      match splitSlashCh rest with
      | [] => [[c]]
      | l :: ls => (c :: l) :: ls

def segOf (s : String) : List String :=
  (splitSlashCh s.data).map (fun l => ⟨l⟩)

/-- Join path segments with `/`. -/
def joinSlash : List String → String
  | [] => ""
  | [a] => a
  | a :: rest => a ++ "/" ++ joinSlash rest

/-- Add a path to a path set. -/
def addPath (ps : List (List String)) (p : List String) :
    List (List String) :=
  if ps.contains p then ps else ps ++ [p]

def addPaths (ps : List (List String)) :
    List (List String) → List (List String)
  | [] => ps
  | p :: rest => addPaths (addPath ps p) rest

/-- The nonempty strict ancestors of a path: what
`fs::create_dir_all(path.parent())` guarantees to exist. -/
def properPrefixes (p : List String) : List (List String) :=
  ((List.range p.length).filter (fun k => !(k = 0))).map (fun k => p.take k)

def addDirsFor (dirs : List (List String)) :
    List (List String) → List (List String)
  | [] => dirs
  | p :: rest => addDirsFor (addPaths dirs (properPrefixes p)) rest

/-- `lib.rs::write_directory` (lines 384-404) acting on the path
filesystem: build every file, then commit — each write creates its
ancestor directories and the file itself.  Returns the new filesystem
and the written paths. -/
def write_directory_fs (fs : PathFS) (rt : List String)
    (style : Indentation) (data : Outline) :
    Except String (PathFS × List (List String)) :=
  match buildAttrs (joinSlash rt) style data.attrs with
  | .error e => .error e
  | .ok fs1 =>
      match buildSecsL (joinSlash rt) style data.children with
      | .error e => .error e
      | .ok fs2 =>
          let paths := (fs1 ++ fs2).map (fun f => segOf f.1)
          .ok (PathFS.mk (addPaths fs.files paths)
            (addDirsFor fs.dirs paths), paths)

/-- The input source of an `IoPipe` (`src/io_pipe.rs` lines 205-217). -/
inductive Source : Type where
  | stdin (content : String) : Source
  | file (path : List String) (content : String) : Source
  | collection (path : List String) (files : List (List String))
      (style : Indentation) (outline : Outline) : Source

/-- The destination of an `IoPipe`: standard output (`-`) or a path. -/
inductive Dest : Type where
  | stdout : Dest
  | path (p : List String) : Dest
deriving DecidableEq

/-- `Indentation::infer`, spec-modelled: the first indented line decides
tabs or the space count. -/
def inferIndentation : List String → Option Indentation
  | [] => none
  | l :: rest =>
      if strStarts l "\t" then some Indentation.tabs
      else if strStarts l " " then some (Indentation.spaces (indentOf l))
      else inferIndentation rest

/-- `IoPipe::style` (`src/io_pipe.rs` lines 120-127). -/
def ioStyle : Source → Indentation
  | .collection _ _ st _ => st
  | .stdin c => (inferIndentation (splitLines c)).getD Indentation.default
  | .file _ c => (inferIndentation (splitLines c)).getD Indentation.default

/-- `IoPipe::is_in_place` (`src/io_pipe.rs` lines 112-118). -/
def isInPlace (src : Source) (dest : Dest) : Bool :=
  match src, dest with
  | Source.file p _, Dest.path d => p == d
  | Source.collection p _ _ _, Dest.path d => p == d
  | _, _ => false

/-- `IoPipe::write` (`src/io_pipe.rs` lines 74-110) for outline output:
stdout destinations print; directory destinations run the directory
write, and — only for an in-place collection rewrite — tidy-delete every
originally known file missing from the written set; other destinations
are single-file writes.  Returns the filesystem, the written paths, and
the deleted paths. -/
def ioPipeWrite (fs : PathFS) (src : Source) (dest : Dest)
    (out : Outline) :
    Except String (PathFS × List (List String) × List (List String)) :=
  match dest with
  | Dest.stdout => .ok (fs, [], [])
  | Dest.path d =>
      if fs.dirs.contains d then
        match write_directory_fs fs d (ioStyle src) out with
        | .error e => .error e
        | .ok (fs1, written) =>
            if isInPlace src (Dest.path d) then
              match src with
              | Source.collection _ files _ _ =>
                  (match tidyAll d fs1
                      (files.filter (fun f => !written.contains f)) with
                   | .error e => .error e
                   | .ok fs2 =>
                       .ok (fs2, written,
                         files.filter (fun f => !written.contains f)))
              | _ => .ok (fs1, written, [])
            else .ok (fs1, written, [])
      else
        .ok (PathFS.mk (addPath fs.files d) fs.dirs, [d], [])

theorem tidyUp_files (root : List String) :
    ∀ (n : Nat) (fs : PathFS) (p : List String),
      (tidyUp root n fs p).files = fs.files := by
  intro n
  induction n with
  | zero => intro fs p; rw [tidyUp]
  | succ n ih =>
      intro fs p
      rw [tidyUp]
      cases hp : parentPath p with
      | none => rfl
      | some q =>
          dsimp only
          by_cases h1 :
              (root.isPrefixOf q && decide (root.length < q.length)) = true
          · rw [if_pos h1]
            by_cases h2 : isEmptyDir fs q = true
            · rw [if_pos h2, ih]
              rfl
            · rw [if_neg h2]
          · rw [if_neg h1]

theorem tidyUp_dirs_mem (root : List String) :
    ∀ (n : Nat) (fs : PathFS) (p d : List String),
      d ∈ (tidyUp root n fs p).dirs → d ∈ fs.dirs := by
  intro n
  induction n with
  | zero => intro fs p d h; rw [tidyUp] at h; exact h
  | succ n ih =>
      intro fs p d h
      rw [tidyUp] at h
      cases hp : parentPath p with
      | none => rw [hp] at h; exact h
      | some q =>
          rw [hp] at h
          dsimp only at h
          by_cases h1 :
              (root.isPrefixOf q && decide (root.length < q.length)) = true
          · rw [if_pos h1] at h
            by_cases h2 : isEmptyDir fs q = true
            · rw [if_pos h2] at h
              exact List.mem_of_mem_erase (ih _ _ _ h)
            · rw [if_neg h2] at h; exact h
          · rw [if_neg h1] at h; exact h

theorem tidyUp_removed (root : List String) :
    ∀ (n : Nat) (fs : PathFS) (p d : List String),
      d ∈ fs.dirs → d ∉ (tidyUp root n fs p).dirs →
      root.isPrefixOf d = true ∧ root.length < d.length := by
  intro n
  induction n with
  | zero => intro fs p d hd hnot; rw [tidyUp] at hnot; exact absurd hd hnot
  | succ n ih =>
      intro fs p d hd hnot
      rw [tidyUp] at hnot
      cases hp : parentPath p with
      | none => rw [hp] at hnot; exact absurd hd hnot
      | some q =>
          rw [hp] at hnot
          dsimp only at hnot
          by_cases h1 :
              (root.isPrefixOf q && decide (root.length < q.length)) = true
          · rw [if_pos h1] at hnot
            by_cases h2 : isEmptyDir fs q = true
            · rw [if_pos h2] at hnot
              by_cases hdq : d = q
              · subst hdq
                rw [Bool.and_eq_true, decide_eq_true_eq] at h1
                exact h1
              · exact ih _ _ _
                  ((List.mem_erase_of_ne hdq).mpr hd) hnot
            · rw [if_neg h2] at hnot; exact absurd hd hnot
          · rw [if_neg h1] at hnot; exact absurd hd hnot

theorem tidy_delete_spec (root : List String) (fs : PathFS)
    (p : List String) (fs2 : PathFS)
    (h : tidy_delete root fs p = .ok fs2) :
    fs2.files = fs.files.erase p ∧
    (∀ d ∈ fs2.dirs, d ∈ fs.dirs) ∧
    (∀ d ∈ fs.dirs, d ∉ fs2.dirs →
      root.isPrefixOf d = true ∧ root.length < d.length) := by
  rw [tidy_delete] at h
  by_cases hc : fs.files.contains p = true
  · rw [if_pos hc] at h
    simp only [Except.ok.injEq] at h
    subst h
    refine ⟨?_, ?_, ?_⟩
    · rw [tidyUp_files]
    · intro d hd
      exact tidyUp_dirs_mem root p.length ⟨fs.files.erase p, fs.dirs⟩ p d hd
    · intro d hd hnot
      exact tidyUp_removed root p.length ⟨fs.files.erase p, fs.dirs⟩ p d
        hd hnot
  · rw [if_neg hc] at h
    exact absurd h (by simp)

theorem tidyAll_spec (root : List String) :
    ∀ (del : List (List String)) (fs fs2 : PathFS),
      fs.files.Nodup →
      tidyAll root fs del = .ok fs2 →
      (∀ f, f ∈ fs2.files ↔ (f ∈ fs.files ∧ f ∉ del)) ∧
      (∀ d ∈ fs2.dirs, d ∈ fs.dirs) ∧
      (∀ d ∈ fs.dirs, d ∉ fs2.dirs →
        root.isPrefixOf d = true ∧ root.length < d.length) := by
  intro del
  induction del with
  | nil =>
      intro fs fs2 hnd h
      rw [tidyAll] at h
      simp only [Except.ok.injEq] at h
      subst h
      exact ⟨fun f => by simp, fun d hd => hd, fun d hd hnot =>
        absurd hd hnot⟩
  | cons p rest ih =>
      intro fs fs2 hnd h
      rw [tidyAll] at h
      cases h1 : tidy_delete root fs p with
      | error e => rw [h1] at h; exact absurd h (by simp)
      | ok fs1 =>
          rw [h1] at h
          obtain ⟨hfiles, hdirs, hrem⟩ := tidy_delete_spec root fs p fs1 h1
          have hnd1 : fs1.files.Nodup := by
            rw [hfiles]; exact hnd.erase p
          obtain ⟨ihf, ihd, ihr⟩ := ih fs1 fs2 hnd1 h
          refine ⟨?_, ?_, ?_⟩
          · intro f
            rw [ihf f, hfiles, List.Nodup.mem_erase_iff hnd,
              List.mem_cons]
            constructor
            · intro ⟨⟨hne, hf⟩, hr⟩
              exact ⟨hf, fun hor => hor.elim hne hr⟩
            · intro ⟨hf, hor⟩
              exact ⟨⟨fun he => hor (Or.inl he), hf⟩,
                fun hr => hor (Or.inr hr)⟩
          · intro d hd
            exact hdirs d (ihd d hd)
          · intro d hd hnot
            by_cases hmid : d ∈ fs1.dirs
            · exact ihr d hmid hnot
            · exact hrem d hd hmid

/-- **C3.**  Orphan cleanup of `IoPipe::write`: a stdin source never
triggers cleanup; a destination that is not the source path never
triggers cleanup; and an in-place collection rewrite deletes exactly the
originally known files absent from the written set, via tidy deletes
that only ever remove directories strictly inside the collection root
(never the root itself or anything outside it, and only when empty). -/
theorem ioPipe_write_orphan_cleanup :
    (∀ (fs : PathFS) (c : String) (dest : Dest) (out : Outline)
        (r : PathFS × List (List String) × List (List String)),
        ioPipeWrite fs (Source.stdin c) dest out = .ok r → r.2.2 = []) ∧
    (∀ (fs : PathFS) (src : Source) (d : List String) (out : Outline)
        (r : PathFS × List (List String) × List (List String)),
        isInPlace src (Dest.path d) = false →
        ioPipeWrite fs src (Dest.path d) out = .ok r → r.2.2 = []) ∧
    (∀ (fs fs1 fs2 : PathFS) (p : List String)
        (files written deleted : List (List String))
        (style : Indentation) (o out : Outline),
        fs.dirs.contains p = true →
        write_directory_fs fs p style out = .ok (fs1, written) →
        fs1.files.Nodup →
        ioPipeWrite fs (Source.collection p files style o) (Dest.path p)
            out = .ok (fs2, written, deleted) →
        deleted = files.filter (fun f => !written.contains f) ∧
        (∀ f, f ∈ fs2.files ↔ (f ∈ fs1.files ∧ f ∉ deleted)) ∧
        (∀ d ∈ fs2.dirs, d ∈ fs1.dirs) ∧
        (∀ d ∈ fs1.dirs, d ∉ fs2.dirs →
          p.isPrefixOf d = true ∧ p.length < d.length)) := by
  refine ⟨?_, ?_, ?_⟩
  · intro fs c dest out r h
    rw [ioPipeWrite.eq_def] at h
    cases dest with
    | stdout =>
        simp only [Except.ok.injEq] at h
        rw [← h]
    | path d =>
        dsimp only at h
        by_cases hc : fs.dirs.contains d = true
        · rw [if_pos hc] at h
          cases hw : write_directory_fs fs d (ioStyle (Source.stdin c))
              out with
          | error e => rw [hw] at h; exact absurd h (by simp)
          | ok res =>
              obtain ⟨fs1, written⟩ := res
              rw [hw] at h
              simp only [isInPlace] at h
              simp only [Bool.false_eq_true, if_false,
                Except.ok.injEq] at h
              rw [← h]
        · rw [if_neg hc] at h
          simp only [Except.ok.injEq] at h
          rw [← h]
  · intro fs src d out r hip h
    rw [ioPipeWrite.eq_def] at h
    dsimp only at h
    by_cases hc : fs.dirs.contains d = true
    · rw [if_pos hc] at h
      cases hw : write_directory_fs fs d (ioStyle src) out with
      | error e => rw [hw] at h; exact absurd h (by simp)
      | ok res =>
          obtain ⟨fs1, written⟩ := res
          rw [hw, hip] at h
          simp only [Bool.false_eq_true, if_false,
            Except.ok.injEq] at h
          rw [← h]
    · rw [if_neg hc] at h
      simp only [Except.ok.injEq] at h
      rw [← h]
  · intro fs fs1 fs2 p files written deleted style o out hc hw hnd h
    rw [ioPipeWrite.eq_def] at h
    dsimp only at h
    rw [if_pos hc] at h
    have hstyle : ioStyle (Source.collection p files style o) = style :=
      rfl
    rw [hstyle, hw] at h
    have hip : isInPlace (Source.collection p files style o)
        (Dest.path p) = true := by
      simp [isInPlace]
    rw [hip] at h
    simp only [if_true] at h
    cases ht : tidyAll p fs1
        (files.filter (fun f => !written.contains f)) with
    | error e => rw [ht] at h; exact absurd h (by simp)
    | ok fs2' =>
        rw [ht] at h
        simp only [Except.ok.injEq, Prod.mk.injEq] at h
        obtain ⟨h2, _, h4⟩ := h
        subst h2
        obtain ⟨hf, hd, hr⟩ := tidyAll_spec p
          (files.filter (fun f => !written.contains f)) fs1 fs2' hnd ht
        refine ⟨h4.symm, ?_, hd, hr⟩
        intro f
        rw [← h4]
        exact hf f

def c3fs : PathFS :=
  ⟨[["r", "a.idm"], ["r", "sub", "b.idm"]], [["r"], ["r", "sub"]]⟩

def c3out : Outline := ⟨[], [Section.mk "a" [] [Section.mk "x" [] []]]⟩

set_option maxRecDepth 400000 in
theorem ioPipe_write_orphan_cleanup_witness :
    c3fs.dirs.contains ["r"] = true ∧
    write_directory_fs c3fs ["r"] (Indentation.spaces 2) c3out =
      .ok (c3fs, [["r", "a.idm"]]) ∧
    c3fs.files.Nodup ∧
    ioPipeWrite c3fs
        (Source.collection ["r"] c3fs.files (Indentation.spaces 2)
          (Outline.mk [] []))
        (Dest.path ["r"]) c3out =
      .ok (⟨[["r", "a.idm"]], [["r"]]⟩, [["r", "a.idm"]],
        [["r", "sub", "b.idm"]]) ∧
    ([["r", "sub", "b.idm"]] :
        List (List String)) =
      c3fs.files.filter
        (fun f => !([["r", "a.idm"]] : List (List String)).contains f) :=
  ⟨by decide, by decide, by decide, by decide,
    (ioPipe_write_orphan_cleanup.2.2 c3fs c3fs
      ⟨[["r", "a.idm"]], [["r"]]⟩ ["r"] c3fs.files [["r", "a.idm"]]
      [["r", "sub", "b.idm"]] (Indentation.spaces 2) (Outline.mk [] [])
      c3out (by decide) (by decide) (by decide) (by decide)).1⟩

/-! ## The directory round trip (`write_directory` then `read_directory`)

`mount` realizes a built file map as the directory tree it creates on
disk: each path's first segment is the collection root, the rest name
nested entries. -/

def lookupEntry : List (String × FNode) → String → Option FNode
  | [], _ => none
  | (m, w) :: rest, n => if m = n then some w else lookupEntry rest n

def setEntry : List (String × FNode) → String → FNode →
    List (String × FNode)
  | [], n, v => [(n, v)]
  | (m, w) :: rest, n, v =>
      if m = n then (n, v) :: rest else (m, w) :: setEntry rest n v

def insertTree : List (String × FNode) → List String → String →
    List (String × FNode)
  | entries, [], _ => entries
  | entries, [name], content => setEntry entries name (FNode.file content)
  | entries, seg :: r2 :: rest, content =>
      setEntry entries seg (FNode.dir (insertTree
        (match lookupEntry entries seg with
         | some (FNode.dir es) => es
         | _ => []) (r2 :: rest) content))

def mountGo : List (String × String) → List (String × FNode) →
    List (String × FNode)
  | [], acc => acc
  | (p, c) :: rest, acc => mountGo rest (insertTree acc ((segOf p).drop 1) c)

/-- The directory tree created under the root by writing the built file
map into an empty directory. -/
def mount (files : List (String × String)) : List (String × FNode) :=
  mountGo files []

def rtDoc : Outline :=
  ⟨[("a", "1"), ("b", "2")],
    [Section.mk "x" [] [Section.mk "p" [] []],
      Section.mk "y" [] [Section.mk "q" [] []]]⟩

set_option maxRecDepth 400000 in
/-- **C1** [counterexample].  Writing the outline with attributes
`a, b` (in that order) and sections `x, y` (in that order) to an empty
directory and reading it back yields the attributes re-sorted to
`b, a` — the entry sort of `read_directory` always answers `Less` on a
pair of colon-led headwords (see C8), so the insertion sort reverses the
attribute block — while the sections come back unchanged; the round trip
`read(write(T)) = T` fails. -/
theorem directory_round_trip_counterexample :
    build_files "r" (Indentation.spaces 2) rtDoc =
      .ok [("r/:a.idm", "1"), ("r/:b.idm", "2"), ("r/x.idm", "p\n"),
        ("r/y.idm", "q\n")] ∧
    read_directory 5 "r"
        (mount [("r/:a.idm", "1"), ("r/:b.idm", "2"), ("r/x.idm", "p\n"),
          ("r/y.idm", "q\n")]) =
      .ok (Outline.mk [("b", "2"), ("a", "1")]
          [Section.mk "x" [] [Section.mk "p" [] []],
            Section.mk "y" [] [Section.mk "q" [] []]],
        Indentation.spaces 2,
        ["r/:b.idm", "r/:a.idm", "r/x.idm", "r/y.idm"]) ∧
    Outline.mk [("b", "2"), ("a", "1")]
        [Section.mk "x" [] [Section.mk "p" [] []],
          Section.mk "y" [] [Section.mk "q" [] []]] ≠ rtDoc := by
  decide

/-- Adjacent strict ascent under a comparator. -/
def adjLt {α : Type*} (cmp : α → α → Ordering) : List α → Bool
  | [] => true
  | [_] => true
  | x :: y :: rest => decide (cmp x y = .lt) && adjLt cmp (y :: rest)

/-- All-pairs strict ascent of a string list under `cmpStr`. -/
def pairwiseLtB : List String → Bool
  | [] => true
  | x :: rest =>
      rest.all (fun y => decide (cmpStr x y = .lt)) && pairwiseLtB rest

/-- Adjacent no-descent of a list under a comparator: each element does
not compare `Less` against its left neighbour — exactly the condition
under which the insertion sort never moves anything. -/
def adjNotLt {α : Type*} (cmp : α → α → Ordering) : List α → Bool
  | [] => true
  | [_] => true
  | x :: y :: rest => !(decide (cmp y x = .lt)) && adjNotLt cmp (y :: rest)

theorem insRev_stop {α : Type*} {cmp : α → α → Ordering} {x y : α}
    (rev : List α) (h : ¬ cmp x y = .lt) :
    insRev cmp x (y :: rev) = x :: y :: rev := by
  rw [insRev, if_neg h]

theorem foldl_insRev_adj {α : Type*} (cmp : α → α → Ordering) :
    ∀ (l : List α) (y : α) (rev : List α), adjNotLt cmp (y :: l) = true →
      List.foldl (fun r x => insRev cmp x r) (y :: rev) l =
        l.reverse ++ y :: rev
  | [], y, rev => by
      intro _
      rw [List.foldl_nil, List.reverse_nil, List.nil_append]
  | x :: l2, y, rev => by
      intro h
      rw [adjNotLt, Bool.and_eq_true] at h
      have hx : ¬ cmp x y = .lt := by
        have h1 := h.1
        simp only [Bool.not_eq_true', decide_eq_false_iff_not] at h1
        exact h1
      rw [List.foldl_cons]
      rw [insRev_stop rev hx, foldl_insRev_adj cmp l2 x (y :: rev) h.2,
        List.reverse_cons, List.append_assoc]
      rfl

theorem rustSortBy_of_adjNotLt {α : Type*} (cmp : α → α → Ordering) :
    ∀ l : List α, adjNotLt cmp l = true → rustSortBy cmp l = l
  | [] => by intro _; rfl
  | x :: l2 => by
      intro h
      rw [rustSortBy, List.foldl_cons]
      have h0 : insRev cmp x ([] : List α) = [x] := rfl
      rw [h0]
      rw [show ([x] : List α) = x :: [] from rfl,
        foldl_insRev_adj cmp l2 x [] h, List.reverse_append,
        List.reverse_reverse]
      rfl

theorem insRev_pass_all {α : Type*} (cmp : α → α → Ordering) (x : α) :
    ∀ rev : List α, (∀ y ∈ rev, cmp x y = .lt) →
      insRev cmp x rev = rev ++ [x]
  | [] => by intro _; rfl
  | y :: rest => by
      intro h
      rw [insRev, if_pos (h y (List.mem_cons_self y rest)),
        insRev_pass_all cmp x rest
          (fun z hz => h z (List.mem_cons_of_mem y hz))]
      rfl

/-- A colon-led headword (an attribute entry). -/
def colonH (s : String) : Bool := strStarts s ":"

/-- A headword led by a letter or underscore: its first byte lies above
`:` (0x3a). -/
def letterH (s : String) : Bool :=
  match firstChar s with
  | some c =>
      (65 ≤ c.toNat && c.toNat ≤ 90) ||
        (97 ≤ c.toNat && c.toNat ≤ 122) || c.toNat = 95
  | none => false

theorem colonH_first {s : String} (h : colonH s = true) :
    firstChar s = some ':' := by
  rw [colonH, strStarts] at h
  cases hd : s.data with
  | nil => rw [hd] at h; simp [List.isPrefixOf] at h
  | cons c rest =>
      rw [hd] at h
      rw [List.isPrefixOf] at h
      simp only [Bool.and_eq_true, beq_iff_eq] at h
      rw [firstChar, hd]
      simp only [List.head?]
      rw [h.1]

theorem letterH_first {s : String} (h : letterH s = true) :
    ∃ c, firstChar s = some c ∧ 58 < c.toNat := by
  rw [letterH] at h
  cases hf : firstChar s with
  | none => rw [hf] at h; simp at h
  | some c =>
      rw [hf] at h
      simp only [Bool.or_eq_true, Bool.and_eq_true, decide_eq_true_eq] at h
      refine ⟨c, rfl, ?_⟩
      omega

theorem letterH_not_colon {s : String} (h : letterH s = true) :
    strStarts s ":" = false := by
  obtain ⟨c, hf, hc⟩ := letterH_first h
  rw [strStarts]
  cases hd : s.data with
  | nil => rw [firstChar, hd] at hf; simp at hf
  | cons c2 rest =>
      rw [firstChar, hd] at hf
      simp only [List.head?, Option.some.injEq] at hf
      subst hf
      rw [List.isPrefixOf]
      simp only [Bool.and_eq_true, beq_iff_eq, Bool.and_eq_false_iff]
      left
      rw [beq_eq_false_iff_ne]
      intro he
      rw [← he] at hc
      simp at hc

theorem cmpChars_cons (a b : Char) (as bs : List Char) :
    cmpChars (a :: as) (b :: bs) =
      (if a.toNat < b.toNat then .lt
       else if b.toNat < a.toNat then .gt else cmpChars as bs) := rfl

theorem cmpStr_first_lt {a b : String} {ca cb : Char}
    (ha : firstChar a = some ca) (hb : firstChar b = some cb)
    (h : ca.toNat < cb.toNat) : cmpStr a b = .lt := by
  rw [cmpStr]
  cases hda : a.data with
  | nil => rw [firstChar, hda] at ha; simp at ha
  | cons x xs =>
      cases hdb : b.data with
      | nil => rw [firstChar, hdb] at hb; simp at hb
      | cons y ys =>
          rw [firstChar, hda] at ha
          rw [firstChar, hdb] at hb
          simp only [List.head?, Option.some.injEq] at ha hb
          subst ha; subst hb
          rw [cmpChars_cons, if_pos h]

theorem cmpStr_first_gt {a b : String} {ca cb : Char}
    (ha : firstChar a = some ca) (hb : firstChar b = some cb)
    (h : cb.toNat < ca.toNat) : cmpStr a b = .gt := by
  rw [cmpStr]
  cases hda : a.data with
  | nil => rw [firstChar, hda] at ha; simp at ha
  | cons x xs =>
      cases hdb : b.data with
      | nil => rw [firstChar, hdb] at hb; simp at hb
      | cons y ys =>
          rw [firstChar, hda] at ha
          rw [firstChar, hdb] at hb
          simp only [List.head?, Option.some.injEq] at ha hb
          subst ha; subst hb
          rw [cmpChars_cons, if_neg (by omega), if_pos h]

theorem entryCmp_colon_lt {x z : String} (hx : colonH x = true)
    (hz : colonH z = true ∨ letterH z = true) : entryCmp x z = .lt := by
  rw [entryCmp]
  have hxs : strStarts x ":" = true := hx
  rw [hxs]
  rcases hz with hz | hz
  · have hzs : strStarts z ":" = true := hz
    rw [hzs]
    rfl
  · rw [letterH_not_colon hz]
    obtain ⟨c, hf, hc⟩ := letterH_first hz
    rw [cmpStr_first_lt (colonH_first hx) hf (by
      have : (':' : Char).toNat = 58 := rfl
      omega)]
    rfl

theorem entryCmp_letter_gt {x z : String} (hx : letterH x = true)
    (hz : colonH z = true ∨ letterH z = true) : entryCmp x z = .gt := by
  rw [entryCmp, letterH_not_colon hx]
  rcases hz with hz | hz
  · have hzs : strStarts z ":" = true := hz
    rw [hzs]
    obtain ⟨c, hf, hc⟩ := letterH_first hx
    rw [cmpStr_first_gt hf (colonH_first hz) (by
      have : (':' : Char).toNat = 58 := rfl
      omega)]
    rfl
  · rw [letterH_not_colon hz]
    rfl

theorem foldl_insRev_colons {α : Type*} (key : α → String) :
    ∀ (cs acc : List α), (∀ c ∈ cs, colonH (key c) = true) →
      (∀ a ∈ acc, colonH (key a) = true) →
      List.foldl (fun r x => insRev
          (fun a b => entryCmp (key a) (key b)) x r) acc cs =
        acc ++ cs
  | [], acc => by intro _ _; rw [List.foldl_nil, List.append_nil]
  | c :: cs2, acc => by
      intro hc hacc
      rw [List.foldl_cons]
      rw [insRev_pass_all _ c acc
        (fun y hy => entryCmp_colon_lt (hc c (List.mem_cons_self _ _))
          (Or.inl (hacc y hy)))]
      rw [foldl_insRev_colons key cs2 (acc ++ [c])
        (fun z hz => hc z (List.mem_cons_of_mem _ hz))
        (fun a ha => by
          rcases List.mem_append.mp ha with h | h
          · exact hacc a h
          · rw [List.mem_singleton] at h
            exact h ▸ hc c (List.mem_cons_self _ _)),
        List.append_assoc]
      rfl

theorem foldl_insRev_letters {α : Type*} (key : α → String) :
    ∀ (ls rev : List α), (∀ l ∈ ls, letterH (key l) = true) →
      (∀ y ∈ rev, colonH (key y) = true ∨ letterH (key y) = true) →
      List.foldl (fun r x => insRev
          (fun a b => entryCmp (key a) (key b)) x r) rev ls =
        ls.reverse ++ rev
  | [], rev => by
      intro _ _
      rw [List.foldl_nil, List.reverse_nil, List.nil_append]
  | x :: ls2, rev => by
      intro hl hrev
      have hx : insRev (fun a b => entryCmp (key a) (key b)) x rev =
          x :: rev := by
        cases rev with
        | nil => rfl
        | cons y rest =>
            refine insRev_stop rest ?_
            have hgt := entryCmp_letter_gt (hl x (List.mem_cons_self _ _))
              (hrev y (List.mem_cons_self _ _))
            intro hcon
            rw [hgt] at hcon
            exact absurd hcon (by decide)
      rw [List.foldl_cons]
      rw [hx, foldl_insRev_letters key ls2 (x :: rev)
        (fun z hz => hl z (List.mem_cons_of_mem _ hz))
        (fun y hy => by
          rcases List.mem_cons.mp hy with h | h
          · exact Or.inr (h ▸ hl x (List.mem_cons_self _ _))
          · exact hrev y h),
        List.reverse_cons, List.append_assoc]
      rfl

/-- The entry sort on a colon block followed by a letter block: each new
colon headword compares `Less` against every earlier colon (the left-only
negation, see C8), so it bubbles to the front — the colon block comes out
reversed; a letter headword never compares `Less` against anything, so
the letter block keeps its order. -/
theorem rustSortBy_colon_letter {α : Type*} (key : α → String)
    (cs ls : List α)
    (hc : ∀ c ∈ cs, colonH (key c) = true)
    (hl : ∀ l ∈ ls, letterH (key l) = true) :
    rustSortBy (fun a b => entryCmp (key a) (key b)) (cs ++ ls) =
      cs.reverse ++ ls := by
  rw [rustSortBy, List.foldl_append,
    foldl_insRev_colons key cs [] hc
      (fun a ha => absurd ha (List.not_mem_nil a)),
    List.nil_append,
    foldl_insRev_letters key ls cs hl (fun y hy => Or.inl (hc y hy)),
    List.reverse_append, List.reverse_reverse]

theorem is_valid_cases {s : String} (hv : is_valid_filename s = true) :
    ∃ c rest, s.data = c :: rest ∧
      ((c = ':' ∧ ∃ c2 rest2, rest = c2 :: rest2 ∧ fnChar1 c2 = true ∧
          rest2.all fnameChar2 = true) ∨
        (c ≠ ':' ∧ fnChar1 c = true ∧ rest.all fnameChar2 = true)) := by
  rw [is_valid_filename] at hv
  cases hd : s.data with
  | nil => rw [hd] at hv; simp at hv
  | cons c rest =>
      rw [hd] at hv
      dsimp only at hv
      refine ⟨c, rest, rfl, ?_⟩
      by_cases hc : c = ':'
      · rw [if_pos hc] at hv
        cases rest with
        | nil => simp at hv
        | cons c2 rest2 =>
            simp only [Bool.and_eq_true] at hv
            exact Or.inl ⟨hc, c2, rest2, rfl, hv.1, hv.2⟩
      · rw [if_neg hc] at hv
        simp only [Bool.and_eq_true] at hv
        exact Or.inr ⟨hc, hv.1, hv.2⟩

theorem valid_mem {s : String} (hv : is_valid_filename s = true) :
    ∀ c ∈ s.data, fnameChar2 c = true ∨ c = ':' := by
  obtain ⟨c0, rest, hd, hcase⟩ := is_valid_cases hv
  intro c hc
  rw [hd] at hc
  rcases hcase with ⟨hcol, c2, rest2, hr, hc2, hall⟩ | ⟨hne, hc1, hall⟩
  · subst hr
    rcases List.mem_cons.mp hc with h | h
    · exact Or.inr (h.trans hcol)
    · rcases List.mem_cons.mp h with h2 | h2
      · subst h2
        exact Or.inl (by rw [fnameChar2, hc2]; rfl)
      · exact Or.inl (List.all_eq_true.mp hall c h2)
  · rcases List.mem_cons.mp hc with h | h
    · subst h
      exact Or.inl (by rw [fnameChar2, hc1]; rfl)
    · exact Or.inl (List.all_eq_true.mp hall c h)

theorem valid_no_char {s : String} (hv : is_valid_filename s = true)
    (c : Char) (hc2 : fnameChar2 c = false) (hcc : c ≠ ':') :
    strHas s c = false := by
  rw [strHas]
  by_contra hcon
  rw [Bool.not_eq_false] at hcon
  have hmem : c ∈ s.data := by simpa using hcon
  rcases valid_mem hv c hmem with h | h
  · rw [hc2] at h; exact absurd h (by simp)
  · exact hcc h

theorem is_valid_append {h t : String} (hv : is_valid_filename h = true)
    (ht : t.data.all fnameChar2 = true) :
    is_valid_filename (h ++ t) = true := by
  obtain ⟨c0, rest, hd, hcase⟩ := is_valid_cases hv
  rw [is_valid_filename, String.data_append, hd, List.cons_append]
  rcases hcase with ⟨hcol, c2, rest2, hr, hc2, hall⟩ | ⟨hne, hc1, hall⟩
  · subst hcol
    subst hr
    dsimp only
    rw [if_pos rfl, List.cons_append]
    dsimp only
    rw [List.all_append, hall, ht, hc2]
    rfl
  · dsimp only
    rw [if_neg hne, List.all_append, hall, ht, hc1]
    rfl

theorem strHas_no_last {v : String} (h : strHas v '\n' = false) :
    wfVal v = true := by
  rw [wfVal]
  cases hl : lastChar v with
  | none => rfl
  | some c =>
      rw [lastChar] at hl
      simp only [decide_eq_true_eq]
      intro hc
      subst hc
      have hmem : '\n' ∈ v.data := List.mem_of_getLast?_eq_some hl
      have hco : v.data.contains '\n' = true := by simpa using hmem
      rw [strHas, hco] at h
      exact absurd h (by simp)

theorem valid_wfKey {k : String} (hv : is_valid_filename k = true) :
    wfKey k = true := by
  rw [wfKey, valid_no_char hv ' ' (by decide) (by decide),
    valid_no_char hv '\n' (by decide) (by decide)]
  rfl

theorem letterH_wfHead {h : String} (hv : is_valid_filename h = true)
    (hl : letterH h = true) : wfHead h = true := by
  rw [wfHead, valid_no_char hv '\n' (by decide) (by decide)]
  obtain ⟨c, hf, hc⟩ := letterH_first hl
  rw [hf]
  simp only [Bool.true_and, Bool.and_eq_true, decide_eq_true_eq]
  have h1 : c ≠ ':' := by intro he; subst he; exact absurd hc (by decide)
  have h2 : c ≠ ' ' := by intro he; subst he; exact absurd hc (by decide)
  have h3 : c ≠ '\t' := by intro he; subst he; exact absurd hc (by decide)
  simp [h1, h2, h3]

theorem buildAttrs_ok (rt : String) (style : Indentation) :
    ∀ l : List (String × String),
      (∀ kv ∈ l, is_valid_filename kv.1 = true ∧
        strHas kv.2 '\n' = false) →
      buildAttrs rt style l =
        .ok (l.map (fun kv =>
          (pathJoin rt (":" ++ kv.1 ++ ".idm"), kv.2))) := by
  intro l
  induction l with
  | nil => intro _; rw [buildAttrs]; rfl
  | cons kv rest ih =>
      intro hall
      obtain ⟨k, v⟩ := kv
      obtain ⟨hkv, hvn⟩ := hall (k, v) (List.mem_cons_self _ _)
      have hstep : buildAttrs rt style ((k, v) :: rest) =
          (if !is_valid_filename k then
            .error ("build_files: bad attribute name " ++ k)
          else
            match buildAttrs rt style rest with
            | .error e => .error e
            | .ok fs =>
                .ok ((pathJoin rt (":" ++ k ++ ".idm"),
                  if strHas v '\n' then styledValue style v else v) ::
                    fs)) := rfl
      rw [hstep, hkv,
        ih (fun kv2 h2 => hall kv2 (List.mem_cons_of_mem _ h2))]
      simp only [Bool.not_true, Bool.false_eq_true, if_false, hvn,
        List.map_cons]

/-- The write-side shape conditions on one flat file section's head. -/
def fileSecOk : Section → Bool
  | Section.mk h _ _ =>
      letterH h && is_valid_filename h && !strEnds h "/" && !strEnds h ":"

theorem headFileName_flat {h : String} (h1 : strEnds h "/" = false)
    (h2 : strEnds h ":" = false) :
    headFileName h = (false, h ++ ".idm") := by
  rw [headFileName, h1, h2]
  simp

theorem letterH_trim {h : String} (hl : letterH h = true) :
    ¬ trimStr h = "" := by
  obtain ⟨c, hf, hc⟩ := letterH_first hl
  have hws : isWsChar c = false := by
    rw [isWsChar]
    have k1 : c ≠ ' ' := by intro he; subst he; exact absurd hc (by decide)
    have k2 : c ≠ '\t' := by intro he; subst he; exact absurd hc (by decide)
    have k3 : c ≠ '\n' := by intro he; subst he; exact absurd hc (by decide)
    have k4 : c ≠ '\r' := by intro he; subst he; exact absurd hc (by decide)
    simp [k1, k2, k3, k4]
  cases hd : h.data with
  | nil => rw [firstChar, hd] at hf; simp at hf
  | cons c2 rest =>
      rw [firstChar, hd] at hf
      simp only [List.head?, Option.some.injEq] at hf
      subst hf
      intro hcon
      rw [trimStr, hd] at hcon
      have hdata : (List.dropWhile isWsChar
            ((List.dropWhile isWsChar (c2 :: rest)).reverse)).reverse =
          ([] : List Char) := congrArg String.data hcon
      rw [List.dropWhile_cons, hws] at hdata
      simp only [Bool.false_eq_true, if_false] at hdata
      rw [List.reverse_eq_nil_iff] at hdata
      have hcall := (List.dropWhile_eq_nil_iff.mp hdata) c2 (by simp)
      rw [hws] at hcall
      exact absurd hcall (by simp)

theorem idm_chars : (".idm" : String).data.all fnameChar2 = true := by
  decide

theorem buildSec_ok (rt : String) (style : Indentation) (s : Section)
    (hok : fileSecOk s = true) :
    buildSec rt style s =
      .ok [(pathJoin rt (s.head ++ ".idm"), toStringStyled style s.body)] := by
  obtain ⟨h, a, cs⟩ := s
  rw [fileSecOk] at hok
  simp only [Bool.and_eq_true, Bool.not_eq_true'] at hok
  obtain ⟨⟨⟨hlet, hval⟩, hsl⟩, hcol⟩ := hok
  rw [buildSec, if_neg (letterH_trim hlet), headFileName_flat hsl hcol]
  dsimp only
  rw [is_valid_append hval idm_chars]
  rfl

theorem buildSecs_ok (rt : String) (style : Indentation) :
    ∀ cs : List Section, (∀ s ∈ cs, fileSecOk s = true) →
      buildSecs rt style cs =
        .ok (cs.map (fun s =>
          (pathJoin rt (s.head ++ ".idm"), toStringStyled style s.body))) := by
  intro cs
  induction cs with
  | nil => intro _; rw [buildSecs]; rfl
  | cons s rest ih =>
      intro hall
      rw [buildSecs, buildSec_ok rt style s (hall s (List.mem_cons_self _ _)),
        ih (fun s2 h2 => hall s2 (List.mem_cons_of_mem _ h2))]
      rfl

theorem build_files_ok (rt : String) (style : Indentation) (data : Outline)
    (hattrs : ∀ kv ∈ data.attrs, is_valid_filename kv.1 = true ∧
      strHas kv.2 '\n' = false)
    (hsecs : ∀ s ∈ data.children, fileSecOk s = true) :
    build_files rt style data =
      .ok (data.attrs.map (fun kv =>
          (pathJoin rt (":" ++ kv.1 ++ ".idm"), kv.2)) ++
        data.children.map (fun s =>
          (pathJoin rt (s.head ++ ".idm"), toStringStyled style s.body))) := by
  have hstep : build_files rt style data =
      (match buildAttrs rt style data.attrs with
      | .error e => .error e
      | .ok fs1 =>
          match buildSecs rt style data.children with
          | .error e => .error e
          | .ok fs2 => .ok (fs1 ++ fs2)) := rfl
  rw [hstep, buildAttrs_ok rt style data.attrs hattrs,
    buildSecs_ok rt style data.children hsecs]

theorem strEnds_of_no {s : String} {c : Char} (h : strHas s c = false) :
    strEnds s ⟨[c]⟩ = false := by
  rw [strEnds]
  by_contra hcon
  rw [Bool.not_eq_false] at hcon
  have hsuf : [c] <:+ s.data := by
    rw [← List.isSuffixOf_iff_suffix]
    exact hcon
  have hmem : c ∈ s.data := hsuf.mem (List.mem_singleton.mpr rfl)
  rw [strHas] at h
  have h2 : s.data.contains c = true := by simpa using hmem
  rw [h2] at h
  exact absurd h (by simp)

theorem splitSlashCh_slash (rest : List Char) :
    splitSlashCh ('/' :: rest) = [] :: splitSlashCh rest := rfl

theorem splitSlashCh_other (c : Char) (rest : List Char) (h : c ≠ '/') :
    splitSlashCh (c :: rest) =
      match splitSlashCh rest with
      | [] => [[c]]
      | l :: ls => (c :: l) :: ls := by
  rw [splitSlashCh.eq_def]
  split
  · simp_all
  · simp_all
  · rename_i heq
    rw [List.cons.injEq] at heq
    rw [heq.1, heq.2]

theorem splitSlashCh_no (l : List Char) (h : '/' ∉ l) (hne : l ≠ []) :
    splitSlashCh l = [l] := by
  induction l with
  | nil => exact absurd rfl hne
  | cons c rest ih =>
      have hc : c ≠ '/' :=
        fun he => h (by rw [he]; exact List.mem_cons_self _ _)
      rw [splitSlashCh_other c rest hc]
      cases hrest : rest with
      | nil => rw [splitSlashCh]
      | cons c2 r2 =>
          rw [← hrest,
            ih (fun hm => h (List.mem_cons_of_mem c hm)) (by rw [hrest]; simp)]

theorem splitSlashCh_app (a b : List Char) (ha : '/' ∉ a) :
    splitSlashCh (a ++ '/' :: b) = a :: splitSlashCh b := by
  induction a with
  | nil => rw [List.nil_append, splitSlashCh_slash]
  | cons c arest ih =>
      have hc : c ≠ '/' :=
        fun he => ha (by rw [he]; exact List.mem_cons_self _ _)
      rw [List.cons_append,
        splitSlashCh_other c (arest ++ '/' :: b) hc,
        ih (fun hm => ha (List.mem_cons_of_mem c hm))]

theorem segOf_pathJoin (rt n : String) (hrt1 : strHas rt '/' = false)
    (hrt2 : rt ≠ "") (hn1 : strHas n '/' = false) (hn2 : n ≠ "") :
    segOf (pathJoin rt n) = [rt, n] := by
  rw [pathJoin, strEnds_of_no hrt1]
  simp only [Bool.false_eq_true, if_false]
  rw [segOf]
  have hd : (rt ++ "/" ++ n).data = rt.data ++ '/' :: n.data := by
    rw [String.data_append, String.data_append, List.append_assoc]
    rfl
  rw [hd]
  have hamem : '/' ∉ rt.data := by
    intro hm
    rw [strHas] at hrt1
    have h2 : rt.data.contains '/' = true := by simpa using hm
    rw [h2] at hrt1
    exact absurd hrt1 (by simp)
  have hbmem : '/' ∉ n.data := by
    intro hm
    rw [strHas] at hn1
    have h2 : n.data.contains '/' = true := by simpa using hm
    rw [h2] at hn1
    exact absurd hn1 (by simp)
  have hne : n.data ≠ [] := by
    intro he
    apply hn2
    have h3 : n = ⟨n.data⟩ := rfl
    rw [h3, he]
  rw [splitSlashCh_app rt.data n.data hamem,
    splitSlashCh_no n.data hbmem hne]
  rfl

theorem setEntry_append (n : String) (v : FNode) :
    ∀ acc : List (String × FNode), (∀ pr ∈ acc, pr.1 ≠ n) →
      setEntry acc n v = acc ++ [(n, v)] := by
  intro acc
  induction acc with
  | nil => intro _; rw [setEntry]; rfl
  | cons pr rest ih =>
      intro h
      obtain ⟨m, w⟩ := pr
      rw [setEntry, if_neg (h (m, w) (List.mem_cons_self _ _)),
        ih (fun pr2 h2 => h pr2 (List.mem_cons_of_mem _ h2))]
      rfl

theorem mountGo_flat :
    ∀ (nfs : List (String × String × String))
      (acc : List (String × FNode)),
      (∀ e ∈ nfs, (segOf e.1).drop 1 = [e.2.1]) →
      (∀ e ∈ nfs, ∀ pr ∈ acc, pr.1 ≠ e.2.1) →
      (nfs.map (fun e => e.2.1)).Nodup →
      mountGo (nfs.map (fun e => (e.1, e.2.2))) acc =
        acc ++ nfs.map (fun e => (e.2.1, FNode.file e.2.2)) := by
  intro nfs
  induction nfs with
  | nil => intro acc _ _ _; rw [List.map_nil, mountGo]; simp
  | cons e rest ih =>
      intro acc hseg hfresh hnd
      obtain ⟨p, nm, content⟩ := e
      rw [List.map_cons, mountGo,
        hseg (p, nm, content) (List.mem_cons_self _ _)]
      have hins : insertTree acc [nm] content =
          acc ++ [(nm, FNode.file content)] := by
        rw [insertTree]
        exact setEntry_append nm (FNode.file content) acc
          (fun pr hp => hfresh (p, nm, content) (List.mem_cons_self _ _)
            pr hp)
      rw [hins]
      rw [List.map_cons] at hnd
      rw [ih (acc ++ [(nm, FNode.file content)])
        (fun e2 h2 => hseg e2 (List.mem_cons_of_mem _ h2))
        (fun e2 h2 pr hp => by
          rcases List.mem_append.mp hp with hp2 | hp2
          · exact hfresh e2 (List.mem_cons_of_mem _ h2) pr hp2
          · rw [List.mem_singleton] at hp2
            subst hp2
            intro he
            have hmem2 : e2.2.1 ∈ List.map (fun e => e.2.1) rest :=
              List.mem_map.mpr ⟨e2, h2, rfl⟩
            have hne2 : nm = e2.2.1 := he
            rw [← hne2] at hmem2
            exact (List.nodup_cons.mp hnd).1 hmem2)
        (List.nodup_cons.mp hnd).2]
      rw [List.map_cons, List.append_assoc]
      rfl

theorem extOf_append_idm (b : String) : extOf (b ++ ".idm") = some "idm" := by
  rw [extOf]
  have hm : '.' ∈ (b ++ ".idm").data := by
    rw [String.data_append]
    exact List.mem_append.mpr (Or.inr (by decide))
  have hc : (b ++ ".idm").data.contains '.' = true := by simpa using hm
  rw [hc, if_pos rfl, String.data_append, List.reverse_append]
  have h4 : (".idm" : String).data.reverse = ['m', 'd', 'i', '.'] := by
    decide
  rw [h4]
  rfl

theorem takeStr_strip_idm (b : String) :
    takeStr ((b ++ ".idm").data.length - 4) (b ++ ".idm") = b := by
  rw [takeStr, String.data_append]
  have hlen : (b.data ++ (".idm" : String).data).length - 4 =
      b.data.length := by
    rw [List.length_append]
    have h4 : (".idm" : String).data.length = 4 := by decide
    omega
  rw [hlen, List.take_left]

theorem firstChar_append {b : String} {c : Char}
    (h : firstChar b = some c) (t : String) :
    firstChar (b ++ t) = some c := by
  rw [firstChar, String.data_append]
  cases hd : b.data with
  | nil => rw [firstChar, hd] at h; simp at h
  | cons c2 rest =>
      rw [firstChar, hd] at h
      rw [List.cons_append]
      exact h

theorem strStarts_single_false {s : String} {c c2 : Char}
    (hf : firstChar s = some c) (hne : c ≠ c2) :
    strStarts s ⟨[c2]⟩ = false := by
  rw [strStarts]
  cases hd : s.data with
  | nil => rw [firstChar, hd] at hf; simp at hf
  | cons c3 rest =>
      rw [firstChar, hd] at hf
      simp only [List.head?, Option.some.injEq] at hf
      subst hf
      rw [List.isPrefixOf]
      simp only [Bool.and_eq_false_iff]
      left
      rw [beq_eq_false_iff_ne]
      intro he
      exact hne he.symm

theorem colonH_colon_append (k : String) : colonH (":" ++ k) = true := by
  rw [colonH, strStarts, String.data_append]
  show List.isPrefixOf [':'] (':' :: k.data) = true
  rw [List.isPrefixOf]
  simp

theorem baseFirst {b : String} (h : colonH b = true ∨ letterH b = true) :
    ∃ c, firstChar b = some c ∧ c ≠ '.' := by
  rcases h with h | h
  · refine ⟨':', colonH_first h, by decide⟩
  · obtain ⟨c, hf, hc⟩ := letterH_first h
    refine ⟨c, hf, ?_⟩
    intro he
    subst he
    exact absurd hc (by decide)

theorem mkElts_flat :
    ∀ elts : List (String × String),
      (∀ e ∈ elts, (colonH e.1 = true ∨ letterH e.1 = true) ∧
        is_valid_filename (e.1 ++ ".idm") = true) →
      mkElts (elts.map (fun e => (e.1 ++ ".idm", FNode.file e.2))) =
        .ok (elts.map (fun e => (e.1, e.1 ++ ".idm", FNode.file e.2))) := by
  intro elts
  induction elts with
  | nil => intro _; rw [List.map_nil, mkElts]; rfl
  | cons e rest ih =>
      intro hall
      obtain ⟨b, content⟩ := e
      obtain ⟨hclass, hvalid⟩ := hall (b, content) (List.mem_cons_self _ _)
      obtain ⟨c, hf, hcdot⟩ := baseFirst hclass
      have hstep : mkElts ((b ++ ".idm", FNode.file content) ::
          rest.map (fun e => (e.1 ++ ".idm", FNode.file e.2))) =
          (if strStarts (b ++ ".idm") "." then
            mkElts (rest.map (fun e => (e.1 ++ ".idm", FNode.file e.2)))
          else if !is_valid_filename (b ++ ".idm") then
            .error ("read_directory: invalid filename " ++ (b ++ ".idm"))
          else
            match mkElts (rest.map (fun e =>
                (e.1 ++ ".idm", FNode.file e.2))) with
            | .error e => .error e
            | .ok elts2 =>
                match extOf (b ++ ".idm") with
                | some e2 =>
                    if e2 = "idm" then
                      .ok ((takeStr ((b ++ ".idm").data.length - 4)
                          (b ++ ".idm"), b ++ ".idm",
                        FNode.file content) :: elts2)
                    else .ok (((b ++ ".idm") ++ ":", b ++ ".idm",
                      FNode.file content) :: elts2)
                | none => .ok (((b ++ ".idm") ++ ":", b ++ ".idm",
                    FNode.file content) :: elts2) ) := rfl
      rw [List.map_cons, hstep]
      have hdot : strStarts (b ++ ".idm") "." = false :=
        strStarts_single_false (firstChar_append hf ".idm") hcdot
      rw [hdot, hvalid]
      simp only [Bool.false_eq_true, if_false, Bool.not_true]
      rw [ih (fun e2 h2 => hall e2 (List.mem_cons_of_mem _ h2))]
      rw [extOf_append_idm b]
      rw [takeStr_strip_idm b, List.map_cons]
      simp

def strConcat : List String → String
  | [] => ""
  | s :: rest => s ++ strConcat rest

/-- The style states reachable while reading a two-space collection. -/
def stOk (st : Option Indentation) : Prop :=
  st = none ∨ st = some (Indentation.spaces 2)

theorem expandTabsCh_other (c : Char) (rest : List Char) (h : c ≠ '\t') :
    expandTabsCh (c :: rest) = c :: rest := by
  rw [expandTabsCh.eq_def]
  split
  · simp_all
  · rfl

theorem expandTabs_no_tab {l : String} (h : strStarts l "\t" = false) :
    expandTabs l = l := by
  rw [expandTabs]
  cases hd : l.data with
  | nil =>
      rw [expandTabsCh.eq_def]
      have h2 : l = ⟨l.data⟩ := rfl
      rw [h2, hd]
  | cons c rest =>
      have hc : c ≠ '\t' := by
        intro he
        subst he
        rw [strStarts, hd, List.isPrefixOf] at h
        simp at h
      rw [expandTabsCh_other c rest hc]
      have h2 : l = ⟨l.data⟩ := rfl
      rw [h2, hd]

theorem styleSpaceCheck_ok (line : String) (st : Option Indentation)
    (hst : stOk st) :
    ∃ st2, stOk st2 ∧ styleSpaceCheck line st = .ok st2 := by
  rcases hst with rfl | rfl
  · by_cases hsp : strStarts line " " = true
    · exact ⟨some (Indentation.spaces 2), Or.inr rfl,
        by simp [styleSpaceCheck, hsp]⟩
    · rw [Bool.not_eq_true] at hsp
      exact ⟨none, Or.inl rfl, by simp [styleSpaceCheck, hsp]⟩
  · by_cases hsp : strStarts line " " = true
    · exact ⟨some (Indentation.spaces 2), Or.inr rfl,
        by simp [styleSpaceCheck, hsp]⟩
    · rw [Bool.not_eq_true] at hsp
      exact ⟨some (Indentation.spaces 2), Or.inr rfl,
        by simp [styleSpaceCheck, hsp]⟩

theorem styleTabCheck_skip (line : String) (st : Option Indentation)
    (ht : strStarts line "\t" = false) :
    styleTabCheck line st = .ok st := by
  rw [styleTabCheck.eq_def, ht]
  rfl

theorem procLines_ok (pre : String) :
    ∀ (lines : List String) (st : Option Indentation), stOk st →
      (∀ l ∈ lines, ¬ trimStr l = "" ∧ strStarts l "\t" = false) →
      ∃ st2, stOk st2 ∧
        procLines pre st lines =
          .ok (strConcat (lines.map (fun l => pre ++ "  " ++ l ++ "\n")),
            st2) := by
  intro lines
  induction lines with
  | nil =>
      intro st hst _
      exact ⟨st, hst, by rw [procLines]; rfl⟩
  | cons l rest ih =>
      intro st hst hall
      obtain ⟨hblank, htab⟩ := hall l (List.mem_cons_self _ _)
      have hrest := fun l2 h2 => hall l2 (List.mem_cons_of_mem _ h2)
      obtain ⟨st1, hst1, hs1⟩ := styleSpaceCheck_ok l st hst
      obtain ⟨st2, hst2, heq⟩ := ih st1 hst1 hrest
      refine ⟨st2, hst2, ?_⟩
      rw [List.map_cons, procLines, if_neg hblank, hs1]
      dsimp only
      rw [styleTabCheck_skip l st1 htab]
      dsimp only
      rw [heq]
      dsimp only
      rw [expandTabs_no_tab htab, strConcat]

theorem procFile_inline (pre h v : String) (st : Option Indentation)
    (hnl : strHas v '\n' = false) :
    procFile pre h st v = .ok (pre ++ h ++ " " ++ trimStr v ++ "\n", st) := by
  rw [procFile, hnl]
  rfl

theorem procFile_block (pre h text : String) (st : Option Indentation)
    (hst : stOk st) (lines : List String)
    (hsplit : splitLines text = lines)
    (hnl : strHas text '\n' = true)
    (hall : ∀ l ∈ lines, ¬ trimStr l = "" ∧ strStarts l "\t" = false) :
    ∃ st2, stOk st2 ∧ procFile pre h st text =
      .ok (pre ++ h ++ "\n" ++
        strConcat (lines.map (fun l => pre ++ "  " ++ l ++ "\n")), st2) := by
  obtain ⟨st2, h2, heq⟩ := procLines_ok pre lines st hst hall
  refine ⟨st2, h2, ?_⟩
  rw [procFile, hnl]
  rw [hsplit, heq]
  rfl

theorem printValU_shift (unit : String) (d : Nat) (v : String) :
    printValU unit (d + 1) v =
      (printValU unit d v).map (fun l => unit ++ l) := by
  rw [printValU, printValU, List.map_map]
  have hf : (fun l => indentU unit (d + 1) ++ l) =
      ((fun l => unit ++ l) ∘ fun l => indentU unit d ++ l) := by
    funext l
    show indentU unit (d + 1) ++ l = unit ++ (indentU unit d ++ l)
    rw [← String.append_assoc]
    rfl
  rw [hf]

theorem printAttrsU_shift (unit : String) (d : Nat) :
    ∀ a : List (String × String),
      printAttrsU unit (d + 1) a =
        (printAttrsU unit d a).map (fun l => unit ++ l) := by
  intro a
  induction a with
  | nil => rw [printAttrsU, printAttrsU]; rfl
  | cons kv rest ih =>
      obtain ⟨k, v⟩ := kv
      rw [printAttrsU, printAttrsU, List.map_append, ih]
      by_cases hnl : strHas v '\n' = true
      · rw [hnl]
        simp only [if_true, List.map_cons]
        rw [printValU_shift]
        have h1 : indentU unit (d + 1) ++ ":" ++ k =
            unit ++ (indentU unit d ++ ":" ++ k) := by
          rw [show indentU unit (d + 1) = unit ++ indentU unit d from rfl]
          simp [String.append_assoc]
        rw [h1]
      · rw [Bool.not_eq_true] at hnl
        rw [hnl]
        simp only [Bool.false_eq_true, if_false, List.map_cons,
          List.map_nil]
        have h1 : indentU unit (d + 1) ++ ":" ++ k ++ " " ++ v =
            unit ++ (indentU unit d ++ ":" ++ k ++ " " ++ v) := by
          rw [show indentU unit (d + 1) = unit ++ indentU unit d from rfl]
          simp [String.append_assoc]
        rw [h1]

mutual

theorem printSecU_shift :
    ∀ (s : Section) (unit : String) (d : Nat),
      printSecU unit (d + 1) s =
        (printSecU unit d s).map (fun l => unit ++ l)
  | Section.mk hd a cs => by
      intro unit d
      rw [printSecU, printSecU, List.map_cons, List.map_append]
      rw [printAttrsU_shift, printSecsU_shift cs unit (d + 1)]
      have h1 : indentU unit (d + 1) ++ hd =
          unit ++ (indentU unit d ++ hd) := by
        rw [show indentU unit (d + 1) = unit ++ indentU unit d from rfl,
          String.append_assoc]
      rw [h1]

theorem printSecsU_shift :
    ∀ (cs : List Section) (unit : String) (d : Nat),
      printSecsU unit (d + 1) cs =
        (printSecsU unit d cs).map (fun l => unit ++ l)
  | [] => by intro unit d; rw [printSecsU, printSecsU]; rfl
  | s :: rest => by
      intro unit d
      rw [printSecsU, printSecsU, List.map_append,
        printSecU_shift s unit d, printSecsU_shift rest unit d]

end

theorem printBlockU_shift (unit : String) (d : Nat) (o : Outline) :
    printBlockU unit (d + 1) o =
      (printBlockU unit d o).map (fun l => unit ++ l) := by
  rw [printBlockU, printBlockU, List.map_append, printAttrsU_shift,
    printSecsU_shift]

/-- No line of the value is blank. -/
def nbVal (v : String) : Bool :=
  (splitLines v).all (fun l => !(decide (trimStr l = "")))

def nbAttrs (a : List (String × String)) : Bool :=
  a.all (fun kv => nbVal kv.2)

/-- A head suitable for a line of a written file: its first character
exists and is not whitespace. -/
def hdOk (h : String) : Bool :=
  match firstChar h with
  | some c => !isWsChar c
  | none => false

mutual

/-- No blank printed line anywhere under the section: heads start with a
non-whitespace character and attribute values have no blank lines. -/
def nbSec : Section → Bool
  | Section.mk h a cs => hdOk h && nbAttrs a && nbSecs cs

def nbSecs : List Section → Bool
  | [] => true
  | s :: rest => nbSec s && nbSecs rest

end

def nbOutline (o : Outline) : Bool := nbAttrs o.attrs && nbSecs o.children

theorem trim_eq_empty_iff (s : String) :
    trimStr s = "" ↔ ∀ c ∈ s.data, isWsChar c = true := by
  constructor
  · intro h c hc
    have hdata : (List.dropWhile isWsChar
          ((List.dropWhile isWsChar s.data).reverse)).reverse =
        ([] : List Char) := congrArg String.data h
    rw [List.reverse_eq_nil_iff] at hdata
    have hall := List.dropWhile_eq_nil_iff.mp hdata
    have hsplit := List.takeWhile_append_dropWhile (p := isWsChar)
      (l := s.data)
    rw [← hsplit] at hc
    rcases List.mem_append.mp hc with h2 | h2
    · exact List.mem_takeWhile_imp h2
    · exact hall c (List.mem_reverse.mpr h2)
  · intro h
    have h1 : List.dropWhile isWsChar s.data = [] :=
      List.dropWhile_eq_nil_iff.mpr h
    rw [trimStr, h1]
    rfl

/-- A printed line that survives the re-indenting read loop unchanged:
not blank, not tab-led. -/
def lineOk (l : String) : Prop :=
  ¬ trimStr l = "" ∧ strStarts l "\t" = false

theorem lineOk_of (d : Nat) (y : String)
    (hc : ∃ c ∈ y.data, isWsChar c = false)
    (ht : d = 0 → strStarts y "\t" = false) :
    lineOk (indentU "  " d ++ y) := by
  constructor
  · intro hcon
    obtain ⟨c, hcm, hcw⟩ := hc
    have := (trim_eq_empty_iff _).mp hcon c (by
      rw [String.data_append]
      exact List.mem_append.mpr (Or.inr hcm))
    rw [hcw] at this
    exact absurd this (by simp)
  · cases d with
    | zero =>
        have h0 : (indentU "  " 0 ++ y) = y := by
          show "" ++ y = y
          have : ("" ++ y).data = y.data := by
            rw [String.data_append]
            rfl
          exact congrArg String.mk this
        rw [h0]
        exact ht rfl
    | succ d =>
        have hfc : firstChar (indentU "  " (d + 1) ++ y) = some ' ' := by
          rw [firstChar, String.data_append, indentU_two_data]
          have h2 : 2 * (d + 1) = (2 * d + 1) + 1 := by omega
          rw [h2, List.replicate_succ]
          rfl
        exact strStarts_single_false hfc (by decide)

theorem hdOk_char {h : String} (hh : hdOk h = true) :
    ∃ c ∈ h.data, isWsChar c = false := by
  rw [hdOk] at hh
  cases hf : firstChar h with
  | none => rw [hf] at hh; simp at hh
  | some c =>
      rw [hf] at hh
      refine ⟨c, ?_, by simpa using hh⟩
      rw [firstChar] at hf
      cases hd : h.data with
      | nil => rw [hd] at hf; simp at hf
      | cons c2 rest =>
          rw [hd] at hf
          simp only [List.head?, Option.some.injEq] at hf
          rw [hf]
          exact List.mem_cons_self _ _

theorem hdOk_no_tab {h : String} (hh : hdOk h = true) :
    strStarts h "\t" = false := by
  rw [hdOk] at hh
  cases hf : firstChar h with
  | none => rw [hf] at hh; simp at hh
  | some c =>
      rw [hf] at hh
      simp only [Bool.not_eq_true'] at hh
      refine strStarts_single_false hf ?_
      intro he
      subst he
      rw [isWsChar] at hh
      simp at hh

theorem printValU_linesOk (d : Nat) (v : String) (hnb : nbVal v = true) :
    ∀ l ∈ printValU "  " (d + 1) v, lineOk l := by
  intro l hl
  rw [printValU, List.mem_map] at hl
  obtain ⟨m, hm, rfl⟩ := hl
  refine lineOk_of (d + 1) m ?_ (by intro h0; exact absurd h0 (by omega))
  rw [nbVal, List.all_eq_true] at hnb
  have hne := hnb m hm
  simp only [Bool.not_eq_true', decide_eq_false_iff_not] at hne
  by_contra hcon
  push_neg at hcon
  refine hne ((trim_eq_empty_iff m).mpr ?_)
  intro c hc
  cases hw : isWsChar c with
  | true => rfl
  | false => exact absurd hw (hcon c hc)

theorem attr_key_linesOk (d : Nat) (k : String) :
    lineOk (indentU "  " d ++ ":" ++ k) := by
  rw [String.append_assoc]
  refine lineOk_of d (":" ++ k) ?_ ?_
  · refine ⟨':', ?_, by decide⟩
    rw [String.data_append]
    exact List.mem_append.mpr (Or.inl (by decide))
  · intro _
    refine strStarts_single_false (c := ':') ?_ (by decide)
    rw [firstChar, String.data_append]
    rfl

theorem attr_inline_linesOk (d : Nat) (k v : String) :
    lineOk (indentU "  " d ++ ":" ++ k ++ " " ++ v) := by
  have hsh : indentU "  " d ++ ":" ++ k ++ " " ++ v =
      indentU "  " d ++ (":" ++ (k ++ (" " ++ v))) := by
    simp [String.append_assoc]
  rw [hsh]
  refine lineOk_of d (":" ++ (k ++ (" " ++ v))) ?_ ?_
  · refine ⟨':', ?_, by decide⟩
    rw [String.data_append]
    exact List.mem_append.mpr (Or.inl (by decide))
  · intro _
    refine strStarts_single_false (c := ':') ?_ (by decide)
    rw [firstChar, String.data_append]
    rfl

theorem printAttrsU_linesOk (d : Nat) :
    ∀ a : List (String × String), nbAttrs a = true →
      ∀ l ∈ printAttrsU "  " d a, lineOk l := by
  intro a
  induction a with
  | nil => intro _ l hl; simp [printAttrsU] at hl
  | cons kv rest ih =>
      intro hnb l hl
      obtain ⟨k, v⟩ := kv
      have hand : nbVal v = true ∧ nbAttrs rest = true := by
        rw [nbAttrs, List.all_cons, Bool.and_eq_true] at hnb
        exact ⟨hnb.1, hnb.2⟩
      rw [printAttrsU, List.mem_append] at hl
      rcases hl with hl | hl
      · by_cases hnl : strHas v '\n' = true
        · rw [hnl] at hl
          simp only [if_true] at hl
          rcases List.mem_cons.mp hl with h2 | h2
          · subst h2
            exact attr_key_linesOk d k
          · exact printValU_linesOk d v hand.1 l h2
        · rw [Bool.not_eq_true] at hnl
          rw [hnl] at hl
          simp only [Bool.false_eq_true, if_false,
            List.mem_singleton] at hl
          subst hl
          exact attr_inline_linesOk d k v
      · exact ih hand.2 l hl

mutual

theorem printSecU_linesOk :
    ∀ (s : Section) (d : Nat), nbSec s = true →
      ∀ l ∈ printSecU "  " d s, lineOk l
  | Section.mk hd a cs => by
      intro d hnb l hl
      rw [nbSec, Bool.and_eq_true, Bool.and_eq_true] at hnb
      rw [printSecU] at hl
      cases hl with
      | head =>
          exact lineOk_of d hd (hdOk_char hnb.1.1)
            (fun _ => hdOk_no_tab hnb.1.1)
      | tail _ h =>
          rcases List.mem_append.mp h with h2 | h2
          · exact printAttrsU_linesOk (d + 1) a hnb.1.2 l h2
          · exact printSecsU_linesOk cs (d + 1) hnb.2 l h2

theorem printSecsU_linesOk :
    ∀ (cs : List Section) (d : Nat), nbSecs cs = true →
      ∀ l ∈ printSecsU "  " d cs, lineOk l
  | [] => by intro d _ l hl; simp [printSecsU] at hl
  | s :: rest => by
      intro d hnb l hl
      rw [nbSecs, Bool.and_eq_true] at hnb
      rw [printSecsU, List.mem_append] at hl
      cases hl with
      | inl h => exact printSecU_linesOk s d hnb.1 l h
      | inr h => exact printSecsU_linesOk rest d hnb.2 l h

end

theorem printBlockU_linesOk (d : Nat) (o : Outline)
    (hnb : nbOutline o = true) :
    ∀ l ∈ printBlockU "  " d o, lineOk l := by
  obtain ⟨a, cs⟩ := o
  rw [nbOutline, Bool.and_eq_true] at hnb
  intro l hl
  rw [printBlockU, List.mem_append] at hl
  cases hl with
  | inl h => exact printAttrsU_linesOk d a hnb.1 l h
  | inr h => exact printSecsU_linesOk cs d hnb.2 l h

theorem strConcat_append :
    ∀ a b : List String, strConcat (a ++ b) = strConcat a ++ strConcat b
  | [], b => by
      rw [List.nil_append, strConcat]
      rfl
  | s :: rest, b => by
      rw [List.cons_append, strConcat, strConcat,
        strConcat_append rest b, String.append_assoc]

theorem joinNl_eq_strConcat :
    ∀ ls : List String, joinNl ls = strConcat (ls.map (fun l => l ++ "\n"))
  | [] => rfl
  | l :: rest => by
      rw [joinNl, List.map_cons, strConcat, joinNl_eq_strConcat rest,
        String.append_assoc]

theorem strHas_of_mem {s : String} {c : Char} (h : c ∈ s.data) :
    strHas s c = true := by
  rw [strHas]
  simpa using h

theorem joinNl_has_nl (l : String) (rest : List String) :
    strHas (joinNl (l :: rest)) '\n' = true := by
  refine strHas_of_mem ?_
  rw [joinNl, String.data_append, String.data_append]
  exact List.mem_append.mpr (Or.inl (List.mem_append.mpr (Or.inr
    (by decide))))

theorem cmpChars_refl : ∀ l : List Char, cmpChars l l = .eq
  | [] => rfl
  | c :: rest => by
      rw [cmpChars, if_neg (by omega), if_neg (by omega)]
      exact cmpChars_refl rest

theorem pairwiseLtB_adjLt : ∀ l : List String, pairwiseLtB l = true →
    adjLt cmpStr l = true
  | [] => by intro _; rfl
  | [_] => by intro _; rfl
  | x :: y :: rest => by
      intro h
      rw [pairwiseLtB, Bool.and_eq_true, List.all_eq_true] at h
      rw [adjLt, Bool.and_eq_true]
      exact ⟨by simpa using h.1 y (List.mem_cons_self y rest),
        pairwiseLtB_adjLt (y :: rest) h.2⟩

theorem pairwiseLtB_nodup : ∀ l : List String, pairwiseLtB l = true →
    l.Nodup
  | [] => by intro _; exact List.nodup_nil
  | x :: rest => by
      intro h
      rw [pairwiseLtB, Bool.and_eq_true, List.all_eq_true] at h
      refine List.nodup_cons.mpr ⟨?_, pairwiseLtB_nodup rest h.2⟩
      intro hmem
      have hlt : cmpStr x x = .lt := by simpa using h.1 x hmem
      rw [cmpStr, cmpChars_refl] at hlt
      exact absurd hlt (by simp)

theorem cmpChars_asymm : ∀ (a b : List Char),
    cmpChars a b = .lt → cmpChars b a = .gt
  | [], [] => by intro h; exact absurd h (by simp [cmpChars])
  | [], _ :: _ => by intro _; rw [cmpChars]
  | _ :: _, [] => by intro h; rw [cmpChars] at h; exact absurd h (by simp)
  | x :: xs, y :: ys => by
      intro h
      rw [cmpChars] at h
      rw [cmpChars]
      by_cases h1 : x.toNat < y.toNat
      · rw [if_neg (by omega), if_pos h1]
      · rw [if_neg h1] at h
        by_cases h2 : y.toNat < x.toNat
        · rw [if_pos h2] at h
          exact absurd h (by simp)
        · rw [if_neg h2] at h
          rw [if_neg h2, if_neg h1]
          exact cmpChars_asymm xs ys h

theorem adjLt_imp_adjNotLt : ∀ l : List String,
    adjLt cmpStr l = true → adjNotLt cmpStr l = true
  | [] => by intro _; rfl
  | [_] => by intro _; rfl
  | x :: y :: rest => by
      intro h
      rw [adjLt, Bool.and_eq_true, decide_eq_true_eq] at h
      rw [adjNotLt, Bool.and_eq_true]
      refine ⟨?_, adjLt_imp_adjNotLt (y :: rest) h.2⟩
      simp only [Bool.not_eq_true', decide_eq_false_iff_not]
      intro hcon
      have hgt := cmpChars_asymm x.data y.data h.1
      rw [cmpStr] at hcon
      rw [hgt] at hcon
      exact absurd hcon (by decide)

theorem valid_ne_empty {s : String} (hv : is_valid_filename s = true) :
    s ≠ "" := by
  obtain ⟨c, rest, hd, _⟩ := is_valid_cases hv
  intro he
  subst he
  have h2 : ([] : List Char) = c :: rest := hd
  exact List.noConfusion h2

theorem is_valid_colon {k : String} (hv : is_valid_filename k = true)
    (hnc : strStarts k ":" = false) :
    is_valid_filename (":" ++ k) = true := by
  obtain ⟨c, rest, hd, hcase⟩ := is_valid_cases hv
  have hcol : c ≠ ':' := by
    intro he
    subst he
    rw [strStarts, hd] at hnc
    simp [List.isPrefixOf] at hnc
  rcases hcase with ⟨he, _⟩ | ⟨_, hc1, hall⟩
  · exact absurd he hcol
  · rw [is_valid_filename]
    have hdata : (":" ++ k).data = ':' :: k.data := by
      rw [String.data_append]
      rfl
    rw [hdata, hd]
    dsimp only
    rw [if_pos rfl, hc1, hall]
    rfl

theorem str_empty_append (s : String) : "" ++ s = s := rfl

/-- The text chunk `read_directory` appends for one flat `.idm` file with
headword `h` and content `text` (the ok payload of `procFile` at the root
prefix). -/
def procChunk (h text : String) : String :=
  if !strHas text '\n' then "" ++ h ++ " " ++ trimStr text ++ "\n"
  else "" ++ h ++ "\n" ++
    strConcat ((splitLines text).map (fun l => "" ++ "  " ++ l ++ "\n"))

theorem procFile_chunk_inline (h text : String) (st : Option Indentation)
    (hnl : strHas text '\n' = false) :
    procFile "" h st text = .ok (procChunk h text, st) := by
  rw [procChunk, hnl]
  simp only [Bool.not_false, if_true]
  exact procFile_inline "" h text st hnl

theorem procFile_chunk_block (h text : String) (st : Option Indentation)
    (hst : stOk st) (hnl : strHas text '\n' = true)
    (hall : ∀ l ∈ splitLines text, lineOk l) :
    ∃ st2, stOk st2 ∧
      procFile "" h st text = .ok (procChunk h text, st2) := by
  obtain ⟨st2, h2, heq⟩ := procFile_block "" h text st hst
    (splitLines text) rfl hnl hall
  refine ⟨st2, h2, ?_⟩
  rw [procChunk, hnl]
  simp only [Bool.not_true, Bool.false_eq_true, if_false]
  exact heq

theorem printAttrsU_inline (d : Nat) :
    ∀ a : List (String × String),
      (∀ kv ∈ a, strHas kv.2 '\n' = false) →
      printAttrsU "  " d a =
        a.map (fun kv => indentU "  " d ++ ":" ++ kv.1 ++ " " ++ kv.2)
  | [] => by intro _; rfl
  | kv :: rest => by
      intro h
      obtain ⟨k, v⟩ := kv
      rw [printAttrsU, List.map_cons]
      rw [h (k, v) (List.mem_cons_self _ _)]
      simp only [Bool.false_eq_true, if_false]
      rw [printAttrsU_inline d rest
        (fun kv2 h2 => h kv2 (List.mem_cons_of_mem _ h2))]
      rfl

theorem attr_chunk_eq (k v : String) (hnl : strHas v '\n' = false)
    (ht : trimStr v = v) :
    procChunk (":" ++ k) v =
      (indentU "  " 0 ++ ":" ++ k ++ " " ++ v) ++ "\n" := by
  rw [procChunk, hnl]
  simp only [Bool.not_false, if_true]
  rw [ht]
  show "" ++ (":" ++ k) ++ " " ++ v ++ "\n" = _
  have h0 : indentU "  " 0 = "" := rfl
  rw [h0]
  simp [String.append_assoc]

theorem printBlock_ne_nil (o : Outline)
    (hne : ¬(o.attrs = [] ∧ o.children = [])) :
    printBlockU "  " 0 o ≠ [] := by
  obtain ⟨a, cs⟩ := o
  rw [printBlockU]
  cases a with
  | cons kv rest =>
      obtain ⟨k, v⟩ := kv
      rw [printAttrsU]
      intro hcon
      rcases List.append_eq_nil.mp hcon with ⟨h1, _⟩
      rcases List.append_eq_nil.mp h1 with ⟨h2, _⟩
      by_cases hnl : strHas v '\n' = true
      · rw [hnl] at h2
        simp at h2
      · rw [Bool.not_eq_true] at hnl
        rw [hnl] at h2
        simp at h2
  | nil =>
      cases cs with
      | nil => exact absurd ⟨rfl, rfl⟩ hne
      | cons s rest =>
          rw [printAttrsU, List.nil_append, printSecsU]
          obtain ⟨h, a2, cs2⟩ := s
          rw [printSecU]
          intro hcon
          simp at hcon

theorem sec_chunk_eq (s : Section) (hwf : wfOutline s.body = true)
    (hnb : nbOutline s.body = true)
    (hne : ¬(s.body.attrs = [] ∧ s.body.children = [])) :
    procChunk s.head (toStringStyled (Indentation.spaces 2) s.body) =
      strConcat ((printSecU "  " 0 s).map (fun l => l ++ "\n")) := by
  obtain ⟨h, a, cs⟩ := s
  have hbody : Section.body (Section.mk h a cs) = Outline.mk a cs := rfl
  rw [hbody] at hwf hnb hne ⊢
  have htext : toStringStyled (Indentation.spaces 2) (Outline.mk a cs) =
      joinNl (printBlockU "  " 0 (Outline.mk a cs)) := rfl
  rw [htext]
  have hnonl := printBlockU_no_newline 0 (Outline.mk a cs) hwf
  have hsplit : splitLines (joinNl (printBlockU "  " 0 (Outline.mk a cs))) =
      printBlockU "  " 0 (Outline.mk a cs) :=
    splitLines_joinNl _ hnonl
  have hnl : strHas (joinNl (printBlockU "  " 0 (Outline.mk a cs)))
      '\n' = true := by
    cases hlines : printBlockU "  " 0 (Outline.mk a cs) with
    | nil => exact absurd hlines (printBlock_ne_nil _ hne)
    | cons l rest => exact joinNl_has_nl l rest
  rw [procChunk, hnl]
  simp only [Bool.not_true, Bool.false_eq_true, if_false]
  rw [hsplit]
  have hhead : Section.head (Section.mk h a cs) = h := rfl
  rw [hhead, printSecU, List.map_cons, strConcat]
  have hshift : printAttrsU "  " (0 + 1) a ++ printSecsU "  " (0 + 1) cs =
      (printBlockU "  " 0 (Outline.mk a cs)).map
        (fun l => "  " ++ l) := by
    have hb : printAttrsU "  " (0 + 1) a ++ printSecsU "  " (0 + 1) cs =
        printBlockU "  " (0 + 1) (Outline.mk a cs) := rfl
    rw [hb, printBlockU_shift]
  rw [hshift, List.map_map]
  have hmap : ∀ ls : List String,
      ls.map (fun l => "" ++ "  " ++ l ++ "\n") =
        ls.map ((fun l => l ++ "\n") ∘ fun l => "  " ++ l) := by
    intro ls
    refine List.map_congr_left ?_
    intro l _
    show "" ++ "  " ++ l ++ "\n" = ("  " ++ l) ++ "\n"
    rw [str_empty_append]
  rw [hmap]
  have hh2 : "" ++ h ++ "\n" ++
      strConcat ((printBlockU "  " 0 (Outline.mk a cs)).map
        ((fun l => l ++ "\n") ∘ fun l => "  " ++ l)) =
      (indentU "  " 0 ++ h ++ "\n") ++
        strConcat ((printBlockU "  " 0 (Outline.mk a cs)).map
          ((fun l => l ++ "\n") ∘ fun l => "  " ++ l)) := rfl
  rw [hh2]

theorem readEltsF_files (rt : String) :
    ∀ (elts : List (String × String × String)) (fuel : Nat)
      (st : Option Indentation), stOk st →
      (∀ e ∈ elts, ∀ st1 : Option Indentation, stOk st1 →
        ∃ st2, stOk st2 ∧
          procFile "" e.1 st1 e.2.2 = .ok (procChunk e.1 e.2.2, st2)) →
      ∃ stf, stOk stf ∧
        readEltsF (fuel + elts.length + 1) rt "" st
            (elts.map (fun e => (e.1, e.2.1, FNode.file e.2.2))) =
          .ok (strConcat (elts.map (fun e => procChunk e.1 e.2.2)),
            elts.map (fun e => pathJoin rt e.2.1), stf)
  | [] => by
      intro fuel st hst _
      refine ⟨st, hst, ?_⟩
      rw [List.map_nil, List.map_nil, List.map_nil]
      show readEltsF (fuel + 0 + 1) rt "" st [] = _
      rw [readEltsF]
      rfl
  | e :: rest => by
      intro fuel st hst hproc
      obtain ⟨h, nm, tx⟩ := e
      obtain ⟨st1, hst1, hpf⟩ :=
        hproc (h, nm, tx) (List.mem_cons_self _ _) st hst
      obtain ⟨stf, hstf, hrec⟩ := readEltsF_files rt rest fuel st1 hst1
        (fun e2 h2 => hproc e2 (List.mem_cons_of_mem _ h2))
      refine ⟨stf, hstf, ?_⟩
      simp only [List.map_cons, List.length_cons]
      have harith : fuel + (rest.length + 1) + 1 =
          (fuel + rest.length + 1) + 1 := by omega
      rw [harith, readEltsF, hpf]
      dsimp only
      rw [hrec]
      dsimp only
      rw [strConcat]

theorem fileSecOk_parts {s : Section} (hok : fileSecOk s = true) :
    letterH s.head = true ∧ is_valid_filename s.head = true ∧
    strEnds s.head "/" = false ∧ strEnds s.head ":" = false := by
  obtain ⟨h, a, cs⟩ := s
  rw [fileSecOk] at hok
  simp only [Bool.and_eq_true, Bool.not_eq_true'] at hok
  exact ⟨hok.1.1.1, hok.1.1.2, hok.1.2, hok.2⟩

theorem attr_name_valid {k : String} (hv : is_valid_filename k = true)
    (hnc : strStarts k ":" = false) :
    is_valid_filename ((":" ++ k) ++ ".idm") = true :=
  is_valid_append (is_valid_colon hv hnc) idm_chars

theorem adjNotLt_fst : ∀ l : List (String × FNode),
    adjNotLt (fun a b => cmpStr a.1 b.1) l =
      adjNotLt cmpStr (l.map (fun pr => pr.1))
  | [] => rfl
  | [_] => rfl
  | x :: y :: rest => by
      rw [List.map_cons, List.map_cons, adjNotLt, adjNotLt,
        ← List.map_cons (fun pr : String × FNode => pr.1) y rest,
        adjNotLt_fst (y :: rest)]

theorem stOk_getD {st : Option Indentation} (h : stOk st) :
    st.getD (Indentation.spaces 2) = Indentation.spaces 2 := by
  rcases h with rfl | rfl <;> rfl

theorem wfAttrsL_of (a : List (String × String))
    (hall : ∀ kv ∈ a, is_valid_filename kv.1 = true ∧
      strHas kv.2 '\n' = false) :
    wfAttrsL a = true := by
  rw [wfAttrsL, List.all_eq_true]
  intro kv hkv
  show (wfKey kv.1 && wfVal kv.2) = true
  rw [valid_wfKey (hall kv hkv).1, strHas_no_last (hall kv hkv).2]
  rfl

theorem wfSec_of (s : Section) (hh : wfHead s.head = true)
    (hb : wfOutline s.body = true) : wfSec s = true := by
  obtain ⟨h, a, cs⟩ := s
  rw [wfOutline, Bool.and_eq_true] at hb
  have hh2 : wfHead h = true := hh
  have hb1 : wfAttrsL a = true := hb.1
  have hb2 : wfSecs cs = true := hb.2
  rw [wfSec, hh2, hb1, hb2]
  rfl

theorem wfSecs_of_all : ∀ cs : List Section,
    (∀ s ∈ cs, wfSec s = true) → wfSecs cs = true
  | [] => by intro _; rfl
  | s :: rest => by
      intro h
      rw [wfSecs, h s (List.mem_cons_self _ _),
        wfSecs_of_all rest (fun s2 h2 => h s2 (List.mem_cons_of_mem _ h2))]
      rfl

theorem attrs_chunks_eq (a : List (String × String))
    (hall : ∀ kv ∈ a, strHas kv.2 '\n' = false ∧ trimStr kv.2 = kv.2) :
    strConcat (a.map (fun kv => procChunk (":" ++ kv.1) kv.2)) =
      strConcat ((printAttrsU "  " 0 a).map (fun l => l ++ "\n")) := by
  rw [printAttrsU_inline 0 a (fun kv h => (hall kv h).1), List.map_map]
  refine congrArg strConcat (List.map_congr_left ?_)
  intro kv hkv
  exact attr_chunk_eq kv.1 kv.2 (hall kv hkv).1 (hall kv hkv).2

theorem secs_chunks_eq :
    ∀ cs : List Section,
      (∀ s ∈ cs, wfOutline s.body = true ∧ nbOutline s.body = true ∧
        ¬(s.body.attrs = [] ∧ s.body.children = [])) →
      strConcat (cs.map (fun s =>
          procChunk s.head (toStringStyled (Indentation.spaces 2) s.body))) =
        strConcat ((printSecsU "  " 0 cs).map (fun l => l ++ "\n"))
  | [] => by intro _; rfl
  | s :: rest => by
      intro hall
      obtain ⟨h1, h2, h3⟩ := hall s (List.mem_cons_self _ _)
      rw [List.map_cons, strConcat, printSecsU, List.map_append,
        strConcat_append, sec_chunk_eq s h1 h2 h3,
        secs_chunks_eq rest
          (fun s2 hs2 => hall s2 (List.mem_cons_of_mem _ hs2))]

theorem sec_procFile (s : Section) (hwf : wfOutline s.body = true)
    (hnb : nbOutline s.body = true)
    (hne : ¬(s.body.attrs = [] ∧ s.body.children = []))
    (st : Option Indentation) (hst : stOk st) :
    ∃ st2, stOk st2 ∧
      procFile "" s.head st (toStringStyled (Indentation.spaces 2) s.body) =
        .ok (procChunk s.head
          (toStringStyled (Indentation.spaces 2) s.body), st2) := by
  have htext : toStringStyled (Indentation.spaces 2) s.body =
      joinNl (printBlockU "  " 0 s.body) := rfl
  have hnl : strHas (toStringStyled (Indentation.spaces 2) s.body)
      '\n' = true := by
    rw [htext]
    cases hlines : printBlockU "  " 0 s.body with
    | nil => exact absurd hlines (printBlock_ne_nil _ hne)
    | cons l rest => exact joinNl_has_nl l rest
  have hall : ∀ l ∈ splitLines (toStringStyled (Indentation.spaces 2)
      s.body), lineOk l := by
    rw [htext, splitLines_joinNl _ (printBlockU_no_newline 0 s.body hwf)]
    exact printBlockU_linesOk 0 s.body hnb
  exact procFile_chunk_block s.head _ st hst hnl hall

/-- **C1** [amended].  Restricted directory round trip: for an outline
whose attribute keys and section headlines satisfy the filename grammar
(keys not colon-led, values single-line and trimmed, section heads
letter-led, section bodies well-formed, blank-free and nonempty), and
whose derived file names happen to be listed in ascending order, writing
the outline to an empty directory at root `rt` and reading it back
yields the outline with the attribute list *reversed* (the entry sort
reverses every colon block, see C8) and the section list intact, the
written two-space style, and a known-files list that is a permutation of
the written paths. -/
theorem directory_round_trip_amended (rt : String) (T : Outline)
    (fuel : Nat)
    (hrt1 : strHas rt '/' = false) (hrt2 : rt ≠ "")
    (hattrs : ∀ kv ∈ T.attrs, is_valid_filename kv.1 = true ∧
      strStarts kv.1 ":" = false ∧ strHas kv.2 '\n' = false ∧
      trimStr kv.2 = kv.2)
    (hsecs : ∀ s ∈ T.children, fileSecOk s = true ∧
      wfOutline s.body = true ∧ nbOutline s.body = true ∧
      ¬(s.body.attrs = [] ∧ s.body.children = []))
    (hsorted : pairwiseLtB
      (T.attrs.map (fun kv => ":" ++ kv.1 ++ ".idm") ++
        T.children.map (fun s => s.head ++ ".idm")) = true)
    (hfuel : T.attrs.length + T.children.length + 1 ≤ fuel) :
    ∃ files : List (String × String),
      build_files rt (Indentation.spaces 2) T = .ok files ∧
      read_directory fuel rt (mount files) =
        .ok (Outline.mk T.attrs.reverse T.children, Indentation.spaces 2,
          T.attrs.reverse.map
              (fun kv => pathJoin rt (":" ++ kv.1 ++ ".idm")) ++
            T.children.map (fun s => pathJoin rt (s.head ++ ".idm"))) ∧
      (T.attrs.reverse.map
            (fun kv => pathJoin rt (":" ++ kv.1 ++ ".idm")) ++
          T.children.map (fun s => pathJoin rt (s.head ++ ".idm"))).Perm
        (files.map Prod.fst) := by
  have hvalidA : ∀ kv ∈ T.attrs,
      is_valid_filename (":" ++ kv.1 ++ ".idm") = true :=
    fun kv h => attr_name_valid (hattrs kv h).1 (hattrs kv h).2.1
  have hvalidS : ∀ s ∈ T.children,
      is_valid_filename (s.head ++ ".idm") = true :=
    fun s h => is_valid_append (fileSecOk_parts (hsecs s h).1).2.1 idm_chars
  have hbuild := build_files_ok rt (Indentation.spaces 2) T
    (fun kv h => ⟨(hattrs kv h).1, (hattrs kv h).2.2.1⟩)
    (fun s h => (hsecs s h).1)
  refine ⟨_, hbuild, ?_, ?_⟩
  · -- the read-back equation
    have hmount : mount
        (T.attrs.map (fun kv =>
            (pathJoin rt (":" ++ kv.1 ++ ".idm"), kv.2)) ++
          T.children.map (fun s =>
            (pathJoin rt (s.head ++ ".idm"),
              toStringStyled (Indentation.spaces 2) s.body))) =
        T.attrs.map (fun kv =>
            (":" ++ kv.1 ++ ".idm", FNode.file kv.2)) ++
          T.children.map (fun s =>
            (s.head ++ ".idm",
              FNode.file (toStringStyled (Indentation.spaces 2)
                s.body))) := by
      have hseg : ∀ e ∈ (T.attrs.map (fun kv =>
            (pathJoin rt (":" ++ kv.1 ++ ".idm"),
              ":" ++ kv.1 ++ ".idm", kv.2)) ++
          T.children.map (fun s =>
            (pathJoin rt (s.head ++ ".idm"), s.head ++ ".idm",
              toStringStyled (Indentation.spaces 2) s.body))),
          (segOf e.1).drop 1 = [e.2.1] := by
        intro e he
        rcases List.mem_append.mp he with h1 | h1
        · obtain ⟨kv, hkv, rfl⟩ := List.mem_map.mp h1
          rw [segOf_pathJoin rt _ hrt1 hrt2
            (valid_no_char (hvalidA kv hkv) '/' (by decide) (by decide))
            (valid_ne_empty (hvalidA kv hkv))]
          rfl
        · obtain ⟨s, hs, rfl⟩ := List.mem_map.mp h1
          rw [segOf_pathJoin rt _ hrt1 hrt2
            (valid_no_char (hvalidS s hs) '/' (by decide) (by decide))
            (valid_ne_empty (hvalidS s hs))]
          rfl
      have hnd : ((T.attrs.map (fun kv =>
            (pathJoin rt (":" ++ kv.1 ++ ".idm"),
              ":" ++ kv.1 ++ ".idm", kv.2)) ++
          T.children.map (fun s =>
            (pathJoin rt (s.head ++ ".idm"), s.head ++ ".idm",
              toStringStyled (Indentation.spaces 2) s.body))).map
          (fun e => e.2.1)).Nodup := by
        have hm : (T.attrs.map (fun kv =>
              (pathJoin rt (":" ++ kv.1 ++ ".idm"),
                ":" ++ kv.1 ++ ".idm", kv.2)) ++
            T.children.map (fun s =>
              (pathJoin rt (s.head ++ ".idm"), s.head ++ ".idm",
                toStringStyled (Indentation.spaces 2) s.body))).map
            (fun e => e.2.1) =
            T.attrs.map (fun kv => ":" ++ kv.1 ++ ".idm") ++
              T.children.map (fun s => s.head ++ ".idm") := by
          rw [List.map_append, List.map_map, List.map_map]
          rfl
        rw [hm]
        exact pairwiseLtB_nodup _ hsorted
      have hX : T.attrs.map (fun kv =>
            (pathJoin rt (":" ++ kv.1 ++ ".idm"), kv.2)) ++
          T.children.map (fun s =>
            (pathJoin rt (s.head ++ ".idm"),
              toStringStyled (Indentation.spaces 2) s.body)) =
          (T.attrs.map (fun kv =>
              (pathJoin rt (":" ++ kv.1 ++ ".idm"),
                ":" ++ kv.1 ++ ".idm", kv.2)) ++
            T.children.map (fun s =>
              (pathJoin rt (s.head ++ ".idm"), s.head ++ ".idm",
                toStringStyled (Indentation.spaces 2) s.body))).map
            (fun e => (e.1, e.2.2)) := by
        rw [List.map_append, List.map_map, List.map_map]
        rfl
      rw [mount, hX, mountGo_flat _ [] hseg
        (fun e _ pr hpr => absurd hpr (List.not_mem_nil pr)) hnd,
        List.nil_append, List.map_append, List.map_map, List.map_map]
      rfl
    rw [hmount, read_directory]
    have hsortName : sortByName
        (T.attrs.map (fun kv =>
            (":" ++ kv.1 ++ ".idm", FNode.file kv.2)) ++
          T.children.map (fun s =>
            (s.head ++ ".idm",
              FNode.file (toStringStyled (Indentation.spaces 2)
                s.body)))) =
        T.attrs.map (fun kv =>
            (":" ++ kv.1 ++ ".idm", FNode.file kv.2)) ++
          T.children.map (fun s =>
            (s.head ++ ".idm",
              FNode.file (toStringStyled (Indentation.spaces 2)
                s.body))) := by
      rw [sortByName]
      refine rustSortBy_of_adjNotLt _ _ ?_
      rw [adjNotLt_fst]
      have hm : (T.attrs.map (fun kv =>
            (":" ++ kv.1 ++ ".idm", FNode.file kv.2)) ++
          T.children.map (fun s =>
            (s.head ++ ".idm",
              FNode.file (toStringStyled (Indentation.spaces 2)
                s.body)))).map (fun pr => pr.1) =
          T.attrs.map (fun kv => ":" ++ kv.1 ++ ".idm") ++
            T.children.map (fun s => s.head ++ ".idm") := by
        rw [List.map_append, List.map_map, List.map_map]
        rfl
      rw [hm]
      exact adjLt_imp_adjNotLt _ (pairwiseLtB_adjLt _ hsorted)
    rw [hsortName]
    have hmk : mkElts
        (T.attrs.map (fun kv =>
            (":" ++ kv.1 ++ ".idm", FNode.file kv.2)) ++
          T.children.map (fun s =>
            (s.head ++ ".idm",
              FNode.file (toStringStyled (Indentation.spaces 2)
                s.body)))) =
        .ok (T.attrs.map (fun kv =>
            (":" ++ kv.1, ":" ++ kv.1 ++ ".idm", FNode.file kv.2)) ++
          T.children.map (fun s =>
            (s.head, s.head ++ ".idm",
              FNode.file (toStringStyled (Indentation.spaces 2)
                s.body)))) := by
      have hE : T.attrs.map (fun kv =>
            (":" ++ kv.1 ++ ".idm", FNode.file kv.2)) ++
          T.children.map (fun s =>
            (s.head ++ ".idm",
              FNode.file (toStringStyled (Indentation.spaces 2)
                s.body))) =
          (T.attrs.map (fun kv => (":" ++ kv.1, kv.2)) ++
            T.children.map (fun s =>
              (s.head, toStringStyled (Indentation.spaces 2)
                s.body))).map
            (fun e => (e.1 ++ ".idm", FNode.file e.2)) := by
        rw [List.map_append, List.map_map, List.map_map]
        rfl
      have hPok : ∀ e ∈ T.attrs.map (fun kv => (":" ++ kv.1, kv.2)) ++
          T.children.map (fun s =>
            (s.head, toStringStyled (Indentation.spaces 2) s.body)),
          (colonH e.1 = true ∨ letterH e.1 = true) ∧
            is_valid_filename (e.1 ++ ".idm") = true := by
        intro e he
        rcases List.mem_append.mp he with h1 | h1
        · obtain ⟨kv, hkv, rfl⟩ := List.mem_map.mp h1
          exact ⟨Or.inl (colonH_colon_append kv.1), hvalidA kv hkv⟩
        · obtain ⟨s, hs, rfl⟩ := List.mem_map.mp h1
          exact ⟨Or.inr (fileSecOk_parts (hsecs s hs).1).1, hvalidS s hs⟩
      rw [hE, mkElts_flat _ hPok, List.map_append, List.map_map,
        List.map_map]
      rfl
    rw [hmk]
    dsimp only
    have hse : sortElts
        (T.attrs.map (fun kv =>
            (":" ++ kv.1, ":" ++ kv.1 ++ ".idm", FNode.file kv.2)) ++
          T.children.map (fun s =>
            (s.head, s.head ++ ".idm",
              FNode.file (toStringStyled (Indentation.spaces 2)
                s.body)))) =
        (T.attrs.map (fun kv =>
            (":" ++ kv.1, ":" ++ kv.1 ++ ".idm",
              FNode.file kv.2))).reverse ++
          T.children.map (fun s =>
            (s.head, s.head ++ ".idm",
              FNode.file (toStringStyled (Indentation.spaces 2)
                s.body))) := by
      rw [sortElts]
      refine rustSortBy_colon_letter
        (fun t : String × String × FNode => t.1) _ _ ?_ ?_
      · intro c hc
        obtain ⟨kv, hkv, rfl⟩ := List.mem_map.mp hc
        exact colonH_colon_append kv.1
      · intro l hl
        obtain ⟨s, hs, rfl⟩ := List.mem_map.mp hl
        exact (fileSecOk_parts (hsecs s hs).1).1
    rw [hse]
    have hLmap : (T.attrs.map (fun kv =>
          (":" ++ kv.1, ":" ++ kv.1 ++ ".idm",
            FNode.file kv.2))).reverse ++
        T.children.map (fun s =>
          (s.head, s.head ++ ".idm",
            FNode.file (toStringStyled (Indentation.spaces 2)
              s.body))) =
        (T.attrs.reverse.map (fun kv =>
            (":" ++ kv.1, ":" ++ kv.1 ++ ".idm", kv.2)) ++
          T.children.map (fun s =>
            (s.head, s.head ++ ".idm",
              toStringStyled (Indentation.spaces 2) s.body))).map
          (fun e => (e.1, e.2.1, FNode.file e.2.2)) := by
      rw [List.map_append, List.map_map, List.map_map,
        List.map_reverse]
      rfl
    rw [hLmap]
    have hproc : ∀ e ∈ T.attrs.reverse.map (fun kv =>
          (":" ++ kv.1, ":" ++ kv.1 ++ ".idm", kv.2)) ++
        T.children.map (fun s =>
          (s.head, s.head ++ ".idm",
            toStringStyled (Indentation.spaces 2) s.body)),
        ∀ st1 : Option Indentation, stOk st1 →
          ∃ st2, stOk st2 ∧
            procFile "" e.1 st1 e.2.2 =
              .ok (procChunk e.1 e.2.2, st2) := by
      intro e he st1 hst1
      rcases List.mem_append.mp he with h1 | h1
      · obtain ⟨kv, hkv, rfl⟩ := List.mem_map.mp h1
        rw [List.mem_reverse] at hkv
        exact ⟨st1, hst1,
          procFile_chunk_inline _ _ st1 (hattrs kv hkv).2.2.1⟩
      · obtain ⟨s, hs, rfl⟩ := List.mem_map.mp h1
        exact sec_procFile s (hsecs s hs).2.1 (hsecs s hs).2.2.1
          (hsecs s hs).2.2.2 st1 hst1
    have hlen : (T.attrs.reverse.map (fun kv =>
          (":" ++ kv.1, ":" ++ kv.1 ++ ".idm", kv.2)) ++
        T.children.map (fun s =>
          (s.head, s.head ++ ".idm",
            toStringStyled (Indentation.spaces 2) s.body))).length =
        T.attrs.length + T.children.length := by
      simp [List.length_append, List.length_map, List.length_reverse]
    obtain ⟨stf, hstf, hread⟩ := readEltsF_files rt
      (T.attrs.reverse.map (fun kv =>
          (":" ++ kv.1, ":" ++ kv.1 ++ ".idm", kv.2)) ++
        T.children.map (fun s =>
          (s.head, s.head ++ ".idm",
            toStringStyled (Indentation.spaces 2) s.body)))
      (fuel - (T.attrs.length + T.children.length + 1)) none
      (Or.inl rfl) hproc
    have hk : fuel = (fuel - (T.attrs.length + T.children.length + 1)) +
        (T.attrs.reverse.map (fun kv =>
            (":" ++ kv.1, ":" ++ kv.1 ++ ".idm", kv.2)) ++
          T.children.map (fun s =>
            (s.head, s.head ++ ".idm",
              toStringStyled (Indentation.spaces 2) s.body))).length +
        1 := by
      rw [hlen]
      omega
    rw [hk, hread]
    dsimp only
    have hwfO : wfOutline (Outline.mk T.attrs.reverse T.children) =
        true := by
      rw [wfOutline]
      show (wfAttrsL T.attrs.reverse && wfSecs T.children) = true
      rw [wfAttrsL_of T.attrs.reverse (fun kv h => by
          rw [List.mem_reverse] at h
          exact ⟨(hattrs kv h).1, (hattrs kv h).2.2.1⟩),
        wfSecs_of_all T.children (fun s hs =>
          wfSec_of s
            (letterH_wfHead (fileSecOk_parts (hsecs s hs).1).2.1
              (fileSecOk_parts (hsecs s hs).1).1)
            (hsecs s hs).2.1)]
      rfl
    have htext : strConcat ((T.attrs.reverse.map (fun kv =>
          (":" ++ kv.1, ":" ++ kv.1 ++ ".idm", kv.2)) ++
        T.children.map (fun s =>
          (s.head, s.head ++ ".idm",
            toStringStyled (Indentation.spaces 2) s.body))).map
          (fun e => procChunk e.1 e.2.2)) =
        printOutline (Outline.mk T.attrs.reverse T.children) := by
      rw [List.map_append, List.map_map, List.map_map,
        strConcat_append, printOutline, printBlock, printBlockU,
        joinNl_eq_strConcat, List.map_append, strConcat_append]
      have ha := attrs_chunks_eq T.attrs.reverse (fun kv h => by
        rw [List.mem_reverse] at h
        exact ⟨(hattrs kv h).2.2.1, (hattrs kv h).2.2.2⟩)
      have hs := secs_chunks_eq T.children (fun s hs =>
        ⟨(hsecs s hs).2.1, (hsecs s hs).2.2.1, (hsecs s hs).2.2.2⟩)
      exact congrArg₂ (· ++ ·) ha hs
    rw [htext, parseOutline_printOutline _ hwfO, stOk_getD hstf,
      List.map_append, List.map_map, List.map_map]
    rfl
  · -- permutation of known files and written files
    rw [List.map_append, List.map_map, List.map_map, List.map_reverse]
    exact List.Perm.append_right _ (List.reverse_perm _)
/-- A conforming outline for the restricted round trip: ascending file
names, letter-led section heads, nonempty section bodies. -/
def rtaDoc : Outline :=
  ⟨[("a", "1"), ("b", "2")],
    [Section.mk "x" [] [Section.mk "p" [] []],
      Section.mk "y" [] [Section.mk "q" [] []]]⟩

set_option maxRecDepth 100000 in
theorem directory_round_trip_amended_witness :
    ∃ files : List (String × String),
      build_files "r" (Indentation.spaces 2) rtaDoc = .ok files ∧
      read_directory 5 "r" (mount files) =
        .ok (Outline.mk rtaDoc.attrs.reverse rtaDoc.children,
          Indentation.spaces 2,
          rtaDoc.attrs.reverse.map
              (fun kv => pathJoin "r" (":" ++ kv.1 ++ ".idm")) ++
            rtaDoc.children.map
              (fun s => pathJoin "r" (s.head ++ ".idm"))) ∧
      (rtaDoc.attrs.reverse.map
            (fun kv => pathJoin "r" (":" ++ kv.1 ++ ".idm")) ++
          rtaDoc.children.map
            (fun s => pathJoin "r" (s.head ++ ".idm"))).Perm
        (files.map Prod.fst) :=
  directory_round_trip_amended "r" rtaDoc 5 (by decide) (by decide)
    (by decide) (by decide) (by decide) (by decide)

end Ont
